import Mathlib

/-!
Verification of the nano-vllm continuous-batching inference engine.

This file gives a shallow embedding, in Lean 4, of the engine's core
components — the block pool (`BlockManager`), the request/scheduler state
machine (`Scheduler::schedule`, `BatchedRunner::run_prefill_batch` /
`run_decode_batch`), the paged-state reset (`initialize_paged_attention`),
the sampler (`Sampler::sample`), the tokenizer (`Tokenizer::encode`) and the
two attention kernels (`Attention::standard_attention` /
`Attention::paged_attention`) — and proves or refutes the specified
properties of each.  C++ machine integers are modelled as `Nat`/`Int`
(no value in the modelled flows approaches 2^31, and the one place where
unsigned wraparound matters — the tokenizer's merge scan on an empty token
list — is modelled explicitly as a failure); C++ exceptions are modelled as
`Except`; `std::vector` index accesses are modelled with explicit defaults
or `Option` where out-of-range access would be undefined behaviour.
-/

namespace NanoVllm

/-! ## Association lists

`std::unordered_map<int, …>` values are modelled as association lists with
(in the reachable states) unique keys.  Iteration order of an
`unordered_map` is unspecified in C++; the modelled flows only ever iterate
a single looked-up entry, so the list order is immaterial.  -/

/-- Look up a key (models `map.find`). -/
def alist_get {α : Type} : List (Nat × α) → Nat → Option α
  | [], _ => none
  | (k, v) :: rest, key => if k = key then some v else alist_get rest key

/-- Replace the value of an existing key (models writing through a found
iterator); absent keys are left untouched. -/
def alist_set {α : Type} : List (Nat × α) → Nat → α → List (Nat × α)
  | [], _, _ => []
  | (k, v) :: rest, key, w =>
      if k = key then (k, w) :: rest else (k, v) :: alist_set rest key w

/-- Remove the entry of a key (models `map.erase(it)`). -/
def alist_erase {α : Type} : List (Nat × α) → Nat → List (Nat × α)
  | [], _ => []
  | (k, v) :: rest, key => if k = key then rest else (k, v) :: alist_erase rest key

/-- Append values to a key's list, creating the entry when absent
(models `map[key].push_back(...)` / bulk insert at `map[key]`). -/
def alist_append_blocks : List (Nat × List Nat) → Nat → List Nat → List (Nat × List Nat)
  | [], key, bs => [(key, bs)]
  | (k, v) :: rest, key, bs =>
      if k = key then (k, v ++ bs) :: rest
      else (k, v) :: alist_append_blocks rest key bs

/-! ## Block pool (`BlockManager`)

Embedding of the first `BlockManager` class of
`src/include/scheduler/batched_runner.hpp` (the variant with the
per-request owner map `request_blocks_` and a mutex).  The mutex serialises
the operations; the sequential semantics modelled here is exactly the
locked bodies. -/

structure BlockManager where
  num_blocks : Nat
  block_size : Nat
  /-- `free_blocks_` : one bit per physical block, `true` = free. -/
  free_blocks : List Bool
  /-- `num_free_blocks_` : the maintained free count. -/
  num_free_blocks : Nat
  /-- `request_blocks_` : owner map, request id → ordered list of owned
  physical block ids. -/
  request_blocks : List (Nat × List Nat)
deriving Repr, DecidableEq

namespace BlockManager

/-- The constructor `BlockManager(num_blocks, block_size)`. -/
def init (numBlocks blockSize : Nat) : BlockManager :=
  { num_blocks := numBlocks
    block_size := blockSize
    free_blocks := List.replicate numBlocks true
    num_free_blocks := numBlocks
    request_blocks := [] }

/-- The ascending scan `for (i = 0; i < num_blocks_; i++) if (free_blocks_[i])`
of `allocate_block_internal`: index of the first `true` bit. -/
def first_free : List Bool → Option Nat
  | [] => none
  | b :: rest => if b then some 0 else (first_free rest).map (· + 1)

/-- `allocate_block_internal`: on an empty pool return `-1` (here `none`);
otherwise claim the lowest-indexed free block.  The fall-through `-1` after
the scan (unreachable when the count is consistent) is kept. -/
def allocate_block_internal (s : BlockManager) : Option Nat × BlockManager :=
  if s.num_free_blocks = 0 then (none, s)
  else
    match first_free s.free_blocks with
    | some i =>
        (some i,
          { s with
              free_blocks := s.free_blocks.set i false
              num_free_blocks := s.num_free_blocks - 1 })
    | none => (none, s)

/-- `free_block_internal`: out-of-range ids are silently ignored; an
already-free block is left as is; otherwise the bit is set free and the
count incremented.  (Block ids produced by allocation are naturals, so the
`block_id < 0` guard of the C++ is vacuous here.) -/
def free_block_internal (s : BlockManager) (blockId : Nat) : BlockManager :=
  if s.num_blocks ≤ blockId then s
  else if s.free_blocks.getD blockId true then s
  else
    { s with
        free_blocks := s.free_blocks.set blockId true
        num_free_blocks := s.num_free_blocks + 1 }

/-- The public `free_block` (lines 392–406 of batched_runner.hpp): an
invalid id throws (`none`); an already-free block is a logged no-op;
otherwise the bit is cleared.  Note: the owner map is NOT consulted or
updated. -/
def free_block (s : BlockManager) (blockId : Nat) : Option BlockManager :=
  if s.num_blocks ≤ blockId then none
  else if s.free_blocks.getD blockId true then some s
  else
    some { s with
             free_blocks := s.free_blocks.set blockId true
             num_free_blocks := s.num_free_blocks + 1 }

/-- `allocate_block_for_request`: allocate one block and record it against
the request (`request_blocks_[request_id].push_back(block_id)`). -/
def allocate_block_for_request (s : BlockManager) (rid : Nat) :
    Option Nat × BlockManager :=
  match s.allocate_block_internal with
  | (some bid, s') =>
      (some bid,
        { s' with request_blocks := alist_append_blocks s'.request_blocks rid [bid] })
  | (none, s') => (none, s')

/-- The allocation loop of `allocate_sequence_internal`, with its rollback
branch: on a failed allocation, free everything allocated so far and return
the empty list. -/
def alloc_loop : Nat → BlockManager → List Nat → List Nat × BlockManager
  | 0, s, acc => (acc, s)
  | n + 1, s, acc =>
      match s.allocate_block_internal with
      | (some bid, s') => alloc_loop n s' (acc ++ [bid])
      | (none, s') => ([], acc.foldl free_block_internal s')

/-- `allocate_sequence_internal`: `ceil(num_tokens / block_size)` blocks, or
the empty list when not enough are free. -/
def allocate_sequence_internal (s : BlockManager) (numTokens : Nat) :
    List Nat × BlockManager :=
  let needed := (numTokens + s.block_size - 1) / s.block_size
  if s.num_free_blocks < needed then ([], s)
  else alloc_loop needed s []

/-- `allocate_for_request`: bulk-allocate and, when non-empty, record the
blocks against the request. -/
def allocate_for_request (s : BlockManager) (rid : Nat) (numTokens : Nat) :
    List Nat × BlockManager :=
  match s.allocate_sequence_internal numTokens with
  | (blocks, s') =>
      if blocks.isEmpty then (blocks, s')
      else
        (blocks,
          { s' with request_blocks := alist_append_blocks s'.request_blocks rid blocks })

/-- `free_request`: free every block of the request's owner list with
`free_block_internal`, then erase the map entry; unknown ids are a no-op. -/
def free_request (s : BlockManager) (rid : Nat) : BlockManager :=
  match alist_get s.request_blocks rid with
  | none => s
  | some bs =>
      let s' := bs.foldl free_block_internal s
      { s' with request_blocks := alist_erase s'.request_blocks rid }

/-- All owned block ids, in owner-map order. -/
def all_owned (s : BlockManager) : List Nat :=
  (s.request_blocks.map Prod.snd).flatten

/-- The spec's block-pool conservation law:
`free_count + Σ owner_list_lengths = N`. -/
def conservation (s : BlockManager) : Prop :=
  s.num_free_blocks + (s.request_blocks.map (fun e => e.2.length)).sum = s.num_blocks

instance (s : BlockManager) : Decidable s.conservation := by
  unfold conservation; infer_instance

/-- Well-formedness of a pool state: the bitmap has the declared length,
the free count plus the number of owned ids is the total block count, no id
is owned twice, and every owned id's bit is cleared. -/
structure Inv (s : BlockManager) : Prop where
  len_eq : s.free_blocks.length = s.num_blocks
  cons : s.num_free_blocks + s.all_owned.length = s.num_blocks
  owned_nodup : s.all_owned.Nodup
  owned_marked : ∀ b ∈ s.all_owned, s.free_blocks.getD b true = false

end BlockManager

/-- The block-pool operations named by the conservation claim that maintain
the owner map (`free_block` is treated separately: it does not). -/
inductive PoolOp where
  | alloc_block_for_req (rid : Nat)
  | alloc_for_req (rid : Nat) (numTokens : Nat)
  | free_req (rid : Nat)
deriving Repr, DecidableEq

/-- Apply one pool operation, keeping only the resulting state. -/
def apply_pool_op (s : BlockManager) : PoolOp → BlockManager
  | .alloc_block_for_req rid => (s.allocate_block_for_request rid).2
  | .alloc_for_req rid n => (s.allocate_for_request rid n).2
  | .free_req rid => s.free_request rid

/-- Apply a sequence of pool operations from left to right. -/
def run_pool_ops (s : BlockManager) (ops : List PoolOp) : BlockManager :=
  ops.foldl apply_pool_op s

/-! ## Requests (`scheduler/request.hpp`) -/

/-- `RequestStatus`. -/
inductive RequestStatus where
  | pending
  | prefilling
  | decoding
  | finished
  | failed
deriving Repr, DecidableEq

/-- `FinishReason`. -/
inductive FinishReason where
  | none
  | eos
  | maxTokens
  | maxSeqLen
  | oom
deriving Repr, DecidableEq

/-- The `Request` struct, restricted to the fields the modelled control flow
reads or writes.  Omitted: the prompt text, `temperature`/`top_p` (consumed
only by the sampler, modelled separately), `output_text` and the wall-clock
timing fields (`prefill_time_ms`, `decode_time_ms`, `arrival_delay_ms`),
none of which feed back into scheduling, allocation or termination. -/
structure Request where
  id : Nat
  prompt_tokens : List Nat
  /-- `sampling_params.max_tokens`. -/
  max_tokens : Nat
  status : RequestStatus
  current_pos : Nat
  num_computed_tokens : Nat
  prefill_cursor : Nat
  /-- `last_token` is an `int` initialised to `-1`, hence `Int`. -/
  last_token : Int
  finished_reason : FinishReason
  generated_tokens : List Nat
  /-- Per-request per-layer block tables. -/
  block_tables : List (List Nat)
deriving Repr, DecidableEq

namespace Request

/-- `num_prompt_tokens()`. -/
def num_prompt_tokens (r : Request) : Nat := r.prompt_tokens.length

/-- `is_prefill()` : `prefill_cursor < num_prompt_tokens()`. -/
def is_prefill (r : Request) : Bool := decide (r.prefill_cursor < r.num_prompt_tokens)

/-- `remaining_prompt()` : `num_prompt_tokens() - prefill_cursor`. -/
def remaining_prompt (r : Request) : Nat := r.num_prompt_tokens - r.prefill_cursor

/-- `can_generate_more()` : `num_generated_tokens() < max_tokens`. -/
def can_generate_more (r : Request) : Bool :=
  decide (r.generated_tokens.length < r.max_tokens)

end Request

/-! ## Model configuration (`Config` of part_006) -/

/-- The model/engine configuration fields the modelled control flow uses. -/
structure Config where
  n_layers : Nat
  n_kv_heads : Nat
  head_dim : Nat
  max_seq_len : Nat
  use_paged_attention : Bool
  block_size : Nat
  num_blocks : Nat
deriving Repr, DecidableEq

/-! ## Scheduler (`scheduler.hpp` variant of part_001, the one used by
`BatchedRunner`) -/

/-- `SchedulerConfig`. -/
structure SchedulerConfig where
  max_batch_size : Nat
  max_tokens_per_batch : Nat
deriving Repr, DecidableEq

/-- `ScheduledBatch`.  `Request*` entries are modelled by request ids into
the engine's request store. -/
structure ScheduledBatch where
  requests : List Nat
  scheduled_tokens : List Nat
  is_prefill : Bool
  total_scheduled_tokens : Nat
deriving Repr, DecidableEq

namespace ScheduledBatch

/-- `ScheduledBatch` default construction. -/
def initB : ScheduledBatch :=
  { requests := [], scheduled_tokens := [], is_prefill := false, total_scheduled_tokens := 0 }

/-- `add(req, tokens)`. -/
def add (b : ScheduledBatch) (rid tokens : Nat) : ScheduledBatch :=
  { b with
      requests := b.requests ++ [rid]
      scheduled_tokens := b.scheduled_tokens ++ [tokens]
      total_scheduled_tokens := b.total_scheduled_tokens + tokens }

/-- `size()`. -/
def size (b : ScheduledBatch) : Nat := b.requests.length

end ScheduledBatch

/-- The engine-level state threaded through the scheduler and runner: the
scheduler's queues (`pending_queue_`, `running_requests_`), the heap of
`Request` objects (pointers modelled as ids into an association list) and
the model's `BlockManager`. -/
structure EngineState where
  cfg : Config
  sched : SchedulerConfig
  pending : List Nat
  running : List Nat
  store : List (Nat × Request)
  pool : BlockManager
deriving Repr, DecidableEq

/-- The first pass of `Scheduler::schedule()`: walk `running_requests_` in
order, adding each `DECODING` request with one token, breaking on a full
batch or an exhausted token budget.  A dangling id (absent from the store —
unreachable, since the scheduler holds pointers to live requests) is
skipped. -/
def decode_pass (store : List (Nat × Request)) (cfgS : SchedulerConfig) :
    List Nat → ScheduledBatch → ScheduledBatch
  | [], b => b
  | rid :: rest, b =>
      match alist_get store rid with
      | Option.none => decode_pass store cfgS rest b
      | some r =>
          if r.status = RequestStatus.decoding then
            if cfgS.max_batch_size ≤ b.size then b
            else if cfgS.max_tokens_per_batch < b.total_scheduled_tokens + 1 then b
            else decode_pass store cfgS rest (b.add rid 1)
          else decode_pass store cfgS rest b

/-- The second pass of `Scheduler::schedule()`: drain the pending queue in
FIFO order, admitting `min(remaining_prompt, budget_left)` tokens per head
request (chunked prefill), popping each admitted request, marking it
`PREFILLING` and appending it to `running_requests_`.  Returns the new
pending queue, store, running list and batch. -/
def prefill_pass (cfgS : SchedulerConfig) :
    List Nat → List (Nat × Request) → List Nat → ScheduledBatch →
      List Nat × List (Nat × Request) × List Nat × ScheduledBatch
  | [], store, running, b => ([], store, running, b)
  | rid :: rest, store, running, b =>
      if cfgS.max_batch_size ≤ b.size then (rid :: rest, store, running, b)
      else
        match alist_get store rid with
        | Option.none => (rid :: rest, store, running, b)
        | some r =>
            let remaining := r.remaining_prompt
            let budget_left := cfgS.max_tokens_per_batch - b.total_scheduled_tokens
            let chunk_size := min remaining budget_left
            if chunk_size = 0 then (rid :: rest, store, running, b)
            else
              prefill_pass cfgS rest
                (alist_set store rid { r with status := RequestStatus.prefilling })
                (running ++ [rid]) (b.add rid chunk_size)

/-- `Scheduler::schedule()`: decode-first, single-type batches. -/
def schedule (e : EngineState) : EngineState × ScheduledBatch :=
  let d := decode_pass e.store e.sched e.running ScheduledBatch.initB
  if d.requests.isEmpty = false then
    (e, { d with is_prefill := false })
  else
    match prefill_pass e.sched e.pending e.store e.running ScheduledBatch.initB with
    | (pending', store', running', b) =>
        let b' := if b.requests.isEmpty = false then { b with is_prefill := true } else b
        ({ e with pending := pending', store := store', running := running' }, b')

/-- `Scheduler::finish_request`: set `FINISHED`, remove every occurrence
from `running_requests_` (`std::remove` + `erase`). -/
def scheduler_finish_request (e : EngineState) (rid : Nat) : EngineState :=
  { e with
      store :=
        match alist_get e.store rid with
        | Option.none => e.store
        | some r => alist_set e.store rid { r with status := RequestStatus.finished }
      running := e.running.filter (fun x => x ≠ rid) }

/-! ## Step engine resource skeleton (`LlamaModel::forward_with_request`)

The numeric computation of the forward pass (embedding, attention, FFN,
logits) is modelled separately for the paged/contiguous equivalence claim;
here we model the allocation behaviour that the scheduling and
error-handling claims depend on: the per-layer block-boundary allocation
(part_006 lines 308–315), whose failure throws (`Except.error`). -/

/-- The per-layer body of `forward_with_request` restricted to its block
allocation: for each layer `i` (the list is `[0, …, L-1]` in order), if
`pos % block_size == 0` allocate one block for the request and append it to
`block_tables[i]`; a failed allocation throws. -/
def forward_alloc_layers (cfg : Config) (rid : Nat) (pos : Nat) :
    List Nat → BlockManager → List (List Nat) →
      Except Unit (BlockManager × List (List Nat))
  | [], pool, tables => Except.ok (pool, tables)
  | i :: rest, pool, tables =>
      if pos % cfg.block_size = 0 then
        match pool.allocate_block_for_request rid with
        | (some bid, pool') =>
            forward_alloc_layers cfg rid pos rest pool'
              (tables.set i ((tables.getD i []) ++ [bid]))
        | (Option.none, _) => Except.error ()
      else forward_alloc_layers cfg rid pos rest pool tables

/-- The allocation/bookkeeping behaviour of
`LlamaModel::forward_with_request(token, pos, req)`: lazily size the
request's block-table vector, then run the per-layer loop.  The input
token's value does not influence this part of the state. -/
def forward_with_request_alloc (cfg : Config) (pool : BlockManager) (r : Request)
    (pos : Nat) : Except Unit (BlockManager × Request) :=
  let r0 := if r.block_tables.isEmpty then
      { r with block_tables := List.replicate cfg.n_layers [] }
    else r
  match forward_alloc_layers cfg r0.id pos (List.range cfg.n_layers) pool r0.block_tables with
  | Except.ok (pool', tables') => Except.ok (pool', { r0 with block_tables := tables' })
  | Except.error u => Except.error u

/-! ## Batched runner (`BatchedRunner`) -/

/-- `BatchedRunner::finish_request`: free the request's pool blocks (paged
mode) and retire it from the scheduler. -/
def runner_finish_request (e : EngineState) (rid : Nat) : EngineState :=
  let e1 := if e.cfg.use_paged_attention then { e with pool := e.pool.free_request rid }
    else e
  scheduler_finish_request e1 rid

/-- Set a request's finish reason in the store. -/
def set_finish_reason (e : EngineState) (rid : Nat) (reason : FinishReason) : EngineState :=
  { e with
      store :=
        match alist_get e.store rid with
        | Option.none => e.store
        | some r => alist_set e.store rid { r with finished_reason := reason } }

/-- The inner loop body of `run_prefill_batch` for one request: process up
to `tokens_to_do` prompt tokens (`t` counts from 0; the bound check uses
the request's unchanged `prefill_cursor`), advancing `current_pos` and
`num_computed_tokens` after each forward call.  Only the paged mode touches
the pool. -/
def prefill_chunk (cfg : Config) :
    Nat → Nat → BlockManager → Request → Except Unit (BlockManager × Request)
  | 0, _, pool, r => Except.ok (pool, r)
  | n + 1, t, pool, r =>
      if r.num_prompt_tokens ≤ r.prefill_cursor + t then Except.ok (pool, r)
      else
        match (if cfg.use_paged_attention then
            forward_with_request_alloc cfg pool r r.current_pos
          else Except.ok (pool, r)) with
        | Except.error u => Except.error u
        | Except.ok (pool', r') =>
            prefill_chunk cfg n (t + 1) pool'
              { r' with
                  current_pos := r'.current_pos + 1
                  num_computed_tokens := r'.num_computed_tokens + 1 }

/-- The per-request body of `run_prefill_batch`: run the scheduled chunk,
advance `prefill_cursor` by the full scheduled count, and transition to
`DECODING` when the prompt is exhausted (setting `last_token` to the final
prompt token). -/
def run_prefill_entry (cfg : Config) (pool : BlockManager) (r : Request) (n : Nat) :
    Except Unit (BlockManager × Request) :=
  match prefill_chunk cfg n 0 pool r with
  | Except.error u => Except.error u
  | Except.ok (pool', r') =>
      let r2 := { r' with prefill_cursor := r'.prefill_cursor + n }
      let r3 := if r2.is_prefill = false then
          { r2 with
              last_token := (r2.prompt_tokens.getLastD 0 : Nat)
              status := RequestStatus.decoding }
        else r2
      Except.ok (pool', r3)

/-- `run_prefill_batch`: process each `(request, scheduled_tokens)` batch
entry in order.  An exception from the step engine propagates (there is no
try/catch in the runner). -/
def run_prefill_batch (entries : List (Nat × Nat)) (e : EngineState) :
    Except Unit EngineState :=
  match entries with
  | [] => Except.ok e
  | (rid, n) :: rest =>
      match alist_get e.store rid with
      | Option.none => run_prefill_batch rest e
      | some r =>
          match run_prefill_entry e.cfg e.pool r n with
          | Except.error u => Except.error u
          | Except.ok (pool', r') =>
              run_prefill_batch rest
                { e with pool := pool', store := alist_set e.store rid r' }

/-- The per-request body of `run_decode_batch` (lines 133–175): forward at
`current_pos`, sample, append the token, advance the cursors, then evaluate
the three termination conditions in order (`next == 2` → `Eos`;
`!can_generate_more()` → `MaxTokens`; `current_pos >= max_seq_len` →
`MaxSeqLen`), finishing the request when one fires.  The sampler is an
opaque parameter (its RNG and logits live outside this state).  An
exception from the step engine propagates: the runner has no try/catch,
so a failed allocation is NOT turned into a per-request failure. -/
def run_decode_step (samp : Request → Nat) (e : EngineState) (rid : Nat) :
    Except Unit EngineState :=
  match alist_get e.store rid with
  | Option.none => Except.ok e
  | some r =>
      match (if e.cfg.use_paged_attention then
          forward_with_request_alloc e.cfg e.pool r r.current_pos
        else Except.ok (e.pool, r)) with
      | Except.error u => Except.error u
      | Except.ok (pool', r') =>
          let next := samp r'
          let r2 := { r' with
              generated_tokens := r'.generated_tokens ++ [next]
              current_pos := r'.current_pos + 1
              num_computed_tokens := r'.num_computed_tokens + 1
              last_token := (next : Nat) }
          let e2 := { e with pool := pool', store := alist_set e.store rid r2 }
          if next = 2 then
            Except.ok (runner_finish_request (set_finish_reason e2 rid FinishReason.eos) rid)
          else if r2.can_generate_more = false then
            Except.ok (runner_finish_request (set_finish_reason e2 rid FinishReason.maxTokens) rid)
          else if e.cfg.max_seq_len ≤ r2.current_pos then
            Except.ok (runner_finish_request (set_finish_reason e2 rid FinishReason.maxSeqLen) rid)
          else Except.ok e2

/-- `run_decode_batch`: one decode step per batch member, in batch order;
an exception aborts the whole batch (and, transitively, `run_all`). -/
def run_decode_batch (samp : Request → Nat) :
    List Nat → EngineState → Except Unit EngineState
  | [], e => Except.ok e
  | rid :: rest, e =>
      match run_decode_step samp e rid with
      | Except.error u => Except.error u
      | Except.ok e' => run_decode_batch samp rest e'

/-- The termination rule exactly as the specification states it, in its
fixed order: EOS (id 2) first, then a generated-token count that has
reached `max_tokens`, then a `current_pos` that has reached `max_seq_len`;
otherwise the request continues. -/
def spec_termination (next genCount currentPos maxTokens maxSeqLen : Nat) : FinishReason :=
  if next = 2 then FinishReason.eos
  else if maxTokens ≤ genCount then FinishReason.maxTokens
  else if maxSeqLen ≤ currentPos then FinishReason.maxSeqLen
  else FinishReason.none

/-! ## Paged-state reset (`LlamaModel::initialize_paged_attention`,
`BatchedRunner::reset_model_state`) -/

/-- The paged part of the model's run state plus its paging components.
The buffer element type is a parameter (C++ `float`); only zeroness
matters to the claims. -/
structure LlamaModelPagedState (α : Type) where
  paged_key_cache : List α
  paged_value_cache : List α
  block_manager : Option BlockManager
  block_tables : List (List Nat)
deriving Repr, DecidableEq

/-- `std::vector::resize(n)`: truncate to `n` or grow with value-initialised
(`zero`) elements.  Existing elements are PRESERVED, not re-initialised. -/
def resize_vector {α : Type} (v : List α) (n : Nat) (zero : α) : List α :=
  v.take n ++ List.replicate (n - v.length) zero

/-- The paged cache element count
`n_layers · num_blocks · block_size · n_kv_heads · head_dim`. -/
def paged_cache_size (cfg : Config) : Nat :=
  cfg.n_layers * cfg.num_blocks * cfg.block_size * cfg.n_kv_heads * cfg.head_dim

/-- `LlamaModel::initialize_paged_attention` (part_006 lines 246–278):
no-op unless paged attention is enabled; otherwise replace the block
manager with a fresh one, resize the model-global block-table vector to
`n_layers` and clear each entry, and `resize` (NOT zero-fill) both paged
cache buffers to their full size. -/
def initialize_paged_attention {α : Type} (cfg : Config) (zero : α)
    (m : LlamaModelPagedState α) : LlamaModelPagedState α :=
  if cfg.use_paged_attention = false then m
  else
    { block_manager := some (BlockManager.init cfg.num_blocks cfg.block_size)
      block_tables :=
        (resize_vector m.block_tables cfg.n_layers ([] : List Nat)).map (fun _ => [])
      paged_key_cache := resize_vector m.paged_key_cache (paged_cache_size cfg) zero
      paged_value_cache := resize_vector m.paged_value_cache (paged_cache_size cfg) zero }

/-- `BatchedRunner::reset_model_state`, paged branch: it only calls
`initialize_paged_attention`; the `Request` objects (and hence their
per-request block tables) are not touched. -/
def reset_model_state_paged {α : Type} (cfg : Config) (zero : α)
    (m : LlamaModelPagedState α) (store : List (Nat × Request)) :
    LlamaModelPagedState α × List (Nat × Request) :=
  (initialize_paged_attention cfg zero m, store)

/-! ## Consecutive-position processing (for the block-table length law) -/

/-- Process positions `0, …, count-1` of a request consecutively through
`forward_with_request` (paged mode), advancing `current_pos` and
`num_computed_tokens` after each call exactly as both runner loops do. -/
def process_positions (cfg : Config) :
    Nat → BlockManager → Request → Except Unit (BlockManager × Request)
  | 0, pool, r => Except.ok (pool, r)
  | n + 1, pool, r =>
      match process_positions cfg n pool r with
      | Except.error u => Except.error u
      | Except.ok (pool', r') =>
          match forward_with_request_alloc cfg pool' r' r'.current_pos with
          | Except.error u => Except.error u
          | Except.ok (pool'', r'') =>
              Except.ok (pool'',
                { r'' with
                    current_pos := r''.current_pos + 1
                    num_computed_tokens := r''.num_computed_tokens + 1 })

/-! ## Concrete scenario states (used as evidence for specific claims) -/

/-- Scheduler configuration of spec scenario S5: `T_max = 32`; the
batch-size limit (8) is not binding. -/
def c3_sched : SchedulerConfig := ⟨8, 32⟩

/-- Unpaged model configuration for the chunked-prefill scenario (paging
plays no role in scheduling). -/
def c3_cfg : Config := ⟨1, 1, 1, 1000, false, 16, 8⟩

/-- A freshly admitted request with a 100-token prompt. -/
def c3_request : Request :=
  ⟨0, List.replicate 100 5, 10, RequestStatus.pending, 0, 0, 0, -1, FinishReason.none, [], []⟩

/-- Engine state: one pending request, empty running set, fresh pool. -/
def c3_engine : EngineState :=
  ⟨c3_cfg, c3_sched, [0], [], [(0, c3_request)], BlockManager.init 8 16⟩

/-- Paged configuration with a single one-token block (`N = 1`, `B = 1`). -/
def c2_cfg : Config := ⟨1, 1, 1, 100, true, 1, 1⟩

/-- A decoding request whose next position (1) sits on a block boundary,
so its decode step must allocate. -/
def c2_request0 : Request :=
  ⟨0, [4, 4], 10, RequestStatus.decoding, 1, 2, 2, 4, FinishReason.none, [], [[0]]⟩

/-- A second in-flight decoding request, scheduled after the first. -/
def c2_request1 : Request :=
  ⟨1, [4, 4], 10, RequestStatus.decoding, 1, 2, 2, 4, FinishReason.none, [], [[]]⟩

/-- A pool with its single block already owned by request 0: the next
allocation returns `-1`. -/
def c2_pool : BlockManager := ⟨1, 1, [false], 0, [(0, [0])]⟩

/-- Engine state with two decoding requests and an exhausted pool. -/
def c2_engine : EngineState :=
  ⟨c2_cfg, ⟨8, 512⟩, [], [0, 1], [(0, c2_request0), (1, c2_request1)], c2_pool⟩

/-- An arbitrary sampler stand-in (never consulted before the failing
allocation). -/
def c2_samp : Request → Nat := fun _ => 7

/-- Unpaged configuration for the single-step decode scenarios. -/
def c7_cfg : Config := ⟨1, 1, 1, 100, false, 16, 8⟩

/-- A decoding request that can still generate (`max_tokens = 3`). -/
def c7_request : Request :=
  ⟨0, [4, 4], 3, RequestStatus.decoding, 2, 2, 2, 4, FinishReason.none, [], []⟩

/-- Engine state around `c7_request`. -/
def c7_engine : EngineState :=
  ⟨c7_cfg, ⟨8, 512⟩, [], [0], [(0, c7_request)], BlockManager.init 2 16⟩

/-- A sampler stand-in returning a non-EOS token. -/
def c7_samp : Request → Nat := fun _ => 9

/-- A decoding request admitted with `max_tokens = 0` (nothing in the JSON
parser or the scheduler rejects it). -/
def c7x_request : Request :=
  ⟨0, [4, 4], 0, RequestStatus.decoding, 2, 2, 2, 4, FinishReason.none, [], []⟩

/-- Engine state around `c7x_request`. -/
def c7x_engine : EngineState :=
  ⟨c7_cfg, ⟨8, 512⟩, [], [0], [(0, c7x_request)], BlockManager.init 2 16⟩

/-- Paged configuration with one layer, `B = 16`, `N = 4` (spec scenario
S2's shape). -/
def c6_cfg : Config := ⟨1, 1, 1, 1000, true, 16, 4⟩

/-- A fresh request about to have its positions processed from 0. -/
def c6_request : Request :=
  ⟨0, [], 0, RequestStatus.decoding, 0, 0, 0, -1, FinishReason.none, [], []⟩

/-! ## Sampler (`Sampler::sample`, include/core/sampler.hpp)

Floats are modelled as `ℚ`; `expf` is an abstract parameter (the claims do
not depend on its values), and the one RNG draw
(`uniform_real_distribution(0,1)(rng)`) is passed in as `r`.  The logits
array of `vocab_size` floats is the list `logits`; the C++ reads exactly
`vocab_size` entries. -/

/-- The scan of `std::max_element`: current best value/index, advancing
index; the best is replaced only on strict `<`, so the FIRST maximal
element wins. -/
def max_element_go : List ℚ → ℚ → Nat → Nat → Nat
  | [], _, bi, _ => bi
  | x :: rest, bv, bi, ci =>
      if bv < x then max_element_go rest x ci (ci + 1)
      else max_element_go rest bv bi (ci + 1)

/-- `std::distance(logits, std::max_element(logits, logits + n))`. -/
def max_element_idx : List ℚ → Nat
  | [] => 0
  | x :: rest => max_element_go rest x 0 1

/-- `Ops::softmax` (include/ops/activation.hpp): running max from `x[0]`,
exponentiate shifted values accumulating the sum in order, then divide. -/
def softmax (expf : ℚ → ℚ) : List ℚ → List ℚ
  | [] => []
  | x0 :: rest =>
      let max_val := rest.foldl (fun m x => if m < x then x else m) x0
      let exps := (x0 :: rest).map (fun x => expf (x - max_val))
      let sum := exps.foldl (· + ·) 0
      exps.map (fun x => x / sum)

/-- Descending insertion by probability with the strict comparator
`a.p > b.p`; a deterministic refinement of the unstable `std::sort` (ties
between equal probabilities are unspecified in C++). -/
def insert_desc (x : ℚ × Nat) : List (ℚ × Nat) → List (ℚ × Nat)
  | [] => [x]
  | y :: rest => if y.1 < x.1 then x :: y :: rest else y :: insert_desc x rest

/-- Sort pairs in descending probability order. -/
def sort_desc (l : List (ℚ × Nat)) : List (ℚ × Nat) :=
  l.foldr insert_desc []

/-- The nucleus cut loop: accumulate `cum_prob` over the sorted pairs and
stop at the first index whose running sum exceeds `topp`; the default
`last_idx` is `vocab_size - 1`. -/
def topp_cut : List (ℚ × Nat) → ℚ → ℚ → Nat → Nat → ℚ × Nat
  | [], _, cum, _, dflt => (cum, dflt)
  | p :: rest, topp, cum, i, dflt =>
      let cum' := cum + p.1
      if topp < cum' then (cum', i)
      else topp_cut rest topp cum' (i + 1) dflt

/-- The nucleus CDF walk: return the pair index at the first position where
the rescaled draw falls below the running CDF. -/
def cdf_scan : List (ℚ × Nat) → ℚ → ℚ → Option Nat
  | [], _, _ => Option.none
  | p :: rest, rs, cdf =>
      let cdf' := cdf + p.1
      if rs < cdf' then some p.2 else cdf_scan rest rs cdf'

/-- The plain-sampling CDF walk over unsorted probabilities. -/
def plain_scan : List ℚ → ℚ → ℚ → Nat → Option Nat
  | [], _, _, _ => Option.none
  | p :: rest, r, cdf, i =>
      let cdf' := cdf + p
      if r < cdf' then some i else plain_scan rest r cdf' (i + 1)

/-- `Sampler::sample`: temperature-zero argmax; otherwise divide by the
temperature, softmax, then nucleus sampling when `0 < topp < 1` (sort
descending, cut at `topp`, rescale the draw by the nucleus mass, walk the
CDF, falling back to the last nucleus index) or plain CDF sampling
(falling back to `vocab_size - 1`). -/
def sample (expf : ℚ → ℚ) (temperature topp r : ℚ) (logits : List ℚ) : Nat :=
  if temperature = 0 then max_element_idx logits
  else
    let probs := softmax expf (logits.map (fun x => x / temperature))
    if 0 < topp ∧ topp < 1 then
      let pairs := probs.zip (List.range probs.length)
      let sorted := sort_desc pairs
      let cut := topp_cut sorted topp 0 0 (probs.length - 1)
      let r_scaled := r * cut.1
      match cdf_scan (sorted.take (cut.2 + 1)) r_scaled 0 with
      | some idx => idx
      | Option.none => (sorted.getD cut.2 (0, 0)).2
    else
      match plain_scan probs r 0 0 with
      | some i => i
      | Option.none => probs.length - 1

/-! ## Tokenizer (`Tokenizer::encode`, src/unnamed/part_003)

`str_lookup` binary-searches `sorted_vocab` (the vocab strings paired with
their ids, sorted by string) and returns the id of the matching entry,
else −1.  For a duplicate-free vocab that id is THE index of the string
in `vocab`, which we embed as the first-index search, with −1 as
`Option.none`.  The merge loop's out-of-range accesses are undefined
behaviour in C++ and are modelled by `encode` returning `Option.none`:
the `size_t` loop bound `tokens.size() - 1` wraps around for an empty
token vector, and `vocab[tokens[i]]` / `vocab_scores[id]` index without
bounds checks. -/

/-- Index of the first vocab entry equal to `s`, as `str_lookup` finds it. -/
def str_lookup (vocab : List String) (s : String) : Option Nat :=
  match vocab with
  | [] => Option.none
  | t :: rest => if t = s then some 0 else (str_lookup rest s).map (· + 1)

/-- The token list before merging: BOS id 1 when `bos`; the dummy-prefix
lookup of `" "` when the text is non-empty (skipped when absent); then one
lookup per character, silently dropping characters whose one-character
string is not in the vocab (no byte fallback). -/
def encode_pre_merge (vocab : List String) (text : List Char) (bos : Bool) : List Nat :=
  (if bos then [1] else []) ++
    (if text = [] then []
     else
       match str_lookup vocab " " with
       | some d => [d]
       | Option.none => []) ++
    text.filterMap (fun c => str_lookup vocab (String.mk [c]))

/-- One scan of the merge loop (`for i in [0, tokens.size()-1)`), carrying
the running best score (replaced only on strict `>`), best merged id and
best index; `none` models an out-of-range `vocab` / `vocab_scores` read. -/
def merge_scan (vocab : List String) (scores : List ℚ) :
    List Nat → Nat → ℚ → Option (Nat × Nat) → Option (Option (Nat × Nat))
  | [], _, _, best => some best
  | [_], _, _, best => some best
  | a :: b :: rest, i, bestScore, best =>
      match vocab[a]?, vocab[b]? with
      | some sa, some sb =>
          (match str_lookup vocab (sa ++ sb) with
           | some id =>
               match scores[id]? with
               | some sc =>
                   if bestScore < sc then
                     merge_scan vocab scores (b :: rest) (i + 1) sc (some (i, id))
                   else merge_scan vocab scores (b :: rest) (i + 1) bestScore best
               | Option.none => Option.none
           | Option.none => merge_scan vocab scores (b :: rest) (i + 1) bestScore best)
      | _, _ => Option.none

/-- One full scan: best score initialised to `-1e10`, `best_idx = -1`
(`some Option.none` = no merge found).  For an empty token vector the
`size_t` bound wraps and the loop reads past the end: `Option.none`. -/
def find_best_merge (vocab : List String) (scores : List ℚ) (tokens : List Nat) :
    Option (Option (Nat × Nat)) :=
  match tokens with
  | [] => Option.none
  | _ :: _ => merge_scan vocab scores tokens 0 (-(10 ^ 10 : ℚ)) Option.none

/-- `tokens[best_idx] = best_id; tokens.erase(begin + best_idx + 1)`. -/
def apply_merge (tokens : List Nat) (idx id : Nat) : List Nat :=
  (tokens.set idx id).eraseIdx (idx + 1)

/-- The `while (true)` merge loop body, recursing structurally on a fuel
bound: every applied merge shortens the token vector by one, so
`|tokens|` iterations always suffice and the fuel-exhausted
`some (some _)` case at fuel 0 is unreachable from `merge_loop`. -/
def merge_loop_go (vocab : List String) (scores : List ℚ) :
    Nat → List Nat → Option (List Nat)
  | 0, tokens =>
      match find_best_merge vocab scores tokens with
      | Option.none => Option.none
      | some Option.none => some tokens
      | some (some _) => Option.none
  | fuel + 1, tokens =>
      match find_best_merge vocab scores tokens with
      | Option.none => Option.none
      | some Option.none => some tokens
      | some (some (idx, id)) =>
          merge_loop_go vocab scores fuel (apply_merge tokens idx id)

/-- The merge loop: scan for the best adjacent merge, stop when none is
found (`best_idx == -1`), else apply it and repeat. -/
def merge_loop (vocab : List String) (scores : List ℚ) (tokens : List Nat) :
    Option (List Nat) :=
  merge_loop_go vocab scores tokens.length tokens

/-- `Tokenizer::encode` over the loaded vocab and score tables; a `none`
result marks a run into undefined behaviour. -/
def encode (vocab : List String) (scores : List ℚ) (text : List Char)
    (bos eos : Bool) : Option (List Nat) :=
  match merge_loop vocab scores (encode_pre_merge vocab text bos) with
  | Option.none => Option.none
  | some tokens => some (tokens ++ if eos then [2] else [])

/-! ## Paged vs contiguous attention and generation (C1)

`Attention::standard_attention` / `Attention::paged_attention`
(src/unnamed/part_004); `LlamaModel::forward` with
`use_paged_attention = false` and `LlamaModel::forward_with_request`
(src/unnamed/part_006).

Floats are `ℚ`; `expf` is abstract and `1.0f / sqrtf(head_dim)` is the
abstract `scale` (both identical in the two kernels).  Flat float buffers
are address functions `Nat → ℚ` (every read the compared runs perform is
in bounds), `memcpy` is `store_vec`.  The numeric operators outside the
attention kernels and the KV-cache plumbing — rms_norm, the Q/K/V and
output matmuls, RoPE, the FFN, the classifier — are byte-identical code
on both paths and are abstracted as an opaque `ModelOps` record applied
to equal arguments. -/

/-- `memcpy(buf + off, src, len * sizeof(float))` on a flat buffer. -/
def store_vec (buf : Nat → ℚ) (off : Nat) (src : Nat → ℚ) (len : Nat) : Nat → ℚ :=
  fun a => if off ≤ a ∧ a < off + len then src (a - off) else buf a

/-- The in-kernel softmax shared verbatim by both attention
implementations: running max from `-1e10`, exponentiate shifted scores
accumulating the sum in order, then divide. -/
def att_softmax (expf : ℚ → ℚ) (scores : List ℚ) : List ℚ :=
  let max_val := scores.foldl (fun m x => if m < x then x else m) (-(10 ^ 10 : ℚ))
  let exps := scores.map (fun x => expf (x - max_val))
  let sum := exps.foldl (· + ·) 0
  exps.map (fun x => x / sum)

/-- `Attention::standard_attention`: per head `h = j / head_dim`, scores
over `t ∈ [0, pos]` read the layer-offset contiguous cache at
`t*Hkv*hd + kv_h*hd + i`; softmax; weighted value sum.  `out` has
`n_heads * head_dim` entries. -/
def standard_attention (expf : ℚ → ℚ) (scale : ℚ) (q key_cache value_cache : Nat → ℚ)
    (pos hd n_heads n_kv_heads : Nat) : List ℚ :=
  (List.range (n_heads * hd)).map (fun j =>
    let kv_mul := n_heads / n_kv_heads
    let h := j / hd
    let i := j % hd
    let kv_h := h / kv_mul
    let att := att_softmax expf ((List.range (pos + 1)).map (fun t =>
      (((List.range hd).map (fun i2 =>
        q (h * hd + i2) * key_cache (t * (n_kv_heads * hd) + kv_h * hd + i2))).sum) * scale))
    ((List.range (pos + 1)).map (fun t =>
      att.getD t 0 * value_cache (t * (n_kv_heads * hd) + kv_h * hd + i))).sum)

/-- `Attention::paged_attention`: the same per-head computation with `t`
resolved through the block table —
`block_table[t/B] * B*Hkv*hd + (t%B)*Hkv*hd + kv_h*hd + i`. -/
def paged_attention (expf : ℚ → ℚ) (scale : ℚ) (q key_cache value_cache : Nat → ℚ)
    (block_table : List Nat) (num_tokens B hd n_heads n_kv_heads : Nat) : List ℚ :=
  (List.range (n_heads * hd)).map (fun j =>
    let kv_mul := n_heads / n_kv_heads
    let h := j / hd
    let i := j % hd
    let kv_h := h / kv_mul
    let att := att_softmax expf ((List.range num_tokens).map (fun t =>
      (((List.range hd).map (fun i2 =>
        q (h * hd + i2) * key_cache (block_table.getD (t / B) 0 * (B * (n_kv_heads * hd)) +
          (t % B) * (n_kv_heads * hd) + kv_h * hd + i2))).sum) * scale))
    ((List.range num_tokens).map (fun t =>
      att.getD t 0 * value_cache (block_table.getD (t / B) 0 * (B * (n_kv_heads * hd)) +
        (t % B) * (n_kv_heads * hd) + kv_h * hd + i))).sum)

/-- The model dimensions read by `forward`/`forward_with_request`. -/
structure MCfg where
  n_layers : Nat
  n_heads : Nat
  n_kv_heads : Nat
  head_dim : Nat
  max_seq_len : Nat
  block_size : Nat
  num_blocks : Nat
deriving Repr, DecidableEq

/-- One KV vector's float count, `n_kv_heads * head_dim`. -/
def kvdim (cfg : MCfg) : Nat := cfg.n_kv_heads * cfg.head_dim

/-- The numeric operators around the KV cache and attention kernel,
identical code (and weights) on both paths: token embedding; rms_norm +
Q/K/V matmuls + RoPE as a function of layer, residual stream and
position; output projection + residual + FFN + residual; final rms_norm +
classifier.  `expf` and `scale` feed the attention kernels. -/
structure ModelOps where
  embed : Nat → (Nat → ℚ)
  qkv : Nat → (Nat → ℚ) → Nat → ((Nat → ℚ) × (Nat → ℚ) × (Nat → ℚ))
  postAtt : Nat → (Nat → ℚ) → List ℚ → (Nat → ℚ)
  classify : (Nat → ℚ) → (Nat → ℚ)
  expf : ℚ → ℚ
  scale : ℚ

/-- One layer of `forward` with `use_paged_attention = false`: QKV+RoPE,
contiguous cache write at `i*S*kvdim + pos*kvdim`, `standard_attention`
on the layer's cache slice, then the post-attention block. -/
def std_layer (cfg : MCfg) (ops : ModelOps) (pos i : Nat)
    (acc : (Nat → ℚ) × (Nat → ℚ) × (Nat → ℚ)) :
    (Nat → ℚ) × (Nat → ℚ) × (Nat → ℚ) :=
  let qkvs := ops.qkv i acc.1 pos
  let layer_offset := i * (cfg.max_seq_len * kvdim cfg)
  let Ks := store_vec acc.2.1 (layer_offset + pos * kvdim cfg) qkvs.2.1 (kvdim cfg)
  let Vs := store_vec acc.2.2 (layer_offset + pos * kvdim cfg) qkvs.2.2 (kvdim cfg)
  let att_out := standard_attention ops.expf ops.scale qkvs.1
    (fun a => Ks (layer_offset + a)) (fun a => Vs (layer_offset + a))
    pos cfg.head_dim cfg.n_heads cfg.n_kv_heads
  (ops.postAtt i acc.1 att_out, Ks, Vs)

/-- `forward` with `use_paged_attention = false`: embed, run all layers,
classify.  Returns the logits and the updated contiguous caches. -/
def std_forward (cfg : MCfg) (ops : ModelOps) (token pos : Nat)
    (Ks Vs : Nat → ℚ) : (Nat → ℚ) × (Nat → ℚ) × (Nat → ℚ) :=
  let res := (List.range cfg.n_layers).foldl
    (fun acc i => std_layer cfg ops pos i acc) (ops.embed token, Ks, Vs)
  (ops.classify res.1, res.2.1, res.2.2)

/-- The paged per-request model state: the block pool, the request's
per-layer block tables, and the flat paged KV buffers. -/
structure PagedReqState where
  pool : BlockManager
  tables : List (List Nat)
  Kp : Nat → ℚ
  Vp : Nat → ℚ

/-- `if (req->block_tables.empty()) req->block_tables.resize(n_layers)`. -/
def norm_tables (cfg : MCfg) (st : PagedReqState) : PagedReqState :=
  if st.tables = [] then { st with tables := List.replicate cfg.n_layers [] } else st

/-- One layer of `forward_with_request`: QKV+RoPE; on a block boundary
allocate one block for the request (`-1` → the thrown OOM, modelled as
`none`) and append it to the layer's table; write K/V at
`i*N*B*kvdim + physical*B*kvdim + (pos%B)*kvdim`; `paged_attention`
over the layer slice with `num_tokens = pos+1`; post-attention block. -/
def paged_layer (cfg : MCfg) (ops : ModelOps) (rid pos i : Nat) :
    Option ((Nat → ℚ) × PagedReqState) → Option ((Nat → ℚ) × PagedReqState)
  | Option.none => Option.none
  | some (x, st) =>
      let qkvs := ops.qkv i x pos
      let alloc : Option (BlockManager × List (List Nat)) :=
        if pos % cfg.block_size = 0 then
          match st.pool.allocate_block_for_request rid with
          | (some b, pool') => some (pool', st.tables.set i (st.tables.getD i [] ++ [b]))
          | (Option.none, _) => Option.none
        else some (st.pool, st.tables)
      match alloc with
      | Option.none => Option.none
      | some (pool', tables') =>
          let table := tables'.getD i []
          let layer_offset := i * (cfg.num_blocks * (cfg.block_size * kvdim cfg))
          let off := layer_offset +
            table.getD (pos / cfg.block_size) 0 * (cfg.block_size * kvdim cfg) +
            (pos % cfg.block_size) * kvdim cfg
          let Kp := store_vec st.Kp off qkvs.2.1 (kvdim cfg)
          let Vp := store_vec st.Vp off qkvs.2.2 (kvdim cfg)
          let att_out := paged_attention ops.expf ops.scale qkvs.1
            (fun a => Kp (layer_offset + a)) (fun a => Vp (layer_offset + a))
            table (pos + 1) cfg.block_size cfg.head_dim cfg.n_heads cfg.n_kv_heads
          some (ops.postAtt i x att_out, ⟨pool', tables', Kp, Vp⟩)

/-- `forward_with_request`: resize empty block tables to `n_layers`,
embed, run all layers (an allocation failure aborts the step), classify. -/
def paged_forward (cfg : MCfg) (ops : ModelOps) (rid token pos : Nat)
    (st : PagedReqState) : Option ((Nat → ℚ) × PagedReqState) :=
  match (List.range cfg.n_layers).foldl
      (fun acc i => paged_layer cfg ops rid pos i acc)
      (some (ops.embed token, norm_tables cfg st)) with
  | Option.none => Option.none
  | some (x, st') => some (ops.classify x, st')

/-- The contiguous-side generation driver: each step runs `forward`,
samples the next token from the logits (the sampler is a function of the
step position and the logits — a fixed RNG seed yields the same function
on both runs), and records the step's logits and emitted token. -/
def std_gen (cfg : MCfg) (ops : ModelOps) (samp : Nat → (Nat → ℚ) → Nat) :
    Nat → Nat → Nat → (Nat → ℚ) → (Nat → ℚ) → List ((Nat → ℚ) × Nat)
  | 0, _, _, _, _ => []
  | steps + 1, token, pos, Ks, Vs =>
      let res := std_forward cfg ops token pos Ks Vs
      let next := samp pos res.1
      (res.1, next) :: std_gen cfg ops samp steps next (pos + 1) res.2.1 res.2.2

/-- The paged-side generation driver (`forward_with_request` each step);
an allocation failure anywhere surfaces as `none`. -/
def paged_gen (cfg : MCfg) (ops : ModelOps) (samp : Nat → (Nat → ℚ) → Nat) (rid : Nat) :
    Nat → Nat → Nat → PagedReqState → Option (List ((Nat → ℚ) × Nat))
  | 0, _, _, _ => some []
  | steps + 1, token, pos, st =>
      match paged_forward cfg ops rid token pos st with
      | Option.none => Option.none
      | some (logits, st') =>
          (paged_gen cfg ops samp rid steps (samp pos logits) (pos + 1) st').map
            (fun rest => (logits, samp pos logits) :: rest)

/-- Number of blocks a layer's table holds after positions `0, …, p−1`
have been processed: one block is appended whenever `pos % B = 0`. -/
def nblocks (B : Nat) : Nat → Nat
  | 0 => 0
  | p + 1 => nblocks B p + (if p % B = 0 then 1 else 0)

/-- Flat index of `(layer, position, component)` in the contiguous cache. -/
def std_slot (cfg : MCfg) (l t o : Nat) : Nat :=
  l * (cfg.max_seq_len * kvdim cfg) + (t * kvdim cfg + o)

/-- Flat index of `(layer, position, component)` in the paged cache,
resolved through a block table. -/
def paged_slot (cfg : MCfg) (table : List Nat) (l t o : Nat) : Nat :=
  l * (cfg.num_blocks * (cfg.block_size * kvdim cfg)) +
    (table.getD (t / cfg.block_size) 0 * (cfg.block_size * kvdim cfg) +
      ((t % cfg.block_size) * kvdim cfg + o))

/-- The synchronisation invariant between the paged and the contiguous
run.  `cnt l` = number of positions already written for layer `l`: the
tables have one row per layer, row `l` holds `nblocks B (cnt l)` physical
ids, all in range, all marked non-free in the pool, no id shared between
two (layer, logical-block) slots; the pool bitmap length is the block
count; and every written paged cache slot agrees with the corresponding
contiguous slot. -/
structure SyncInv (cfg : MCfg) (pst : PagedReqState) (Ks Vs : Nat → ℚ)
    (cnt : Nat → Nat) : Prop where
  tlen : pst.tables.length = cfg.n_layers
  rowlen : ∀ l, l < cfg.n_layers →
    (pst.tables.getD l []).length = nblocks cfg.block_size (cnt l)
  entry_lt : ∀ l, l < cfg.n_layers → ∀ m, m < (pst.tables.getD l []).length →
    (pst.tables.getD l []).getD m 0 < cfg.num_blocks
  entry_marked : ∀ l, l < cfg.n_layers → ∀ m, m < (pst.tables.getD l []).length →
    pst.pool.free_blocks.getD ((pst.tables.getD l []).getD m 0) true = false
  entry_inj : ∀ l l', l < cfg.n_layers → l' < cfg.n_layers →
    ∀ m m', m < (pst.tables.getD l []).length → m' < (pst.tables.getD l' []).length →
    (pst.tables.getD l []).getD m 0 = (pst.tables.getD l' []).getD m' 0 →
    l = l' ∧ m = m'
  pool_len : pst.pool.free_blocks.length = cfg.num_blocks
  free_count : pst.pool.num_free_blocks +
    ((List.range cfg.n_layers).map (fun l => nblocks cfg.block_size (cnt l))).sum =
    cfg.num_blocks
  count_true : pst.pool.free_blocks.count true = pst.pool.num_free_blocks
  corrK : ∀ l, l < cfg.n_layers → ∀ t, t < cnt l → ∀ o, o < kvdim cfg →
    pst.Kp (paged_slot cfg (pst.tables.getD l []) l t o) = Ks (std_slot cfg l t o)
  corrV : ∀ l, l < cfg.n_layers → ∀ t, t < cnt l → ∀ o, o < kvdim cfg →
    pst.Vp (paged_slot cfg (pst.tables.getD l []) l t o) = Vs (std_slot cfg l t o)

/-- C1 witness model: one layer, one head, `head_dim = 1`, `S = 4`,
`B = 2`, `N = 4`, with transparent operators. -/
def c1_cfg : MCfg := ⟨1, 1, 1, 1, 4, 2, 4⟩

def c1_ops : ModelOps :=
  { embed := fun tok => fun _ => (tok : ℚ)
    qkv := fun _ x pos => (fun n => x n + (pos : ℚ), x, fun n => x n * 2)
    postAtt := fun _ x att => fun n => x n + att.getD n 0
    classify := fun x => fun n => x n + 1
    expf := fun v => v + 1
    scale := 1 }

def c1_samp : Nat → (Nat → ℚ) → Nat := fun p _ => p + 3

/-- Paged configuration whose cache buffers hold a single element
(`L = N = B = Hkv = head_dim = 1`). -/
def c8_cfg : Config := ⟨1, 1, 1, 100, true, 1, 1⟩

/-- A model paged state populated by a previous run: both buffers hold a
non-zero value and the global block tables are non-empty. -/
def c8_model : LlamaModelPagedState Int := ⟨[5], [7], Option.none, [[9]]⟩

/-! ### List helper lemmas -/

theorem getD_set_self {α : Type} (l : List α) (i : Nat) (b d : α) (h : i < l.length) :
    (l.set i b).getD i d = b := by
  induction l generalizing i with
  | nil => simp at h
  | cons x xs ih =>
    cases i with
    | zero => rfl
    | succ n =>
      rw [List.set_cons_succ, List.getD_cons_succ]
      exact ih n (by simp at h; omega)

theorem getD_set_ne {α : Type} (l : List α) (i j : Nat) (b d : α) (h : i ≠ j) :
    (l.set i b).getD j d = l.getD j d := by
  induction l generalizing i j with
  | nil => rfl
  | cons x xs ih =>
    cases i with
    | zero =>
      cases j with
      | zero => exact absurd rfl h
      | succ m => rw [List.set_cons_zero, List.getD_cons_succ, List.getD_cons_succ]
    | succ n =>
      cases j with
      | zero => rw [List.set_cons_succ, List.getD_cons_zero, List.getD_cons_zero]
      | succ m =>
        rw [List.set_cons_succ, List.getD_cons_succ, List.getD_cons_succ]
        exact ih n m (fun hh => h (by rw [hh]))

theorem lt_length_of_getD_false (l : List Bool) (b : Nat)
    (h : l.getD b true = false) : b < l.length := by
  by_contra hc
  push_neg at hc
  rw [List.getD_eq_default _ _ hc] at h
  simp at h

theorem first_free_spec (l : List Bool) (i : Nat)
    (h : BlockManager.first_free l = some i) :
    i < l.length ∧ l.getD i true = true := by
  induction l generalizing i with
  | nil => simp [BlockManager.first_free] at h
  | cons x xs ih =>
    by_cases hx : x = true
    · subst hx
      simp [BlockManager.first_free] at h
      subst h
      exact ⟨by simp, rfl⟩
    · rw [Bool.not_eq_true] at hx
      subst hx
      simp only [BlockManager.first_free, Bool.false_eq_true, if_false] at h
      obtain ⟨j, hj, rfl⟩ := Option.map_eq_some'.mp h
      obtain ⟨h1, h2⟩ := ih j hj
      refine ⟨by simp; omega, ?_⟩
      rwa [List.getD_cons_succ]

theorem flatten_append_blocks (m : List (Nat × List Nat)) (rid : Nat) (bs : List Nat) :
    List.Perm ((alist_append_blocks m rid bs).map Prod.snd).flatten
      ((m.map Prod.snd).flatten ++ bs) := by
  induction m with
  | nil =>
    simp only [alist_append_blocks, List.map_cons, List.map_nil, List.flatten_cons,
      List.flatten_nil, List.append_nil, List.nil_append]
    exact List.Perm.refl _
  | cons e rest ih =>
    obtain ⟨k, v⟩ := e
    by_cases hk : k = rid
    · simp only [alist_append_blocks, if_pos hk, List.map_cons, List.flatten_cons]
      rw [List.append_assoc, List.append_assoc]
      exact List.Perm.append_left v List.perm_append_comm
    · simp only [alist_append_blocks, if_neg hk, List.map_cons, List.flatten_cons]
      rw [List.append_assoc]
      exact List.Perm.append_left v ih

theorem flatten_erase_of_get (m : List (Nat × List Nat)) (rid : Nat) (bs : List Nat)
    (h : alist_get m rid = some bs) :
    List.Perm (m.map Prod.snd).flatten
      (bs ++ ((alist_erase m rid).map Prod.snd).flatten) := by
  induction m with
  | nil => simp [alist_get] at h
  | cons e rest ih =>
    obtain ⟨k, v⟩ := e
    by_cases hk : k = rid
    · simp only [alist_get, if_pos hk, Option.some.injEq] at h
      subst h
      simp only [alist_erase, if_pos hk, List.map_cons, List.flatten_cons]
      exact List.Perm.refl _
    · simp only [alist_get, if_neg hk] at h
      simp only [alist_erase, if_neg hk, List.map_cons, List.flatten_cons]
      have p3 : List.Perm
          (v ++ (bs ++ ((alist_erase rest rid).map Prod.snd).flatten))
          (bs ++ (v ++ ((alist_erase rest rid).map Prod.snd).flatten)) := by
        rw [← List.append_assoc, ← List.append_assoc]
        exact List.Perm.append_right _ List.perm_append_comm
      exact (List.Perm.append_left v (ih h)).trans p3

theorem get_sublist_flatten (m : List (Nat × List Nat)) (rid : Nat) (bs : List Nat)
    (h : alist_get m rid = some bs) :
    List.Sublist bs (m.map Prod.snd).flatten := by
  induction m with
  | nil => simp [alist_get] at h
  | cons e rest ih =>
    obtain ⟨k, v⟩ := e
    by_cases hk : k = rid
    · simp only [alist_get, if_pos hk, Option.some.injEq] at h
      subst h
      simp only [List.map_cons, List.flatten_cons]
      exact List.sublist_append_left _ _
    · simp only [alist_get, if_neg hk] at h
      simp only [List.map_cons, List.flatten_cons]
      exact (ih h).trans (List.sublist_append_right _ _)

/-! ### Association-list lemmas -/

theorem alist_get_set {α : Type} (m : List (Nat × α)) (k : Nat) (v : α) :
    alist_get (alist_set m k v) k = (alist_get m k).map (fun _ => v) := by
  induction m with
  | nil => rfl
  | cons e rest ih =>
    obtain ⟨k0, w⟩ := e
    by_cases hk : k0 = k
    · simp [alist_set, alist_get, if_pos hk]
    · simp only [alist_set, alist_get, if_neg hk]
      exact ih

theorem alist_get_set_ne {α : Type} (m : List (Nat × α)) (k k' : Nat) (v : α)
    (h : k ≠ k') : alist_get (alist_set m k v) k' = alist_get m k' := by
  induction m with
  | nil => rfl
  | cons e rest ih =>
    obtain ⟨k0, w⟩ := e
    by_cases hk : k0 = k
    · subst hk
      simp only [alist_set, if_pos rfl, alist_get, if_neg h]
    · simp only [alist_set, if_neg hk, alist_get]
      by_cases hk' : k0 = k'
      · rw [if_pos hk', if_pos hk']
      · rw [if_neg hk', if_neg hk']
        exact ih

theorem alist_get_none_of_not_mem {α : Type} (m : List (Nat × α)) (k : Nat)
    (h : k ∉ m.map Prod.fst) : alist_get m k = Option.none := by
  induction m with
  | nil => rfl
  | cons e rest ih =>
    obtain ⟨k0, w⟩ := e
    simp only [List.map_cons, List.mem_cons] at h
    push_neg at h
    have hne : ¬ (k0 = k) := fun hh => h.1 hh.symm
    simp only [alist_get, if_neg hne]
    exact ih h.2

theorem alist_get_erase_self {α : Type} (m : List (Nat × α)) (k : Nat)
    (hk : (m.map Prod.fst).Nodup) : alist_get (alist_erase m k) k = Option.none := by
  induction m with
  | nil => rfl
  | cons e rest ih =>
    obtain ⟨k0, w⟩ := e
    simp only [List.map_cons, List.nodup_cons] at hk
    by_cases hh : k0 = k
    · subst hh
      simp only [alist_erase, if_pos rfl]
      exact alist_get_none_of_not_mem rest k0 hk.1
    · simp only [alist_erase, if_neg hh, alist_get, if_neg hh]
      exact ih hk.2

theorem mem_keys_append_blocks (m : List (Nat × List Nat)) (k x : Nat) (bs : List Nat) :
    x ∈ (alist_append_blocks m k bs).map Prod.fst ↔ x ∈ m.map Prod.fst ∨ x = k := by
  induction m with
  | nil => simp [alist_append_blocks]
  | cons e rest ih =>
    obtain ⟨k0, w⟩ := e
    by_cases hh : k0 = k
    · rw [show alist_append_blocks ((k0, w) :: rest) k bs = (k0, w ++ bs) :: rest from by
        simp [alist_append_blocks, hh]]
      simp only [List.map_cons, List.mem_cons]
      constructor
      · rintro (h1 | h2)
        · exact Or.inl (Or.inl h1)
        · exact Or.inl (Or.inr h2)
      · rintro ((h1 | h2) | h3)
        · exact Or.inl h1
        · exact Or.inr h2
        · subst h3
          exact Or.inl hh.symm
    · rw [show alist_append_blocks ((k0, w) :: rest) k bs
          = (k0, w) :: alist_append_blocks rest k bs from by
        simp [alist_append_blocks, hh]]
      simp only [List.map_cons, List.mem_cons, ih]
      tauto

theorem keys_nodup_append_blocks (m : List (Nat × List Nat)) (k : Nat) (bs : List Nat)
    (hk : (m.map Prod.fst).Nodup) :
    ((alist_append_blocks m k bs).map Prod.fst).Nodup := by
  induction m with
  | nil => simp [alist_append_blocks]
  | cons e rest ih =>
    obtain ⟨k0, w⟩ := e
    simp only [List.map_cons, List.nodup_cons] at hk
    by_cases hh : k0 = k
    · rw [show alist_append_blocks ((k0, w) :: rest) k bs = (k0, w ++ bs) :: rest from by
        simp [alist_append_blocks, hh]]
      simp only [List.map_cons, List.nodup_cons]
      exact ⟨hk.1, hk.2⟩
    · rw [show alist_append_blocks ((k0, w) :: rest) k bs
          = (k0, w) :: alist_append_blocks rest k bs from by
        simp [alist_append_blocks, hh]]
      simp only [List.map_cons, List.nodup_cons]
      refine ⟨?_, ih hk.2⟩
      intro hc
      rcases (mem_keys_append_blocks rest k k0 bs).mp hc with h1 | h2
      · exact hk.1 h1
      · exact hh h2

theorem allocate_block_for_request_keys (s : BlockManager) (rid : Nat)
    (hk : (s.request_blocks.map Prod.fst).Nodup) :
    (((s.allocate_block_for_request rid).2.request_blocks).map Prod.fst).Nodup := by
  unfold BlockManager.allocate_block_for_request
  cases habi : s.allocate_block_internal with
  | mk ob s' =>
    have hrb : s'.request_blocks = s.request_blocks := by
      unfold BlockManager.allocate_block_internal at habi
      by_cases hz : s.num_free_blocks = 0
      · rw [if_pos hz] at habi
        cases habi
        rfl
      · rw [if_neg hz] at habi
        cases hff : BlockManager.first_free s.free_blocks with
        | none =>
          rw [hff] at habi
          cases habi
          rfl
        | some i =>
          rw [hff] at habi
          cases habi
          rfl
    cases ob with
    | none => simpa [hrb] using hk
    | some bid =>
      simp only
      show ((alist_append_blocks s'.request_blocks rid [bid]).map Prod.fst).Nodup
      rw [hrb]
      exact keys_nodup_append_blocks _ _ _ hk

theorem forward_alloc_layers_keys (cfg : Config) (rid pos : Nat) (layers : List Nat)
    (pool : BlockManager) (tables : List (List Nat)) (pool' : BlockManager)
    (tables' : List (List Nat))
    (hok : forward_alloc_layers cfg rid pos layers pool tables
        = Except.ok (pool', tables'))
    (hk : (pool.request_blocks.map Prod.fst).Nodup) :
    (pool'.request_blocks.map Prod.fst).Nodup := by
  induction layers generalizing pool tables with
  | nil =>
    simp only [forward_alloc_layers, Except.ok.injEq, Prod.mk.injEq] at hok
    obtain ⟨hp, _⟩ := hok
    rw [← hp]
    exact hk
  | cons i rest ih =>
    simp only [forward_alloc_layers] at hok
    by_cases hbd : pos % cfg.block_size = 0
    · rw [if_pos hbd] at hok
      cases halloc : pool.allocate_block_for_request rid with
      | mk ob pool2 =>
        rw [halloc] at hok
        cases ob with
        | none => simp at hok
        | some bid =>
          simp only at hok
          have hk2 := allocate_block_for_request_keys pool rid hk
          rw [halloc] at hk2
          exact ih pool2 _ hok hk2
    · rw [if_neg hbd] at hok
      exact ih pool tables hok hk

theorem forward_with_request_alloc_keys (cfg : Config) (pool : BlockManager)
    (r : Request) (pos : Nat) (pool' : BlockManager) (r' : Request)
    (hok : forward_with_request_alloc cfg pool r pos = Except.ok (pool', r'))
    (hk : (pool.request_blocks.map Prod.fst).Nodup) :
    (pool'.request_blocks.map Prod.fst).Nodup := by
  simp only [forward_with_request_alloc] at hok
  by_cases hbe : r.block_tables.isEmpty
  · rw [if_pos hbe] at hok
    cases hfl : forward_alloc_layers cfg
        ({ r with block_tables := List.replicate cfg.n_layers [] } : Request).id pos
        (List.range cfg.n_layers) pool
        ({ r with block_tables := List.replicate cfg.n_layers [] } : Request).block_tables with
    | error u => rw [hfl] at hok; simp at hok
    | ok res =>
      cases res with
      | mk pool2 tables2 =>
        rw [hfl] at hok
        simp only [Except.ok.injEq, Prod.mk.injEq] at hok
        obtain ⟨hp, _⟩ := hok
        rw [← hp]
        exact forward_alloc_layers_keys cfg _ pos _ pool _ pool2 tables2 hfl hk
  · rw [if_neg hbe] at hok
    cases hfl : forward_alloc_layers cfg r.id pos (List.range cfg.n_layers) pool
        r.block_tables with
    | error u => rw [hfl] at hok; simp at hok
    | ok res =>
      cases res with
      | mk pool2 tables2 =>
        rw [hfl] at hok
        simp only [Except.ok.injEq, Prod.mk.injEq] at hok
        obtain ⟨hp, _⟩ := hok
        rw [← hp]
        exact forward_alloc_layers_keys cfg _ pos _ pool _ pool2 tables2 hfl hk

theorem forward_with_request_alloc_fields (cfg : Config) (pool : BlockManager)
    (r : Request) (pos : Nat) (pool' : BlockManager) (r' : Request)
    (hok : forward_with_request_alloc cfg pool r pos = Except.ok (pool', r')) :
    r'.current_pos = r.current_pos ∧ r'.generated_tokens = r.generated_tokens ∧
    r'.status = r.status ∧ r'.max_tokens = r.max_tokens ∧
    r'.prompt_tokens = r.prompt_tokens ∧ r'.prefill_cursor = r.prefill_cursor ∧
    r'.num_computed_tokens = r.num_computed_tokens ∧ r'.id = r.id ∧
    r'.finished_reason = r.finished_reason ∧ r'.last_token = r.last_token := by
  simp only [forward_with_request_alloc] at hok
  by_cases hbe : r.block_tables.isEmpty
  · rw [if_pos hbe] at hok
    cases hfl : forward_alloc_layers cfg
        ({ r with block_tables := List.replicate cfg.n_layers [] } : Request).id pos
        (List.range cfg.n_layers) pool
        ({ r with block_tables := List.replicate cfg.n_layers [] } : Request).block_tables with
    | error u => rw [hfl] at hok; simp at hok
    | ok res =>
      cases res with
      | mk pool2 tables2 =>
        rw [hfl] at hok
        simp only [Except.ok.injEq, Prod.mk.injEq] at hok
        obtain ⟨_, hr⟩ := hok
        subst hr
        exact ⟨rfl, rfl, rfl, rfl, rfl, rfl, rfl, rfl, rfl, rfl⟩
  · rw [if_neg hbe] at hok
    cases hfl : forward_alloc_layers cfg r.id pos (List.range cfg.n_layers) pool
        r.block_tables with
    | error u => rw [hfl] at hok; simp at hok
    | ok res =>
      cases res with
      | mk pool2 tables2 =>
        rw [hfl] at hok
        simp only [Except.ok.injEq, Prod.mk.injEq] at hok
        obtain ⟨_, hr⟩ := hok
        subst hr
        exact ⟨rfl, rfl, rfl, rfl, rfl, rfl, rfl, rfl, rfl, rfl⟩

theorem foldl_free_request_blocks (bs : List Nat) (s : BlockManager) :
    (bs.foldl BlockManager.free_block_internal s).request_blocks = s.request_blocks := by
  induction bs generalizing s with
  | nil => rfl
  | cons b rest ih =>
    rw [List.foldl_cons, ih]
    unfold BlockManager.free_block_internal
    by_cases h1 : s.num_blocks ≤ b
    · rw [if_pos h1]
    · rw [if_neg h1]
      by_cases h2 : s.free_blocks.getD b true = true
      · rw [if_pos h2]
      · rw [if_neg h2]

theorem free_request_get_none (s : BlockManager) (rid : Nat)
    (hk : (s.request_blocks.map Prod.fst).Nodup) :
    alist_get (s.free_request rid).request_blocks rid = Option.none := by
  unfold BlockManager.free_request
  cases hget : alist_get s.request_blocks rid with
  | none => exact hget
  | some bs =>
    show alist_get (alist_erase
        (bs.foldl BlockManager.free_block_internal s).request_blocks rid) rid = Option.none
    rw [foldl_free_request_blocks]
    exact alist_get_erase_self _ _ hk

/-! ### Paged-state reset (C8) -/

theorem getD_take {α : Type} (v : List α) (n j : Nat) (d : α) (h : j < n) :
    (v.take n).getD j d = v.getD j d := by
  induction v generalizing n j with
  | nil => simp
  | cons x xs ih =>
    cases n with
    | zero => simp at h
    | succ k =>
      cases j with
      | zero => rw [List.take_succ_cons, List.getD_cons_zero, List.getD_cons_zero]
      | succ i =>
        rw [List.take_succ_cons, List.getD_cons_succ, List.getD_cons_succ]
        exact ih k i (by omega)

theorem getD_append_left {α : Type} (l l' : List α) (j : Nat) (d : α)
    (h : j < l.length) : (l ++ l').getD j d = l.getD j d := by
  induction l generalizing j with
  | nil => simp at h
  | cons x xs ih =>
    cases j with
    | zero => rw [List.cons_append, List.getD_cons_zero, List.getD_cons_zero]
    | succ i =>
      rw [List.cons_append, List.getD_cons_succ, List.getD_cons_succ]
      exact ih i (by simp at h; omega)

theorem getD_append_right {α : Type} (l l' : List α) (j : Nat) (d : α)
    (h : l.length ≤ j) : (l ++ l').getD j d = l'.getD (j - l.length) d := by
  induction l generalizing j with
  | nil => simp
  | cons x xs ih =>
    cases j with
    | zero => simp at h
    | succ i =>
      rw [List.cons_append, List.getD_cons_succ]
      rw [ih i (by simp at h; omega)]
      simp

theorem getD_replicate {α : Type} (n j : Nat) (z d : α) (h : j < n) :
    (List.replicate n z).getD j d = z := by
  induction n generalizing j with
  | zero => simp at h
  | succ k ih =>
    cases j with
    | zero => rw [List.replicate_succ, List.getD_cons_zero]
    | succ i =>
      rw [List.replicate_succ, List.getD_cons_succ]
      exact ih i (by omega)

theorem map_const_eq_replicate {α β : Type} (l : List α) (c : β) :
    l.map (fun _ => c) = List.replicate l.length c := by
  induction l with
  | nil => rfl
  | cons x xs ih => simp [List.replicate_succ, ih]

theorem resize_vector_length {α : Type} (v : List α) (n : Nat) (z : α) :
    (resize_vector v n z).length = n := by
  unfold resize_vector
  rw [List.length_append, List.length_take, List.length_replicate]
  omega

theorem resize_vector_getD_old {α : Type} (v : List α) (n j : Nat) (z : α)
    (hj : j < v.length) (hn : j < n) :
    (resize_vector v n z).getD j z = v.getD j z := by
  unfold resize_vector
  rw [getD_append_left _ _ _ _ (by rw [List.length_take]; omega)]
  exact getD_take v n j z hn

theorem resize_vector_getD_new {α : Type} (v : List α) (n j : Nat) (z : α)
    (hj : v.length ≤ j) (hn : j < n) :
    (resize_vector v n z).getD j z = z := by
  unfold resize_vector
  rw [getD_append_right _ _ _ _ (by rw [List.length_take]; omega)]
  rw [List.length_take]
  exact getD_replicate _ _ _ _ (by omega)

/-- **C8** (amended): after the runner's paged reset
(`reset_model_state` → `initialize_paged_attention`), the block manager is
freshly constructed (all `N` blocks free, empty owner map) and the model's
global per-layer block tables are cleared; the paged key/value buffers are
resized to their full `L·N·B·Hkv·head_dim` size, with the GROWN positions
zero-initialised but all previously existing positions PRESERVED
(`std::vector::resize` does not re-zero), and the `Request` store — hence
every per-request block table — is untouched.  (The original claim's
"buffers contain only zeros … including when a previous run had populated
them" and "all per-request block tables are cleared" both fail: see the
counterexample.) -/
theorem C8_reset_state {α : Type} (cfg : Config) (zero : α)
    (m : LlamaModelPagedState α) (store : List (Nat × Request))
    (hpg : cfg.use_paged_attention = true) :
    ((reset_model_state_paged cfg zero m store).1.block_manager
        = some (BlockManager.init cfg.num_blocks cfg.block_size) ∧
      (BlockManager.init cfg.num_blocks cfg.block_size).num_free_blocks
        = cfg.num_blocks ∧
      (BlockManager.init cfg.num_blocks cfg.block_size).request_blocks = []) ∧
    (reset_model_state_paged cfg zero m store).1.block_tables
        = List.replicate cfg.n_layers [] ∧
    (reset_model_state_paged cfg zero m store).1.paged_key_cache.length
        = paged_cache_size cfg ∧
    (reset_model_state_paged cfg zero m store).1.paged_value_cache.length
        = paged_cache_size cfg ∧
    (∀ j, m.paged_key_cache.length ≤ j → j < paged_cache_size cfg →
      (reset_model_state_paged cfg zero m store).1.paged_key_cache.getD j zero = zero) ∧
    (∀ j, j < m.paged_key_cache.length → j < paged_cache_size cfg →
      (reset_model_state_paged cfg zero m store).1.paged_key_cache.getD j zero
        = m.paged_key_cache.getD j zero) ∧
    (∀ j, m.paged_value_cache.length ≤ j → j < paged_cache_size cfg →
      (reset_model_state_paged cfg zero m store).1.paged_value_cache.getD j zero = zero) ∧
    (∀ j, j < m.paged_value_cache.length → j < paged_cache_size cfg →
      (reset_model_state_paged cfg zero m store).1.paged_value_cache.getD j zero
        = m.paged_value_cache.getD j zero) ∧
    (reset_model_state_paged cfg zero m store).2 = store := by
  have hne : ¬ (cfg.use_paged_attention = false) := by
    rw [hpg]
    simp
  simp only [reset_model_state_paged, initialize_paged_attention, if_neg hne]
  refine ⟨⟨by trivial, by trivial, by trivial⟩, ?_, ?_, ?_, ?_, ?_, ?_, ?_, by trivial⟩
  · show (resize_vector m.block_tables cfg.n_layers []).map (fun _ => [])
        = List.replicate cfg.n_layers []
    rw [map_const_eq_replicate, resize_vector_length]
  · exact resize_vector_length _ _ _
  · exact resize_vector_length _ _ _
  · intro j hj hn
    exact resize_vector_getD_new _ _ _ _ hj hn
  · intro j hj hn
    exact resize_vector_getD_old _ _ _ _ hj hn
  · intro j hj hn
    exact resize_vector_getD_new _ _ _ _ hj hn
  · intro j hj hn
    exact resize_vector_getD_old _ _ _ _ hj hn

/-- **C8** witness: the reset applied to the concrete one-element populated
model state. -/
theorem C8_reset_state_witness :
    (c8_cfg.use_paged_attention = true) ∧
    (((reset_model_state_paged c8_cfg (0 : Int) c8_model []).1.block_manager
        = some (BlockManager.init c8_cfg.num_blocks c8_cfg.block_size) ∧
      (BlockManager.init c8_cfg.num_blocks c8_cfg.block_size).num_free_blocks
        = c8_cfg.num_blocks ∧
      (BlockManager.init c8_cfg.num_blocks c8_cfg.block_size).request_blocks = []) ∧
    (reset_model_state_paged c8_cfg (0 : Int) c8_model []).1.block_tables
        = List.replicate c8_cfg.n_layers [] ∧
    (reset_model_state_paged c8_cfg (0 : Int) c8_model []).1.paged_key_cache.length
        = paged_cache_size c8_cfg ∧
    (reset_model_state_paged c8_cfg (0 : Int) c8_model []).1.paged_value_cache.length
        = paged_cache_size c8_cfg ∧
    (∀ j, c8_model.paged_key_cache.length ≤ j → j < paged_cache_size c8_cfg →
      (reset_model_state_paged c8_cfg (0 : Int) c8_model []).1.paged_key_cache.getD j 0
        = 0) ∧
    (∀ j, j < c8_model.paged_key_cache.length → j < paged_cache_size c8_cfg →
      (reset_model_state_paged c8_cfg (0 : Int) c8_model []).1.paged_key_cache.getD j 0
        = c8_model.paged_key_cache.getD j 0) ∧
    (∀ j, c8_model.paged_value_cache.length ≤ j → j < paged_cache_size c8_cfg →
      (reset_model_state_paged c8_cfg (0 : Int) c8_model []).1.paged_value_cache.getD j 0
        = 0) ∧
    (∀ j, j < c8_model.paged_value_cache.length → j < paged_cache_size c8_cfg →
      (reset_model_state_paged c8_cfg (0 : Int) c8_model []).1.paged_value_cache.getD j 0
        = c8_model.paged_value_cache.getD j 0) ∧
    (reset_model_state_paged c8_cfg (0 : Int) c8_model []).2 = []) :=
  ⟨rfl, C8_reset_state c8_cfg (0 : Int) c8_model [] rfl⟩

/-- **C8** counterexample: a paged key buffer holding the value 5 from a
previous run is NOT re-zeroed by `initialize_paged_attention` — after the
reset the buffer still reads `[5]`, not all zeros. -/
theorem C8_counterexample :
    (initialize_paged_attention c8_cfg (0 : Int) c8_model).paged_key_cache = [5] ∧
    (initialize_paged_attention c8_cfg (0 : Int) c8_model).paged_key_cache ≠
      List.replicate (paged_cache_size c8_cfg) (0 : Int) :=
  ⟨rfl, by decide⟩

/-! ### Decode-step termination (C7) -/

theorem not_mem_filter_ne_self (l : List Nat) (rid : Nat) :
    rid ∉ l.filter (fun x => x ≠ rid) := by
  intro hc
  have := List.of_mem_filter hc
  simp at this

/-- **C7** (amended): on every decode step of a request that could still
generate before the step (`generated_tokens < max_tokens`, in particular
whenever `max_tokens ≥ 1`; the counterexample shows `max_tokens = 0` yields
one extra token, because the sampled token is appended before the first
termination check), exactly one termination rule is evaluated, in the fixed
order EOS (id 2), then a generated-token count that has reached
`max_tokens`, then a `current_pos` that has reached `max_seq_len`; the
post-step token count never exceeds `max_tokens`; a finishing request is
marked `FINISHED`, leaves the running set, and (paged mode) its owner-map
entry is removed by the single `free_request` call; a continuing request
keeps its status and the running set unchanged. -/
theorem C7_decode_termination (samp : Request → Nat) (e : EngineState) (rid : Nat)
    (r : Request) (hget : alist_get e.store rid = some r)
    (hkeys : (e.pool.request_blocks.map Prod.fst).Nodup)
    (hinv : r.generated_tokens.length < r.max_tokens)
    (hreason : r.finished_reason = FinishReason.none)
    (e' : EngineState) (hok : run_decode_step samp e rid = Except.ok e') :
    ∃ next rf, alist_get e'.store rid = some rf ∧
      rf.generated_tokens = r.generated_tokens ++ [next] ∧
      rf.current_pos = r.current_pos + 1 ∧
      rf.generated_tokens.length ≤ r.max_tokens ∧
      rf.finished_reason = spec_termination next rf.generated_tokens.length
          rf.current_pos r.max_tokens e.cfg.max_seq_len ∧
      (rf.finished_reason ≠ FinishReason.none →
        rf.status = RequestStatus.finished ∧ rid ∉ e'.running ∧
        (e.cfg.use_paged_attention = true →
          alist_get e'.pool.request_blocks rid = Option.none)) ∧
      (rf.finished_reason = FinishReason.none →
        rf.status = r.status ∧ e'.running = e.running) := by
  have hgetv1 : ∀ v : Request, alist_get (alist_set e.store rid v) rid = some v := by
    intro v
    rw [alist_get_set, hget]
    rfl
  simp only [run_decode_step, hget] at hok
  split at hok
  · exact absurd hok (by simp)
  · rename_i pool' r' hfw
    have hbig : r'.generated_tokens = r.generated_tokens ∧
        r'.current_pos = r.current_pos ∧ r'.status = r.status ∧
        r'.max_tokens = r.max_tokens ∧ r'.id = r.id ∧
        r'.finished_reason = r.finished_reason ∧
        (pool'.request_blocks.map Prod.fst).Nodup := by
      by_cases hpg : e.cfg.use_paged_attention = true
      · rw [if_pos hpg] at hfw
        obtain ⟨a1, a2, a3, a4, _, _, _, a8, a9, _⟩ :=
          forward_with_request_alloc_fields e.cfg e.pool r r.current_pos pool' r' hfw
        exact ⟨a2, a1, a3, a4, a8, a9,
          forward_with_request_alloc_keys e.cfg e.pool r r.current_pos pool' r' hfw hkeys⟩
      · rw [if_neg hpg] at hfw
        injection hfw with hpr
        injection hpr with hp hr
        subst hp
        subst hr
        exact ⟨rfl, rfl, rfl, rfl, rfl, rfl, hkeys⟩
    obtain ⟨hgen, hpos2, hst2, hmax2, hid2, hrea2, hkeys'⟩ := hbig
    have hpipe1 : ∀ (v : Request) (reason : FinishReason),
        alist_get (runner_finish_request (set_finish_reason
            { e with pool := pool', store := alist_set e.store rid v } rid reason)
            rid).store rid
          = some { v with finished_reason := reason,
                          status := RequestStatus.finished } := by
      intro v reason
      by_cases hpg : e.cfg.use_paged_attention = true
      · simp only [set_finish_reason, runner_finish_request, scheduler_finish_request,
          alist_get_set, hget, Option.map_some', if_pos hpg]
      · simp only [set_finish_reason, runner_finish_request, scheduler_finish_request,
          alist_get_set, hget, Option.map_some', if_neg hpg]
    have hpipe2 : ∀ (v : Request) (reason : FinishReason),
        (runner_finish_request (set_finish_reason
            { e with pool := pool', store := alist_set e.store rid v } rid reason)
            rid).running
          = e.running.filter (fun x => x ≠ rid) := by
      intro v reason
      by_cases hpg : e.cfg.use_paged_attention = true
      · simp only [set_finish_reason, runner_finish_request, scheduler_finish_request,
          alist_get_set, hget, Option.map_some', if_pos hpg]
      · simp only [set_finish_reason, runner_finish_request, scheduler_finish_request,
          alist_get_set, hget, Option.map_some', if_neg hpg]
    have hpipe3 : ∀ (v : Request) (reason : FinishReason),
        (runner_finish_request (set_finish_reason
            { e with pool := pool', store := alist_set e.store rid v } rid reason)
            rid).pool
          = (if e.cfg.use_paged_attention = true then pool'.free_request rid
             else pool') := by
      intro v reason
      by_cases hpg : e.cfg.use_paged_attention = true
      · simp only [set_finish_reason, runner_finish_request, scheduler_finish_request,
          alist_get_set, hget, Option.map_some', if_pos hpg]
      · simp only [set_finish_reason, runner_finish_request, scheduler_finish_request,
          alist_get_set, hget, Option.map_some', if_neg hpg]
    split at hok
    · -- EOS branch
      rename_i hx2
      injection hok with he
      subst he
      refine ⟨samp r', _, hpipe1 _ FinishReason.eos, ?_, ?_, ?_, ?_, ?_, ?_⟩
      · simp only [hgen]
      · simp only [hpos2]
      · simp only [List.length_append, List.length_singleton, hgen]
        omega
      · show FinishReason.eos = _
        simp only [spec_termination, if_pos hx2]
      · intro _
        refine ⟨rfl, ?_, ?_⟩
        · rw [hpipe2]
          exact not_mem_filter_ne_self _ _
        · intro hpg
          rw [hpipe3, if_pos hpg]
          exact free_request_get_none pool' rid hkeys'
      · intro hc
        exact absurd hc (by simp)
    · -- not EOS
      rename_i hx2
      split at hok
      · -- MaxTokens branch
        rename_i hcg
        injection hok with he
        subst he
        have hmaxle : r.max_tokens ≤ r.generated_tokens.length + 1 := by
          simp only [Request.can_generate_more, List.length_append,
            List.length_singleton, hgen, hmax2, decide_eq_false_iff_not] at hcg
          omega
        refine ⟨samp r', _, hpipe1 _ FinishReason.maxTokens, ?_, ?_, ?_, ?_, ?_, ?_⟩
        · simp only [hgen]
        · simp only [hpos2]
        · simp only [List.length_append, List.length_singleton, hgen]
          omega
        · show FinishReason.maxTokens = _
          simp only [spec_termination, if_neg hx2, List.length_append,
            List.length_singleton, hgen]
          rw [if_pos (by omega)]
        · intro _
          refine ⟨rfl, ?_, ?_⟩
          · rw [hpipe2]
            exact not_mem_filter_ne_self _ _
          · intro hpg
            rw [hpipe3, if_pos hpg]
            exact free_request_get_none pool' rid hkeys'
        · intro hc
          exact absurd hc (by simp)
      · -- can still generate
        rename_i hcg
        have hcant : ¬ (r.max_tokens ≤ r.generated_tokens.length + 1) := by
          simp only [Request.can_generate_more, List.length_append,
            List.length_singleton, hgen, hmax2] at hcg
          rw [Bool.not_eq_false, decide_eq_true_eq] at hcg
          omega
        split at hok
        · -- MaxSeqLen branch
          rename_i hsq
          injection hok with he
          subst he
          have hsq' : e.cfg.max_seq_len ≤ r.current_pos + 1 := by
            simpa [hpos2] using hsq
          refine ⟨samp r', _, hpipe1 _ FinishReason.maxSeqLen, ?_, ?_, ?_, ?_, ?_, ?_⟩
          · simp only [hgen]
          · simp only [hpos2]
          · simp only [List.length_append, List.length_singleton, hgen]
            omega
          · show FinishReason.maxSeqLen = _
            simp only [spec_termination, if_neg hx2, List.length_append,
              List.length_singleton, hgen, hpos2]
            rw [if_neg hcant, if_pos hsq']
          · intro _
            refine ⟨rfl, ?_, ?_⟩
            · rw [hpipe2]
              exact not_mem_filter_ne_self _ _
            · intro hpg
              rw [hpipe3, if_pos hpg]
              exact free_request_get_none pool' rid hkeys'
          · intro hc
            exact absurd hc (by simp)
        · -- continue branch
          rename_i hsq
          injection hok with he
          subst he
          have hsq' : ¬ (e.cfg.max_seq_len ≤ r.current_pos + 1) := by
            intro hc
            exact hsq (by simpa [hpos2] using hc)
          refine ⟨samp r', _, hgetv1 _, ?_, ?_, ?_, ?_, ?_, ?_⟩
          · simp only [hgen]
          · simp only [hpos2]
          · simp only [List.length_append, List.length_singleton, hgen]
            omega
          · show r'.finished_reason = _
            rw [hrea2, hreason]
            simp only [spec_termination, if_neg hx2, List.length_append,
              List.length_singleton, hgen, hpos2]
            rw [if_neg hcant, if_neg hsq']
          · intro hc
            have hc' : r'.finished_reason ≠ FinishReason.none := hc
            rw [hrea2, hreason] at hc'
            exact absurd rfl hc'
          · intro _
            exact ⟨hst2, rfl⟩

/-- **C7** witness: a single decode step of the concrete request
`c7_request` (`max_tokens = 3`, one token generated), with the theorem's
hypotheses discharged by evaluation. -/
theorem C7_decode_termination_witness :
    ∃ e', run_decode_step c7_samp c7_engine 0 = Except.ok e' ∧
      (alist_get c7_engine.store 0 = some c7_request ∧
        (c7_engine.pool.request_blocks.map Prod.fst).Nodup ∧
        c7_request.generated_tokens.length < c7_request.max_tokens ∧
        c7_request.finished_reason = FinishReason.none) ∧
      ∃ next rf, alist_get e'.store 0 = some rf ∧
        rf.generated_tokens = c7_request.generated_tokens ++ [next] ∧
        rf.current_pos = c7_request.current_pos + 1 ∧
        rf.generated_tokens.length ≤ c7_request.max_tokens ∧
        rf.finished_reason = spec_termination next rf.generated_tokens.length
            rf.current_pos c7_request.max_tokens c7_engine.cfg.max_seq_len ∧
        (rf.finished_reason ≠ FinishReason.none →
          rf.status = RequestStatus.finished ∧ 0 ∉ e'.running ∧
          (c7_engine.cfg.use_paged_attention = true →
            alist_get e'.pool.request_blocks 0 = Option.none)) ∧
        (rf.finished_reason = FinishReason.none →
          rf.status = c7_request.status ∧ e'.running = c7_engine.running) :=
  ⟨_, rfl, ⟨rfl, by decide, by decide, rfl⟩,
    C7_decode_termination c7_samp c7_engine 0 c7_request rfl (by decide) (by decide)
      rfl _ rfl⟩

/-- **C7** counterexample: a request with `max_tokens = 0` reaches a decode
step (no component rejects it); the step appends the sampled token before
any check, so its generated-token count becomes `1 > 0 = max_tokens` —
`generated_tokens` can exceed `max_tokens`. -/
theorem C7_counterexample :
    ∃ e' rf, run_decode_step c7_samp c7x_engine 0 = Except.ok e' ∧
      alist_get e'.store 0 = some rf ∧
      rf.max_tokens = 0 ∧ rf.generated_tokens.length = 1 ∧
      rf.max_tokens < rf.generated_tokens.length :=
  ⟨_, _, rfl, rfl, rfl, rfl, by decide⟩

/-! ### Scheduler batch invariants -/

theorem decode_pass_spec (store : List (Nat × Request)) (cfgS : SchedulerConfig)
    (l : List Nat) (b : ScheduledBatch)
    (hl : l.Nodup)
    (htot : b.total_scheduled_tokens ≤ cfgS.max_tokens_per_batch)
    (hsz : b.size ≤ cfgS.max_batch_size)
    (hnd : b.requests.Nodup)
    (hdisj : ∀ x ∈ b.requests, x ∉ l)
    (hlen : b.scheduled_tokens.length = b.requests.length)
    (hone : ∀ t ∈ b.scheduled_tokens, t = 1)
    (hsts : ∀ x ∈ b.requests,
      ∃ r, alist_get store x = some r ∧ r.status = RequestStatus.decoding) :
    (decode_pass store cfgS l b).total_scheduled_tokens ≤ cfgS.max_tokens_per_batch ∧
    (decode_pass store cfgS l b).size ≤ cfgS.max_batch_size ∧
    (decode_pass store cfgS l b).requests.Nodup ∧
    (decode_pass store cfgS l b).scheduled_tokens.length
      = (decode_pass store cfgS l b).requests.length ∧
    (∀ t ∈ (decode_pass store cfgS l b).scheduled_tokens, t = 1) ∧
    (∀ x ∈ (decode_pass store cfgS l b).requests,
      ∃ r, alist_get store x = some r ∧ r.status = RequestStatus.decoding) ∧
    (decode_pass store cfgS l b).is_prefill = b.is_prefill := by
  induction l generalizing b with
  | nil => exact ⟨htot, hsz, hnd, hlen, hone, hsts, rfl⟩
  | cons rid rest ih =>
    simp only [decode_pass]
    cases hget : alist_get store rid with
    | none =>
      exact ih b (hl.of_cons) htot hsz hnd
        (fun x hx => fun hc => hdisj x hx (by simp [hc])) hlen hone hsts
    | some r =>
      dsimp only
      by_cases hst : r.status = RequestStatus.decoding
      · rw [if_pos hst]
        by_cases hfull : cfgS.max_batch_size ≤ b.size
        · rw [if_pos hfull]
          exact ⟨htot, hsz, hnd, hlen, hone, hsts, rfl⟩
        · rw [if_neg hfull]
          by_cases hbud : cfgS.max_tokens_per_batch < b.total_scheduled_tokens + 1
          · rw [if_pos hbud]
            exact ⟨htot, hsz, hnd, hlen, hone, hsts, rfl⟩
          · rw [if_neg hbud]
            have hridb : rid ∉ b.requests := fun hc => hdisj rid hc (by simp)
            have hnd' : (b.add rid 1).requests.Nodup := by
              show (b.requests ++ [rid]).Nodup
              rw [List.nodup_append]
              exact ⟨hnd, List.nodup_singleton rid,
                fun a ha hb => by
                  simp only [List.mem_singleton] at hb
                  subst hb
                  exact hridb ha⟩
            refine ih (b.add rid 1) (hl.of_cons) (by
                show b.total_scheduled_tokens + 1 ≤ _
                omega) (by
                show (b.requests ++ [rid]).length ≤ _
                have hlt : b.size < cfgS.max_batch_size := by omega
                simp only [ScheduledBatch.size] at hlt
                simp only [List.length_append, List.length_singleton]
                omega) hnd' ?_ ?_ ?_ ?_
            · intro x hx
              rcases List.mem_append.mp hx with h1 | h2
              · exact fun hc => hdisj x h1 (by simp [hc])
              · simp only [List.mem_singleton] at h2
                subst h2
                exact (List.nodup_cons.mp hl).1
            · show (b.scheduled_tokens ++ [1]).length = (b.requests ++ [rid]).length
              simp only [List.length_append, List.length_singleton]
              omega
            · intro t ht
              rcases List.mem_append.mp ht with h1 | h2
              · exact hone t h1
              · simpa using h2
            · intro x hx
              rcases List.mem_append.mp hx with h1 | h2
              · exact hsts x h1
              · simp only [List.mem_singleton] at h2
                subst h2
                exact ⟨r, hget, hst⟩
      · rw [if_neg hst]
        exact ih b (hl.of_cons) htot hsz hnd
          (fun x hx => fun hc => hdisj x hx (by simp [hc])) hlen hone hsts

theorem prefill_pass_spec (cfgS : SchedulerConfig) (l : List Nat)
    (store : List (Nat × Request)) (running : List Nat) (b : ScheduledBatch)
    (hl : l.Nodup)
    (htot : b.total_scheduled_tokens ≤ cfgS.max_tokens_per_batch)
    (hsz : b.size ≤ cfgS.max_batch_size)
    (hnd : b.requests.Nodup)
    (hdisj : ∀ x ∈ b.requests, x ∉ l)
    (hlen : b.scheduled_tokens.length = b.requests.length) :
    (prefill_pass cfgS l store running b).2.2.2.total_scheduled_tokens
        ≤ cfgS.max_tokens_per_batch ∧
    (prefill_pass cfgS l store running b).2.2.2.size ≤ cfgS.max_batch_size ∧
    (prefill_pass cfgS l store running b).2.2.2.requests.Nodup ∧
    (prefill_pass cfgS l store running b).2.2.2.scheduled_tokens.length
      = (prefill_pass cfgS l store running b).2.2.2.requests.length ∧
    (∀ x ∈ (prefill_pass cfgS l store running b).2.2.2.requests,
      x ∈ b.requests ∨ x ∈ l) ∧
    (prefill_pass cfgS l store running b).2.2.2.is_prefill = b.is_prefill := by
  induction l generalizing store running b with
  | nil =>
    refine ⟨htot, hsz, hnd, hlen, ?_, rfl⟩
    intro x hx
    exact Or.inl hx
  | cons rid rest ih =>
    simp only [prefill_pass]
    by_cases hfull : cfgS.max_batch_size ≤ b.size
    · rw [if_pos hfull]
      exact ⟨htot, hsz, hnd, hlen, fun x hx => Or.inl hx, rfl⟩
    · rw [if_neg hfull]
      cases hget : alist_get store rid with
      | none =>
        exact ⟨htot, hsz, hnd, hlen, fun x hx => Or.inl hx, rfl⟩
      | some r =>
        dsimp only
        by_cases hch :
            min r.remaining_prompt (cfgS.max_tokens_per_batch - b.total_scheduled_tokens) = 0
        · rw [if_pos hch]
          exact ⟨htot, hsz, hnd, hlen, fun x hx => Or.inl hx, rfl⟩
        · rw [if_neg hch]
          have hridb : rid ∉ b.requests := fun hc => hdisj rid hc (by simp)
          have hnd' : (b.add rid
              (min r.remaining_prompt
                (cfgS.max_tokens_per_batch - b.total_scheduled_tokens))).requests.Nodup := by
            show (b.requests ++ [rid]).Nodup
            rw [List.nodup_append]
            exact ⟨hnd, List.nodup_singleton rid,
              fun a ha hb => by
                simp only [List.mem_singleton] at hb
                subst hb
                exact hridb ha⟩
          have hres := ih
            (alist_set store rid { r with status := RequestStatus.prefilling })
            (running ++ [rid])
            (b.add rid
              (min r.remaining_prompt (cfgS.max_tokens_per_batch - b.total_scheduled_tokens)))
            (hl.of_cons)
            (by
              show b.total_scheduled_tokens + _ ≤ _
              have hle : min r.remaining_prompt
                  (cfgS.max_tokens_per_batch - b.total_scheduled_tokens)
                  ≤ cfgS.max_tokens_per_batch - b.total_scheduled_tokens :=
                Nat.min_le_right _ _
              omega)
            (by
              show (b.requests ++ [rid]).length ≤ _
              have hlt : b.size < cfgS.max_batch_size := by omega
              simp only [ScheduledBatch.size] at hlt
              simp only [List.length_append, List.length_singleton]
              omega)
            hnd'
            (by
              intro x hx
              rcases List.mem_append.mp hx with h1 | h2
              · exact fun hc => hdisj x h1 (by simp [hc])
              · simp only [List.mem_singleton] at h2
                subst h2
                exact (List.nodup_cons.mp hl).1)
            (by
              show (b.scheduled_tokens ++ [_]).length = (b.requests ++ [rid]).length
              simp only [List.length_append, List.length_singleton]
              omega)
          obtain ⟨t1, t2, t3, t4, t5, t6⟩ := hres
          refine ⟨t1, t2, t3, t4, ?_, t6⟩
          intro x hx
          rcases t5 x hx with h1 | h2
          · rcases List.mem_append.mp h1 with h3 | h4
            · exact Or.inl h3
            · simp only [List.mem_singleton] at h4
              subst h4
              exact Or.inr (by simp)
          · exact Or.inr (by simp [h2])

/-! ### Block-table length law -/

theorem ceil_div_succ (p B : Nat) (hB : 0 < B) :
    (p + 1 + B - 1) / B = (p + B - 1) / B + (if p % B = 0 then 1 else 0) := by
  have hstep : p + 1 + B - 1 = p + B := by omega
  rw [hstep]
  by_cases hm : p % B = 0
  · rw [if_pos hm]
    have hpm := Nat.div_add_mod p B
    rw [hm, Nat.add_zero] at hpm
    have h2 : p + B - 1 = B * (p / B) + (B - 1) := by
      conv_lhs => rw [← hpm]
      exact Nat.add_sub_assoc hB _
    rw [h2, Nat.mul_add_div hB, Nat.div_eq_of_lt (show B - 1 < B by omega), Nat.add_zero,
      Nat.add_div_right p hB]
  · rw [if_neg hm]
    have hpm := Nat.div_add_mod p B
    have hmlt : p % B < B := Nat.mod_lt _ hB
    have hmpos : 0 < p % B := Nat.pos_of_ne_zero hm
    have h2 : p + B - 1 = B * (p / B + 1) + (p % B - 1) := by
      rw [Nat.mul_add, Nat.mul_one]
      generalize B * (p / B) = t at hpm ⊢
      omega
    rw [h2, Nat.mul_add_div hB, Nat.div_eq_of_lt (show p % B - 1 < B by omega), Nat.add_zero,
      Nat.add_div_right p hB]

theorem forward_alloc_layers_spec (cfg : Config) (rid pos : Nat) (layers : List Nat)
    (pool : BlockManager) (tables : List (List Nat)) (pool' : BlockManager)
    (tables' : List (List Nat))
    (hok : forward_alloc_layers cfg rid pos layers pool tables
        = Except.ok (pool', tables'))
    (hnd : layers.Nodup) (hbound : ∀ i ∈ layers, i < tables.length) :
    tables'.length = tables.length ∧
    (∀ i ∈ layers, (tables'.getD i []).length
        = (tables.getD i []).length + (if pos % cfg.block_size = 0 then 1 else 0)) ∧
    (∀ i, i ∉ layers → tables'.getD i [] = tables.getD i []) := by
  induction layers generalizing pool tables with
  | nil =>
    simp only [forward_alloc_layers, Except.ok.injEq, Prod.mk.injEq] at hok
    obtain ⟨_, ht⟩ := hok
    subst ht
    exact ⟨rfl, by intro i hi; simp at hi, fun i _ => rfl⟩
  | cons i rest ih =>
    simp only [forward_alloc_layers] at hok
    have hilt : i < tables.length := hbound i (by simp)
    have hinr : i ∉ rest := (List.nodup_cons.mp hnd).1
    by_cases hbd : pos % cfg.block_size = 0
    · rw [if_pos hbd] at hok
      cases halloc : pool.allocate_block_for_request rid with
      | mk obid pool2 =>
        rw [halloc] at hok
        cases obid with
        | none => simp at hok
        | some bid =>
          simp only at hok
          have hbound2 : ∀ j ∈ rest,
              j < (tables.set i ((tables.getD i []) ++ [bid])).length := by
            intro j hj
            rw [List.length_set]
            exact hbound j (by simp [hj])
          obtain ⟨e1, e2, e3⟩ := ih pool2
            (tables.set i ((tables.getD i []) ++ [bid])) hok (hnd.of_cons) hbound2
          refine ⟨by rw [e1, List.length_set], ?_, ?_⟩
          · intro j hj
            rcases List.mem_cons.mp hj with hj1 | hj2
            · subst hj1
              rw [e3 j hinr, getD_set_self _ _ _ _ hilt, if_pos hbd]
              simp
            · rw [e2 j hj2, getD_set_ne _ _ _ _ _ (fun hh => hinr (by rw [hh]; exact hj2))]
          · intro j hjn
            have hji : i ≠ j := fun hh => hjn (by simp [hh])
            have hjr : j ∉ rest := fun hh => hjn (by simp [hh])
            rw [e3 j hjr, getD_set_ne _ _ _ _ _ hji]
    · rw [if_neg hbd] at hok
      obtain ⟨e1, e2, e3⟩ := ih pool tables hok (hnd.of_cons)
        (fun j hj => hbound j (by simp [hj]))
      refine ⟨e1, ?_, ?_⟩
      · intro j hj
        rcases List.mem_cons.mp hj with hj1 | hj2
        · subst hj1
          rw [e3 j hinr, if_neg hbd]
          omega
        · exact e2 j hj2
      · intro j hjn
        have hjr : j ∉ rest := fun hh => hjn (by simp [hh])
        exact e3 j hjr

theorem getD_replicate_nil (n l : Nat) :
    (List.replicate n ([] : List Nat)).getD l [] = [] := by
  induction n generalizing l with
  | zero => simp [List.getD]
  | succ k ih =>
    cases l with
    | zero => rw [List.replicate_succ, List.getD_cons_zero]
    | succ m => rw [List.replicate_succ, List.getD_cons_succ]; exact ih m

theorem forward_with_request_alloc_spec (cfg : Config) (pool : BlockManager)
    (r : Request) (pos : Nat) (pool' : BlockManager) (r' : Request)
    (hok : forward_with_request_alloc cfg pool r pos = Except.ok (pool', r'))
    (hlen : r.block_tables.length = cfg.n_layers ∨ r.block_tables = []) :
    r'.block_tables.length = cfg.n_layers ∧
    (∀ l, l < cfg.n_layers → (r'.block_tables.getD l []).length
        = (r.block_tables.getD l []).length + (if pos % cfg.block_size = 0 then 1 else 0)) ∧
    r'.current_pos = r.current_pos ∧
    r'.generated_tokens = r.generated_tokens ∧
    r'.status = r.status ∧
    r'.max_tokens = r.max_tokens ∧
    r'.prompt_tokens = r.prompt_tokens ∧
    r'.prefill_cursor = r.prefill_cursor ∧
    r'.num_computed_tokens = r.num_computed_tokens ∧
    r'.id = r.id := by
  simp only [forward_with_request_alloc] at hok
  by_cases hbe : r.block_tables.isEmpty
  · rw [if_pos hbe] at hok
    have hbt : r.block_tables = [] := List.isEmpty_iff.mp hbe
    cases hfl : forward_alloc_layers cfg
        ({ r with block_tables := List.replicate cfg.n_layers [] } : Request).id pos
        (List.range cfg.n_layers) pool
        ({ r with block_tables := List.replicate cfg.n_layers [] } : Request).block_tables with
    | error u => rw [hfl] at hok; simp at hok
    | ok res =>
      cases res with
      | mk pool2 tables2 =>
        rw [hfl] at hok
        simp only [Except.ok.injEq, Prod.mk.injEq] at hok
        obtain ⟨hp, hr⟩ := hok
        subst hp
        subst hr
        obtain ⟨e1, e2, e3⟩ := forward_alloc_layers_spec cfg _ pos _ _ _ _ _ hfl
          (List.nodup_range _)
          (by intro j hj; simp only [List.length_replicate]; exact List.mem_range.mp hj)
        refine ⟨?_, ?_, rfl, rfl, rfl, rfl, rfl, rfl, rfl, rfl⟩
        · show tables2.length = cfg.n_layers
          rw [e1]
          simp
        · intro l hl
          have he := e2 l (List.mem_range.mpr hl)
          show (tables2.getD l []).length = _
          rw [he, hbt]
          show ((List.replicate cfg.n_layers ([] : List Nat)).getD l []).length + _ = _
          rw [getD_replicate_nil]
          simp [List.getD]
  · rw [if_neg hbe] at hok
    have hbl : r.block_tables.length = cfg.n_layers := by
      rcases hlen with h1 | h2
      · exact h1
      · rw [h2] at hbe
        simp at hbe
    cases hfl : forward_alloc_layers cfg r.id pos (List.range cfg.n_layers) pool
        r.block_tables with
    | error u => rw [hfl] at hok; simp at hok
    | ok res =>
      cases res with
      | mk pool2 tables2 =>
        rw [hfl] at hok
        simp only [Except.ok.injEq, Prod.mk.injEq] at hok
        obtain ⟨hp, hr⟩ := hok
        subst hp
        subst hr
        obtain ⟨e1, e2, e3⟩ := forward_alloc_layers_spec cfg _ pos _ _ _ _ _ hfl
          (List.nodup_range _)
          (by intro j hj; rw [hbl]; exact List.mem_range.mp hj)
        refine ⟨?_, ?_, rfl, rfl, rfl, rfl, rfl, rfl, rfl, rfl⟩
        · show tables2.length = cfg.n_layers
          rw [e1, hbl]
        · intro l hl
          exact e2 l (List.mem_range.mpr hl)

theorem process_positions_spec (cfg : Config) (count : Nat) (pool : BlockManager)
    (r : Request) (hB : 0 < cfg.block_size) (hbt : r.block_tables = [])
    (hpos : r.current_pos = 0) (pool' : BlockManager) (r' : Request)
    (hok : process_positions cfg count pool r = Except.ok (pool', r')) :
    r'.current_pos = count ∧
    (r'.block_tables.length = cfg.n_layers ∨ r'.block_tables = []) ∧
    (∀ l, l < cfg.n_layers → (r'.block_tables.getD l []).length
        = (count + cfg.block_size - 1) / cfg.block_size) := by
  induction count generalizing pool' r' with
  | zero =>
    simp only [process_positions, Except.ok.injEq, Prod.mk.injEq] at hok
    obtain ⟨_, hr⟩ := hok
    subst hr
    refine ⟨hpos, Or.inr hbt, ?_⟩
    intro l _
    rw [hbt]
    show ([] : List Nat).length = _
    rw [Nat.div_eq_of_lt (by omega)]
    rfl
  | succ n ih =>
    simp only [process_positions] at hok
    cases hpp : process_positions cfg n pool r with
    | error u => rw [hpp] at hok; simp at hok
    | ok res =>
      cases res with
      | mk pool1 r1 =>
        rw [hpp] at hok
        simp only at hok
        obtain ⟨f1, f2, f3⟩ := ih pool1 r1 hpp
        cases hfw : forward_with_request_alloc cfg pool1 r1 r1.current_pos with
        | error u => rw [hfw] at hok; simp at hok
        | ok res2 =>
          cases res2 with
          | mk pool2 r2 =>
            rw [hfw] at hok
            simp only [Except.ok.injEq, Prod.mk.injEq] at hok
            obtain ⟨hp, hr⟩ := hok
            subst hp
            subst hr
            obtain ⟨g1, g2, g3, _⟩ := forward_with_request_alloc_spec cfg pool1 r1
              r1.current_pos pool2 r2 hfw f2
            refine ⟨?_, Or.inl g1, ?_⟩
            · show r2.current_pos + 1 = n + 1
              rw [g3, f1]
            · intro l hl
              show (r2.block_tables.getD l []).length = _
              rw [g2 l hl, f3 l hl, f1]
              exact (ceil_div_succ n cfg.block_size hB).symm

namespace BlockManager

/-! ### Invariant preservation for the block pool -/

theorem all_owned_mk (s : BlockManager) (fb : List Bool) (nf : Nat) :
    ({ s with free_blocks := fb, num_free_blocks := nf } : BlockManager).all_owned
      = s.all_owned := rfl

theorem foldl_free_spec (bs : List Nat) (s : BlockManager)
    (hnd : bs.Nodup) (hmark : ∀ b ∈ bs, s.free_blocks.getD b true = false)
    (hlen : s.free_blocks.length = s.num_blocks) :
    (bs.foldl free_block_internal s).num_blocks = s.num_blocks ∧
    (bs.foldl free_block_internal s).block_size = s.block_size ∧
    (bs.foldl free_block_internal s).request_blocks = s.request_blocks ∧
    (bs.foldl free_block_internal s).free_blocks.length = s.free_blocks.length ∧
    (bs.foldl free_block_internal s).num_free_blocks = s.num_free_blocks + bs.length ∧
    (∀ j, j ∉ bs →
      (bs.foldl free_block_internal s).free_blocks.getD j true
        = s.free_blocks.getD j true) := by
  induction bs generalizing s with
  | nil => simp
  | cons b rest ih =>
    have hb := hmark b (by simp)
    have hblt : b < s.free_blocks.length := lt_length_of_getD_false _ _ hb
    have hbn : ¬ s.num_blocks ≤ b := by omega
    have hs1 : free_block_internal s b =
        { s with free_blocks := s.free_blocks.set b true,
                 num_free_blocks := s.num_free_blocks + 1 } := by
      unfold free_block_internal
      rw [if_neg hbn, hb, if_neg (by simp)]
    have hnd' : rest.Nodup := hnd.of_cons
    have hbni : b ∉ rest := (List.nodup_cons.mp hnd).1
    have hmark' : ∀ c ∈ rest,
        (free_block_internal s b).free_blocks.getD c true = false := by
      intro c hc
      rw [hs1]
      have : b ≠ c := fun hh => hbni (hh ▸ hc)
      rw [getD_set_ne _ _ _ _ _ this]
      exact hmark c (by simp [hc])
    have hlen' : (free_block_internal s b).free_blocks.length
        = (free_block_internal s b).num_blocks := by
      rw [hs1]; simpa using hlen
    have := ih (free_block_internal s b) hnd' hmark' hlen'
    obtain ⟨e1, e2, e3, e4, e5, e6⟩ := this
    rw [List.foldl_cons]
    refine ⟨by rw [e1, hs1], by rw [e2, hs1], by rw [e3, hs1], ?_, ?_, ?_⟩
    · rw [e4, hs1]
      simp only [List.length_set]
    · rw [e5, hs1]
      simp only [List.length_cons]
      omega
    · intro j hj
      have hj1 : j ≠ b := fun hh => hj (by simp [hh])
      have hj2 : j ∉ rest := fun hh => hj (by simp [hh])
      rw [e6 j hj2, hs1]
      exact getD_set_ne _ _ _ _ _ (fun hh => hj1 hh.symm)

theorem alloc_rollback_spec (s : BlockManager) (acc : List Nat)
    (hlen : s.free_blocks.length = s.num_blocks)
    (hcons : s.num_free_blocks + s.all_owned.length + acc.length = s.num_blocks)
    (hnd : (s.all_owned ++ acc).Nodup)
    (hmark : ∀ b ∈ s.all_owned ++ acc, s.free_blocks.getD b true = false) :
    (acc.foldl free_block_internal s).request_blocks = s.request_blocks ∧
    (acc.foldl free_block_internal s).num_blocks = s.num_blocks ∧
    (acc.foldl free_block_internal s).block_size = s.block_size ∧
    (acc.foldl free_block_internal s).free_blocks.length = s.num_blocks ∧
    (acc.foldl free_block_internal s).num_free_blocks + s.all_owned.length
        + ([] : List Nat).length = s.num_blocks ∧
    (s.all_owned ++ ([] : List Nat)).Nodup ∧
    (∀ b ∈ s.all_owned ++ ([] : List Nat),
      (acc.foldl free_block_internal s).free_blocks.getD b true = false) := by
  have hacnd : acc.Nodup := (List.nodup_append.mp hnd).2.1
  have haccm : ∀ b ∈ acc, s.free_blocks.getD b true = false := by
    intro b hb
    exact hmark b (by simp [hb])
  obtain ⟨e1, e2, e3, e4, e5, e6⟩ := foldl_free_spec acc s hacnd haccm hlen
  refine ⟨e3, e1, e2, by rw [e4, hlen], ?_, ?_, ?_⟩
  · simp only [List.length_nil]
    rw [e5]
    omega
  · simpa using (List.nodup_append.mp hnd).1
  · intro b hb
    simp only [List.append_nil] at hb
    have hbacc : b ∉ acc := by
      have := (List.nodup_append.mp hnd).2.2
      exact fun hc => this hb hc
    rw [e6 b hbacc]
    exact hmark b (by simp [hb])

theorem alloc_loop_spec (n : Nat) (s : BlockManager) (acc : List Nat)
    (hlen : s.free_blocks.length = s.num_blocks)
    (hcons : s.num_free_blocks + s.all_owned.length + acc.length = s.num_blocks)
    (hnd : (s.all_owned ++ acc).Nodup)
    (hmark : ∀ b ∈ s.all_owned ++ acc, s.free_blocks.getD b true = false) :
    (alloc_loop n s acc).2.request_blocks = s.request_blocks ∧
    (alloc_loop n s acc).2.num_blocks = s.num_blocks ∧
    (alloc_loop n s acc).2.block_size = s.block_size ∧
    (alloc_loop n s acc).2.free_blocks.length = s.num_blocks ∧
    (alloc_loop n s acc).2.num_free_blocks + s.all_owned.length
        + (alloc_loop n s acc).1.length = s.num_blocks ∧
    (s.all_owned ++ (alloc_loop n s acc).1).Nodup ∧
    (∀ b ∈ s.all_owned ++ (alloc_loop n s acc).1,
      (alloc_loop n s acc).2.free_blocks.getD b true = false) := by
  induction n generalizing s acc with
  | zero => exact ⟨rfl, rfl, rfl, hlen, hcons, hnd, hmark⟩
  | succ n ih =>
    by_cases hz : s.num_free_blocks = 0
    · have hres : s.allocate_block_internal = (none, s) := by
        unfold allocate_block_internal
        rw [if_pos hz]
      have hstep : alloc_loop (n + 1) s acc = ([], acc.foldl free_block_internal s) := by
        unfold alloc_loop
        rw [hres]
      rw [hstep]
      exact alloc_rollback_spec s acc hlen hcons hnd hmark
    · cases hff : first_free s.free_blocks with
      | none =>
        have hres : s.allocate_block_internal = (none, s) := by
          unfold allocate_block_internal
          rw [if_neg hz, hff]
        have hstep : alloc_loop (n + 1) s acc = ([], acc.foldl free_block_internal s) := by
          unfold alloc_loop
          rw [hres]
        rw [hstep]
        exact alloc_rollback_spec s acc hlen hcons hnd hmark
      | some i =>
        obtain ⟨hilt, higet⟩ := first_free_spec _ _ hff
        have hres : s.allocate_block_internal =
            (some i,
              { s with free_blocks := s.free_blocks.set i false,
                       num_free_blocks := s.num_free_blocks - 1 }) := by
          unfold allocate_block_internal
          rw [if_neg hz, hff]
        have hstep : alloc_loop (n + 1) s acc =
            alloc_loop n
              { s with free_blocks := s.free_blocks.set i false,
                       num_free_blocks := s.num_free_blocks - 1 }
              (acc ++ [i]) := by
          conv_lhs => unfold alloc_loop
          rw [hres]
        rw [hstep]
        have hifresh : i ∉ s.all_owned ++ acc := by
          intro hc
          have hcontra := hmark i hc
          rw [higet] at hcontra
          simp at hcontra
        have hlen' :
            ({ s with free_blocks := s.free_blocks.set i false,
                      num_free_blocks := s.num_free_blocks - 1 } : BlockManager).free_blocks.length
            = s.num_blocks := by
          simp only [List.length_set]
          exact hlen
        have hcons' :
            ({ s with free_blocks := s.free_blocks.set i false,
                      num_free_blocks := s.num_free_blocks - 1 } : BlockManager).num_free_blocks
              + s.all_owned.length + (acc ++ [i]).length = s.num_blocks := by
          simp only [List.length_append, List.length_singleton]
          omega
        have hnd' : (s.all_owned ++ (acc ++ [i])).Nodup := by
          rw [← List.append_assoc, List.nodup_append]
          refine ⟨hnd, List.nodup_singleton i, ?_⟩
          intro a ha hb
          simp only [List.mem_singleton] at hb
          subst hb
          exact hifresh ha
        have hmark' : ∀ b ∈ s.all_owned ++ (acc ++ [i]),
            (s.free_blocks.set i false).getD b true = false := by
          intro b hb
          rw [← List.append_assoc] at hb
          rcases List.mem_append.mp hb with hb1 | hb2
          · have hbne : i ≠ b := fun hh => hifresh (hh ▸ hb1)
            rw [getD_set_ne _ _ _ _ _ hbne]
            exact hmark b hb1
          · simp only [List.mem_singleton] at hb2
            subst hb2
            exact getD_set_self _ _ _ _ hilt
        exact ih _ (acc ++ [i]) hlen' hcons' hnd' hmark'

theorem inv_init (N B : Nat) : Inv (init N B) := by
  refine ⟨by simp [init], by simp [init, all_owned], by simp [init, all_owned], ?_⟩
  intro b hb
  simp [init, all_owned] at hb

theorem inv_allocate_block_for_request (s : BlockManager) (h : Inv s) (rid : Nat) :
    Inv (s.allocate_block_for_request rid).2 := by
  by_cases hz : s.num_free_blocks = 0
  · have hres : s.allocate_block_for_request rid = (none, s) := by
      unfold allocate_block_for_request allocate_block_internal
      rw [if_pos hz]
    rw [hres]
    exact h
  · cases hff : first_free s.free_blocks with
    | none =>
      have hres : s.allocate_block_for_request rid = (none, s) := by
        unfold allocate_block_for_request allocate_block_internal
        rw [if_neg hz, hff]
      rw [hres]
      exact h
    | some i =>
      obtain ⟨hilt, higet⟩ := first_free_spec _ _ hff
      have hres : s.allocate_block_for_request rid =
          (some i,
            { s with free_blocks := s.free_blocks.set i false,
                     num_free_blocks := s.num_free_blocks - 1,
                     request_blocks := alist_append_blocks s.request_blocks rid [i] }) := by
        unfold allocate_block_for_request allocate_block_internal
        rw [if_neg hz, hff]
      rw [hres]
      have hifresh : i ∉ s.all_owned := by
        intro hc
        have hcontra := h.owned_marked i hc
        rw [higet] at hcontra
        simp at hcontra
      have hzpos : 0 < s.num_free_blocks := Nat.pos_of_ne_zero hz
      have hperm :
          List.Perm ((alist_append_blocks s.request_blocks rid [i]).map Prod.snd).flatten
            ((s.request_blocks.map Prod.snd).flatten ++ [i]) :=
        flatten_append_blocks s.request_blocks rid [i]
      refine ⟨?_, ?_, ?_, ?_⟩
      · show (s.free_blocks.set i false).length = s.num_blocks
        simpa using h.len_eq
      · show s.num_free_blocks - 1
            + ((alist_append_blocks s.request_blocks rid [i]).map Prod.snd).flatten.length
            = s.num_blocks
        rw [hperm.length_eq]
        simp only [List.length_append, List.length_singleton]
        have hc := h.cons
        simp only [all_owned] at hc
        omega
      · show ((alist_append_blocks s.request_blocks rid [i]).map Prod.snd).flatten.Nodup
        rw [hperm.nodup_iff, List.nodup_append]
        refine ⟨h.owned_nodup, List.nodup_singleton i, ?_⟩
        intro a ha hb
        simp only [List.mem_singleton] at hb
        subst hb
        exact hifresh ha
      · intro b hb
        have hb' : b ∈ (s.request_blocks.map Prod.snd).flatten ++ [i] :=
          hperm.mem_iff.mp hb
        rcases List.mem_append.mp hb' with hb1 | hb2
        · have hbne : i ≠ b := fun hh => hifresh (hh ▸ hb1)
          show (s.free_blocks.set i false).getD b true = false
          rw [getD_set_ne _ _ _ _ _ hbne]
          exact h.owned_marked b hb1
        · simp only [List.mem_singleton] at hb2
          subst hb2
          show (s.free_blocks.set b false).getD b true = false
          exact getD_set_self _ _ _ _ hilt

theorem inv_allocate_for_request (s : BlockManager) (h : Inv s) (rid n : Nat) :
    Inv (s.allocate_for_request rid n).2 := by
  have hcons0 : s.num_free_blocks + s.all_owned.length + ([] : List Nat).length
      = s.num_blocks := by simpa using h.cons
  have hnd0 : (s.all_owned ++ ([] : List Nat)).Nodup := by simpa using h.owned_nodup
  have hmark0 : ∀ b ∈ s.all_owned ++ ([] : List Nat),
      s.free_blocks.getD b true = false := by
    intro b hb
    simp only [List.append_nil] at hb
    exact h.owned_marked b hb
  unfold allocate_for_request allocate_sequence_internal
  by_cases hlow : s.num_free_blocks < (n + s.block_size - 1) / s.block_size
  · rw [if_pos hlow]
    simpa using h
  · rw [if_neg hlow]
    obtain ⟨e1, e2, e3, e4, e5, e6, e7⟩ :=
      alloc_loop_spec ((n + s.block_size - 1) / s.block_size) s [] h.len_eq hcons0 hnd0 hmark0
    cases hsp : alloc_loop ((n + s.block_size - 1) / s.block_size) s [] with
    | mk blocks t =>
      rw [hsp] at e1 e2 e3 e4 e5 e6 e7
      simp only at e1 e2 e3 e4 e5 e6 e7
      show (if blocks.isEmpty = true then (blocks, t)
        else (blocks,
          { t with request_blocks := alist_append_blocks t.request_blocks rid blocks })).2.Inv
      by_cases hbe : blocks.isEmpty = true
      · rw [if_pos hbe]
        have hb0 : blocks = [] := List.isEmpty_iff.mp hbe
        rw [hb0] at e5 e6 e7
        have hao : t.all_owned = s.all_owned := by
          simp only [all_owned]
          rw [e1]
        refine ⟨by rw [e4, e2], ?_, ?_, ?_⟩
        · show t.num_free_blocks + t.all_owned.length = t.num_blocks
          rw [hao, e2]
          simpa using e5
        · show t.all_owned.Nodup
          rw [hao]
          simpa using e6
        · intro b hb
          rw [hao] at hb
          exact e7 b (by simpa using hb)
      · rw [if_neg hbe]
        have hperm :
            List.Perm ((alist_append_blocks t.request_blocks rid blocks).map Prod.snd).flatten
              ((t.request_blocks.map Prod.snd).flatten ++ blocks) :=
          flatten_append_blocks t.request_blocks rid blocks
        have hao : (t.request_blocks.map Prod.snd).flatten = s.all_owned := by
          simp only [all_owned] at e1 ⊢
          rw [e1]
        refine ⟨?_, ?_, ?_, ?_⟩
        · show t.free_blocks.length = t.num_blocks
          rw [e4, e2]
        · show t.num_free_blocks
              + ((alist_append_blocks t.request_blocks rid blocks).map Prod.snd).flatten.length
              = t.num_blocks
          rw [hperm.length_eq]
          simp only [List.length_append]
          rw [hao, e2]
          omega
        · show ((alist_append_blocks t.request_blocks rid blocks).map Prod.snd).flatten.Nodup
          rw [hperm.nodup_iff, hao]
          exact e6
        · intro b hb
          have hb' := hperm.mem_iff.mp hb
          rw [hao] at hb'
          exact e7 b hb'

theorem inv_free_request (s : BlockManager) (h : Inv s) (rid : Nat) :
    Inv (s.free_request rid) := by
  unfold free_request
  cases hget : alist_get s.request_blocks rid with
  | none => exact h
  | some bs =>
    have hsub : List.Sublist bs s.all_owned := get_sublist_flatten _ _ _ hget
    have hbnd : bs.Nodup := List.Nodup.sublist hsub h.owned_nodup
    have hbmark : ∀ b ∈ bs, s.free_blocks.getD b true = false := by
      intro b hb
      exact h.owned_marked b (hsub.subset hb)
    obtain ⟨e1, e2, e3, e4, e5, e6⟩ := foldl_free_spec bs s hbnd hbmark h.len_eq
    have hperm : List.Perm s.all_owned
        (bs ++ ((alist_erase s.request_blocks rid).map Prod.snd).flatten) :=
      flatten_erase_of_get _ _ _ hget
    have hnd2 : (bs ++ ((alist_erase s.request_blocks rid).map Prod.snd).flatten).Nodup :=
      hperm.nodup_iff.mp h.owned_nodup
    obtain ⟨_, hnd3, hdisj⟩ := List.nodup_append.mp hnd2
    refine ⟨?_, ?_, ?_, ?_⟩
    · show (bs.foldl free_block_internal s).free_blocks.length = _
      rw [e4, e1, h.len_eq]
    · show (bs.foldl free_block_internal s).num_free_blocks
          + ((alist_erase (bs.foldl free_block_internal s).request_blocks rid).map
              Prod.snd).flatten.length = _
      rw [e3, e5, e1]
      have hlp := hperm.length_eq
      simp only [List.length_append] at hlp
      have hc := h.cons
      omega
    · show ((alist_erase (bs.foldl free_block_internal s).request_blocks rid).map
          Prod.snd).flatten.Nodup
      rw [e3]
      exact hnd3
    · intro b hb
      simp only [all_owned] at hb
      rw [e3] at hb
      have hbin : b ∈ s.all_owned := hperm.mem_iff.mpr (by simp [hb])
      have hbnot : b ∉ bs := fun hc => hdisj hc hb
      show (bs.foldl free_block_internal s).free_blocks.getD b true = false
      rw [e6 b hbnot]
      exact h.owned_marked b hbin

end BlockManager

theorem inv_apply_pool_op (s : BlockManager) (h : s.Inv) (op : PoolOp) :
    (apply_pool_op s op).Inv := by
  cases op with
  | alloc_block_for_req rid => exact BlockManager.inv_allocate_block_for_request s h rid
  | alloc_for_req rid n => exact BlockManager.inv_allocate_for_request s h rid n
  | free_req rid => exact BlockManager.inv_free_request s h rid

theorem inv_run_pool_ops (s : BlockManager) (h : s.Inv) (ops : List PoolOp) :
    (run_pool_ops s ops).Inv := by
  induction ops generalizing s with
  | nil => exact h
  | cons op rest ih => exact ih _ (inv_apply_pool_op s h op)

theorem conservation_of_inv (s : BlockManager) (h : s.Inv) : s.conservation := by
  unfold BlockManager.conservation
  have hmap : s.request_blocks.map (fun e => e.2.length)
      = (s.request_blocks.map Prod.snd).map List.length := by
    rw [List.map_map]
    rfl
  have hsum : (s.request_blocks.map (fun e => e.2.length)).sum = s.all_owned.length := by
    rw [hmap]
    simp only [BlockManager.all_owned]
    rw [List.length_flatten]
  rw [hsum]
  exact h.cons

/-- **C4** (amended): after any sequence of the owner-map-maintaining pool
operations `allocate_block_for_request`, `allocate_for_request` and
`free_request` applied to a fresh pool, the number of free blocks plus the
sum of all per-request owner-list lengths equals the total block count `N`,
and no physical block id appears in two owner lists nor twice in one list.
(The original claim also allowed `free_block` in the sequence; the
counterexample shows `free_block` breaks conservation, because it clears the
free bit without removing the id from its owner's list.) -/
theorem C4_pool_conservation (N B : Nat) (ops : List PoolOp) :
    (run_pool_ops (BlockManager.init N B) ops).conservation ∧
    (run_pool_ops (BlockManager.init N B) ops).all_owned.Nodup := by
  have h := inv_run_pool_ops (BlockManager.init N B) (BlockManager.inv_init N B) ops
  exact ⟨conservation_of_inv _ h, h.owned_nodup⟩

/-- **C2** (code-bug evidence): with the pool exhausted, the scheduler forms
the decode batch `[0, 1]`, but the first decode step's block allocation
throws and the exception propagates out of `run_decode_batch` uncaught:
the batch — and with it `run_all` — aborts as a whole.  No request is
marked `FAILED`/`OOM`, no blocks are freed, and the loop does not continue
with request 1, contradicting the claimed per-request failure isolation. -/
theorem C2_oom_uncaught :
    (schedule c2_engine).2 =
      { requests := [0, 1], scheduled_tokens := [1, 1], is_prefill := false,
        total_scheduled_tokens := 2 } ∧
    run_decode_batch c2_samp [0, 1] c2_engine = Except.error () :=
  ⟨rfl, rfl⟩

/-- **C3** (code-bug evidence): with a 100-token prompt and `T_max = 32`,
the first `schedule()` admits a 32-token prefill chunk and moves the request
into the running set with status `PREFILLING`; after the runner executes the
chunk (`prefill_cursor = 32 < 100`), the next `schedule()` returns the empty
batch and leaves the state unchanged — the partially prefilled request is
never scheduled again (the decode pass only takes `DECODING` requests and
the prefill pass only drains the pending queue), so the scheduled token
counts can never partition all 100 prompt tokens. -/
theorem C3_chunked_prefill_stalls :
    (schedule c3_engine).2 =
      { requests := [0], scheduled_tokens := [32], is_prefill := true,
        total_scheduled_tokens := 32 } ∧
    ∃ e2 r, run_prefill_batch
        (List.zip (schedule c3_engine).2.requests (schedule c3_engine).2.scheduled_tokens)
        (schedule c3_engine).1 = Except.ok e2 ∧
      alist_get e2.store 0 = some r ∧
      r.prefill_cursor = 32 ∧ r.num_prompt_tokens = 100 ∧
      r.status = RequestStatus.prefilling ∧
      (schedule e2).2.requests = [] ∧ (schedule e2).1 = e2 :=
  ⟨rfl, _, _, rfl, rfl, rfl, rfl, rfl, rfl, rfl⟩

/-- **C5**: every non-empty batch returned by `Scheduler::schedule()` is
single-type — either a decode batch whose entries are all one token and all
drawn from running `DECODING` requests, or a prefill batch drawn from the
pending queue — its total scheduled token count is at most
`max_tokens_per_batch`, its request count is at most `max_batch_size`, and
no request occurs twice (given the scheduler's well-formedness: no pointer
is duplicated in the running list or the pending queue). -/
theorem C5_schedule_invariants (e : EngineState)
    (hrun : e.running.Nodup) (hpend : e.pending.Nodup) :
    (schedule e).2.total_scheduled_tokens ≤ e.sched.max_tokens_per_batch ∧
    (schedule e).2.size ≤ e.sched.max_batch_size ∧
    (schedule e).2.requests.Nodup ∧
    (schedule e).2.scheduled_tokens.length = (schedule e).2.requests.length ∧
    ((schedule e).2.requests = [] ∨
      ((schedule e).2.is_prefill = false ∧
        (∀ t ∈ (schedule e).2.scheduled_tokens, t = 1) ∧
        (∀ x ∈ (schedule e).2.requests,
          ∃ r, alist_get e.store x = some r ∧ r.status = RequestStatus.decoding)) ∨
      ((schedule e).2.is_prefill = true ∧
        (∀ x ∈ (schedule e).2.requests, x ∈ e.pending))) := by
  have hd := decode_pass_spec e.store e.sched e.running ScheduledBatch.initB hrun
    (Nat.zero_le _) (Nat.zero_le _) List.nodup_nil
    (by intro x hx; simp [ScheduledBatch.initB] at hx) rfl
    (by intro t ht; simp [ScheduledBatch.initB] at ht)
    (by intro x hx; simp [ScheduledBatch.initB] at hx)
  obtain ⟨t1, t2, t3, t4, t5, t6, _⟩ := hd
  unfold schedule
  by_cases hne :
      (decode_pass e.store e.sched e.running ScheduledBatch.initB).requests.isEmpty = false
  · rw [if_pos hne]
    exact ⟨t1, t2, t3, t4, Or.inr (Or.inl ⟨rfl, t5, t6⟩)⟩
  · rw [if_neg hne]
    have hp := prefill_pass_spec e.sched e.pending e.store e.running ScheduledBatch.initB
      hpend (Nat.zero_le _) (Nat.zero_le _) List.nodup_nil
      (by intro x hx; simp [ScheduledBatch.initB] at hx) rfl
    cases hpp : prefill_pass e.sched e.pending e.store e.running ScheduledBatch.initB with
    | mk pending' rest1 =>
      cases rest1 with
      | mk store' rest2 =>
        cases rest2 with
        | mk running' b =>
          rw [hpp] at hp
          simp only at hp
          obtain ⟨p1, p2, p3, p4, p5, p6⟩ := hp
          dsimp only
          by_cases hbe : b.requests.isEmpty = false
          · rw [if_pos hbe]
            refine ⟨p1, p2, p3, p4, Or.inr (Or.inr ⟨rfl, ?_⟩)⟩
            intro x hx
            rcases p5 x hx with h1 | h2
            · simp [ScheduledBatch.initB] at h1
            · exact h2
          · rw [if_neg hbe]
            have hbemp : b.requests = [] := by
              rcases hb : b.requests with _ | ⟨y, ys⟩
              · rfl
              · rw [hb] at hbe
                simp at hbe
            exact ⟨p1, p2, p3, p4, Or.inl hbemp⟩

/-- **C5** witness: the invariants instantiated at the concrete one-request
engine state of the chunked-prefill scenario. -/
theorem C5_schedule_invariants_witness :
    (c3_engine.running.Nodup ∧ c3_engine.pending.Nodup) ∧
    ((schedule c3_engine).2.total_scheduled_tokens ≤ c3_engine.sched.max_tokens_per_batch ∧
    (schedule c3_engine).2.size ≤ c3_engine.sched.max_batch_size ∧
    (schedule c3_engine).2.requests.Nodup ∧
    (schedule c3_engine).2.scheduled_tokens.length = (schedule c3_engine).2.requests.length ∧
    ((schedule c3_engine).2.requests = [] ∨
      ((schedule c3_engine).2.is_prefill = false ∧
        (∀ t ∈ (schedule c3_engine).2.scheduled_tokens, t = 1) ∧
        (∀ x ∈ (schedule c3_engine).2.requests,
          ∃ r, alist_get c3_engine.store x = some r ∧
            r.status = RequestStatus.decoding)) ∨
      ((schedule c3_engine).2.is_prefill = true ∧
        (∀ x ∈ (schedule c3_engine).2.requests, x ∈ c3_engine.pending)))) :=
  ⟨⟨by decide, by decide⟩, C5_schedule_invariants c3_engine (by decide) (by decide)⟩

/-- **C6** (amended): for a request whose positions `0, …, count−1` have been
processed consecutively by `forward_with_request` (every allocation
succeeding), every layer's block table has length `ceil(count / B)`, i.e.
`ceil((p + 1) / B)` where `p = count − 1` is the position passed to the
LAST `forward_with_request` call.  The claim's formula
`ceil((current_pos + 1) / B)` holds when `current_pos` is read as that last
position argument; read as the at-rest field (which the runner has already
incremented to `count`), it fails at block boundaries — see the
counterexample.  Moreover, processing the next position appends exactly one
block to every layer's table precisely when that position is a multiple of
`B`. -/
theorem C6_block_table_length (cfg : Config) (pool : BlockManager) (r : Request)
    (count : Nat) (hB : 0 < cfg.block_size) (hbt : r.block_tables = [])
    (hpos : r.current_pos = 0) (pool' : BlockManager) (r' : Request)
    (hok : process_positions cfg count pool r = Except.ok (pool', r')) :
    r'.current_pos = count ∧
    (∀ l, l < cfg.n_layers → (r'.block_tables.getD l []).length
        = (count + cfg.block_size - 1) / cfg.block_size) ∧
    (∀ pool2 r2,
      forward_with_request_alloc cfg pool' r' r'.current_pos = Except.ok (pool2, r2) →
      ∀ l, l < cfg.n_layers → (r2.block_tables.getD l []).length
          = (r'.block_tables.getD l []).length
            + (if count % cfg.block_size = 0 then 1 else 0)) := by
  obtain ⟨f1, f2, f3⟩ := process_positions_spec cfg count pool r hB hbt hpos pool' r' hok
  refine ⟨f1, f3, ?_⟩
  intro pool2 r2 hfw l hl
  obtain ⟨g1, g2, _⟩ := forward_with_request_alloc_spec cfg pool' r' r'.current_pos
    pool2 r2 hfw f2
  rw [g2 l hl, f1]

/-- **C6** witness: five consecutively processed positions with `B = 16`
give every layer table length `ceil(5/16) = 1`. -/
theorem C6_block_table_length_witness :
    (0 < c6_cfg.block_size ∧ c6_request.block_tables = [] ∧ c6_request.current_pos = 0) ∧
    ∃ pool' r', process_positions c6_cfg 5 (BlockManager.init 4 16) c6_request
        = Except.ok (pool', r') ∧
      (r'.current_pos = 5 ∧
        (∀ l, l < c6_cfg.n_layers → (r'.block_tables.getD l []).length
            = (5 + c6_cfg.block_size - 1) / c6_cfg.block_size) ∧
        (∀ pool2 r2,
          forward_with_request_alloc c6_cfg pool' r' r'.current_pos
              = Except.ok (pool2, r2) →
          ∀ l, l < c6_cfg.n_layers → (r2.block_tables.getD l []).length
              = (r'.block_tables.getD l []).length
                + (if 5 % c6_cfg.block_size = 0 then 1 else 0))) :=
  ⟨⟨by decide, rfl, rfl⟩, _, _, rfl,
    C6_block_table_length c6_cfg (BlockManager.init 4 16) c6_request 5 (by decide)
      rfl rfl _ _ rfl⟩

/-- **C6** counterexample: after processing positions 0–15 consecutively
with `B = 16`, the at-rest `current_pos` is 16 and each layer table holds
one block, but the claim's formula `ceil((current_pos + 1)/B)` gives 2. -/
theorem C6_counterexample :
    ∃ pool' r', process_positions c6_cfg 16 (BlockManager.init 4 16) c6_request
        = Except.ok (pool', r') ∧
      r'.current_pos = 16 ∧
      (r'.block_tables.getD 0 []).length = 1 ∧
      (r'.current_pos + 1 + c6_cfg.block_size - 1) / c6_cfg.block_size = 2 ∧
      (r'.block_tables.getD 0 []).length ≠
        (r'.current_pos + 1 + c6_cfg.block_size - 1) / c6_cfg.block_size :=
  ⟨_, _, rfl, rfl, rfl, rfl, by decide⟩

/-- **C4** counterexample: allocate block 0 to request 7, then call the
public `free_block 0`.  The pool then reports `free_count = 1` while
request 7 still owns `[0]`, so `free_count + Σ owner_list_lengths = 2 ≠ 1 = N`:
the conservation law of the claim fails for sequences containing `free_block`. -/
theorem C4_counterexample :
    ∃ s : BlockManager,
      ((BlockManager.init 1 1).allocate_block_for_request 7).2.free_block 0 = some s ∧
        ¬ s.conservation := by
  refine ⟨⟨1, 1, [true], 1, [(7, [0])]⟩, by decide, by decide⟩

/-! ### Sampler lemmas (C9) -/

theorem getD_mem_of_lt {α : Type} (l : List α) (n : Nat) (d : α) (h : n < l.length) :
    l.getD n d ∈ l := by
  induction l generalizing n with
  | nil => simp at h
  | cons x rest ih =>
      cases n with
      | zero => simp
      | succ n =>
          simp only [List.getD_cons_succ]
          exact List.mem_cons_of_mem _ (ih n (by simpa using h))

theorem max_element_go_spec (xs : List ℚ) :
    ∀ (rest : List ℚ) (bv : ℚ) (bi ci : Nat),
      bi < xs.length → xs.getD bi 0 = bv →
      (∀ k, k < rest.length → rest.getD k 0 = xs.getD (ci + k) 0) →
      ci + rest.length ≤ xs.length →
      max_element_go rest bv bi ci < xs.length ∧
      bv ≤ xs.getD (max_element_go rest bv bi ci) 0 ∧
      ∀ k, k < rest.length → rest.getD k 0 ≤ xs.getD (max_element_go rest bv bi ci) 0 := by
  intro rest
  induction rest with
  | nil =>
      intro bv bi ci hbi hbv _ _
      exact ⟨hbi, le_of_eq hbv.symm, fun k hk => absurd hk (by simp)⟩
  | cons x rest ih =>
      intro bv bi ci hbi hbv hrest hci
      simp only [List.length_cons] at hci
      have hx : x = xs.getD ci 0 := by simpa using hrest 0 (by simp)
      have hshift : ∀ k, k < rest.length → rest.getD k 0 = xs.getD (ci + 1 + k) 0 := by
        intro k hk
        have h1 := hrest (k + 1) (by simp only [List.length_cons]; omega)
        rw [List.getD_cons_succ] at h1
        rw [show ci + (k + 1) = ci + 1 + k from by omega] at h1
        exact h1
      by_cases hlt : bv < x
      · rw [show max_element_go (x :: rest) bv bi ci = max_element_go rest x ci (ci + 1) from by
          simp [max_element_go, hlt]]
        have h := ih x ci (ci + 1) (by omega) hx.symm hshift (by omega)
        refine ⟨h.1, le_of_lt (lt_of_lt_of_le hlt h.2.1), ?_⟩
        intro k hk
        cases k with
        | zero => simpa using h.2.1
        | succ k =>
            have := h.2.2 k (by simp only [List.length_cons] at hk; omega)
            simpa using this
      · rw [show max_element_go (x :: rest) bv bi ci = max_element_go rest bv bi (ci + 1) from by
          simp [max_element_go, hlt]]
        have h := ih bv bi (ci + 1) hbi hbv hshift (by omega)
        refine ⟨h.1, h.2.1, ?_⟩
        intro k hk
        cases k with
        | zero =>
            simp only [List.getD_cons_zero]
            exact le_trans (not_lt.mp hlt) h.2.1
        | succ k =>
            have := h.2.2 k (by simp only [List.length_cons] at hk; omega)
            simpa using this

theorem max_element_idx_spec (xs : List ℚ) (h : 0 < xs.length) :
    max_element_idx xs < xs.length ∧
    ∀ j, j < xs.length → xs.getD j 0 ≤ xs.getD (max_element_idx xs) 0 := by
  cases xs with
  | nil => simp at h
  | cons x0 rest =>
      have hspec := max_element_go_spec (x0 :: rest) rest x0 0 1 (by simp) (by simp)
        (by
          intro k hk
          rw [show 1 + k = k + 1 from by omega, List.getD_cons_succ])
        (by simp only [List.length_cons]; omega)
      simp only [max_element_idx]
      refine ⟨hspec.1, ?_⟩
      intro j hj
      cases j with
      | zero => simpa using hspec.2.1
      | succ j =>
          have := hspec.2.2 j (by simp only [List.length_cons] at hj; omega)
          simpa using this

theorem softmax_length (expf : ℚ → ℚ) (xs : List ℚ) :
    (softmax expf xs).length = xs.length := by
  cases xs with
  | nil => rfl
  | cons x0 rest => simp [softmax]

theorem length_insert_desc (x : ℚ × Nat) (l : List (ℚ × Nat)) :
    (insert_desc x l).length = l.length + 1 := by
  induction l with
  | nil => rfl
  | cons y rest ih =>
      by_cases h : y.1 < x.1 <;> simp [insert_desc, h, ih]

theorem length_sort_desc (l : List (ℚ × Nat)) : (sort_desc l).length = l.length := by
  induction l with
  | nil => rfl
  | cons x rest ih =>
      show (insert_desc x (sort_desc rest)).length = rest.length + 1
      rw [length_insert_desc, ih]

theorem mem_insert_desc (z x : ℚ × Nat) (l : List (ℚ × Nat)) :
    z ∈ insert_desc x l → z = x ∨ z ∈ l := by
  induction l with
  | nil =>
      intro h
      simp only [insert_desc, List.mem_singleton] at h
      exact Or.inl h
  | cons y rest ih =>
      intro h
      simp only [insert_desc] at h
      by_cases hc : y.1 < x.1
      · rw [if_pos hc] at h
        rcases List.mem_cons.mp h with h | h
        · exact Or.inl h
        · exact Or.inr h
      · rw [if_neg hc] at h
        rcases List.mem_cons.mp h with h | h
        · exact Or.inr (h ▸ List.mem_cons_self _ _)
        · rcases ih h with h | h
          · exact Or.inl h
          · exact Or.inr (List.mem_cons_of_mem _ h)

theorem mem_sort_desc (z : ℚ × Nat) (l : List (ℚ × Nat)) :
    z ∈ sort_desc l → z ∈ l := by
  induction l with
  | nil => intro h; simp [sort_desc] at h
  | cons x rest ih =>
      intro h
      have h' : z ∈ insert_desc x (sort_desc rest) := h
      rcases mem_insert_desc z x _ h' with h | h
      · exact h ▸ List.mem_cons_self _ _
      · exact List.mem_cons_of_mem _ (ih h)

theorem topp_cut_snd_lt (l : List (ℚ × Nat)) :
    ∀ (tp cum : ℚ) (i dflt n : Nat), dflt < n → i + l.length ≤ n →
      (topp_cut l tp cum i dflt).2 < n := by
  induction l with
  | nil =>
      intro tp cum i dflt n hd _
      simpa [topp_cut] using hd
  | cons p rest ih =>
      intro tp cum i dflt n hd hlen
      simp only [List.length_cons] at hlen
      simp only [topp_cut]
      by_cases hc : tp < cum + p.1
      · rw [if_pos hc]; omega
      · rw [if_neg hc]
        exact ih tp (cum + p.1) (i + 1) dflt n hd (by omega)

theorem cdf_scan_mem (l : List (ℚ × Nat)) :
    ∀ (rs cdf : ℚ) (idx : Nat), cdf_scan l rs cdf = some idx → ∃ p, (p, idx) ∈ l := by
  induction l with
  | nil => intro rs cdf idx h; simp [cdf_scan] at h
  | cons p rest ih =>
      intro rs cdf idx h
      simp only [cdf_scan] at h
      by_cases hc : rs < cdf + p.1
      · rw [if_pos hc] at h
        refine ⟨p.1, ?_⟩
        have hz : p.2 = idx := Option.some.injEq _ _ ▸ h
        exact hz ▸ List.mem_cons_self _ _
      · rw [if_neg hc] at h
        obtain ⟨q, hq⟩ := ih rs (cdf + p.1) idx h
        exact ⟨q, List.mem_cons_of_mem _ hq⟩

theorem plain_scan_lt (l : List ℚ) :
    ∀ (r cdf : ℚ) (i j : Nat), plain_scan l r cdf i = some j → j < i + l.length := by
  induction l with
  | nil => intro r cdf i j h; simp [plain_scan] at h
  | cons p rest ih =>
      intro r cdf i j h
      simp only [plain_scan] at h
      by_cases hc : r < cdf + p
      · rw [if_pos hc] at h
        have hij : i = j := Option.some.injEq _ _ ▸ h
        simp only [List.length_cons]
        omega
      · rw [if_neg hc] at h
        have := ih r (cdf + p) (i + 1) j h
        simp only [List.length_cons]
        omega

theorem sorted_pair_snd_lt (probs : List ℚ) (z : ℚ × Nat)
    (hz : z ∈ sort_desc (probs.zip (List.range probs.length))) :
    z.2 < probs.length := by
  have h1 := mem_sort_desc z _ hz
  cases z with
  | mk p i =>
      have h2 := List.of_mem_zip h1
      simpa using List.mem_range.mp h2.2

/-- **C9**: for every logits array of length `vocab_size ≥ 1`, every
temperature and top-p setting, every RNG draw and every exponential,
`Sampler::sample` returns an index in `[0, vocab_size)` — the top-p branch
falls back to `probs[last_idx].i` (an in-range sorted pair) when the
rescaled CDF never exceeds the draw, the plain branch to `vocab_size − 1` —
and the temperature-zero branch returns an argmax index of the logits
(the first maximal one, as `std::max_element` replaces only on strict
comparison). -/
theorem C9_sample_in_range (expf : ℚ → ℚ) (temperature topp r : ℚ)
    (logits : List ℚ) (h : 1 ≤ logits.length) :
    sample expf temperature topp r logits < logits.length ∧
    (temperature = 0 →
      ∀ j, j < logits.length →
        logits.getD j 0 ≤ logits.getD (sample expf temperature topp r logits) 0) := by
  have hn : 0 < logits.length := by omega
  by_cases ht : temperature = 0
  · simp only [sample, if_pos ht]
    exact ⟨(max_element_idx_spec logits hn).1, fun _ => (max_element_idx_spec logits hn).2⟩
  · simp only [sample, if_neg ht]
    refine ⟨?_, fun h0 => absurd h0 ht⟩
    have hplen : (softmax expf (logits.map fun x => x / temperature)).length = logits.length := by
      rw [softmax_length, List.length_map]
    by_cases htp : 0 < topp ∧ topp < 1
    · rw [if_pos htp]
      have hsortlen :
          (sort_desc ((softmax expf (logits.map fun x => x / temperature)).zip
            (List.range (softmax expf (logits.map fun x => x / temperature)).length))).length
            = logits.length := by
        rw [length_sort_desc, List.length_zip, List.length_range, hplen, Nat.min_self]
      split
      · next idx heq =>
          obtain ⟨p, hp⟩ := cdf_scan_mem _ _ _ _ heq
          have hmem := List.mem_of_mem_take hp
          have := sorted_pair_snd_lt (softmax expf (logits.map fun x => x / temperature))
            (p, idx) hmem
          simpa [hplen] using this
      · next heq =>
          have hcut := topp_cut_snd_lt
            (sort_desc ((softmax expf (logits.map fun x => x / temperature)).zip
              (List.range (softmax expf (logits.map fun x => x / temperature)).length)))
            topp 0 0 ((softmax expf (logits.map fun x => x / temperature)).length - 1)
            logits.length (by omega) (by rw [hsortlen]; omega)
          have hmem := getD_mem_of_lt _ _ ((0 : ℚ), (0 : Nat)) (hsortlen ▸ hcut)
          have := sorted_pair_snd_lt (softmax expf (logits.map fun x => x / temperature))
            _ hmem
          simpa [hplen] using this
    · rw [if_neg htp]
      split
      · next i heq =>
          have := plain_scan_lt _ r 0 0 i heq
          simpa [hplen] using this
      · next heq => omega

/-- **C9** witness: at logits `[1, 3, 2]` with temperature 0, the sample
index is in range and the sampled logit dominates all entries. -/
theorem C9_sample_in_range_witness :
    sample (fun x => x) 0 (1/2) (1/3) [1, 3, 2] < ([1, 3, 2] : List ℚ).length ∧
    ((0 : ℚ) = 0 →
      ∀ j, j < ([1, 3, 2] : List ℚ).length →
        ([1, 3, 2] : List ℚ).getD j 0 ≤
          ([1, 3, 2] : List ℚ).getD (sample (fun x => x) 0 (1/2) (1/3) [1, 3, 2]) 0) :=
  C9_sample_in_range (fun x => x) 0 (1/2) (1/3) [1, 3, 2] (by simp)

/-! ### Tokenizer lemmas (C10) -/

theorem str_lookup_lt (vocab : List String) (s : String) :
    ∀ i, str_lookup vocab s = some i → i < vocab.length := by
  induction vocab with
  | nil => intro i h; simp [str_lookup] at h
  | cons t rest ih =>
      intro i h
      simp only [str_lookup] at h
      by_cases he : t = s
      · rw [if_pos he] at h
        simp only [Option.some.injEq] at h
        simp [← h]
      · rw [if_neg he] at h
        cases hr : str_lookup rest s with
        | none => rw [hr] at h; simp at h
        | some j =>
            rw [hr] at h
            simp only [Option.map_some', Option.some.injEq] at h
            have := ih j hr
            simp only [List.length_cons]
            omega

theorem getElem_q_eq_some_getD {α : Type} (l : List α) (i : Nat) (d : α)
    (h : i < l.length) : l[i]? = some (l.getD i d) := by
  induction l generalizing i with
  | nil => simp at h
  | cons x rest ih =>
      cases i with
      | zero => simp
      | succ i =>
          simp only [List.getElem?_cons_succ, List.getD_cons_succ]
          exact ih i (by simpa using h)

theorem length_eraseIdx_of_lt {α : Type} (l : List α) (i : Nat) (h : i < l.length) :
    (l.eraseIdx i).length = l.length - 1 := by
  induction l generalizing i with
  | nil => simp at h
  | cons x rest ih =>
      cases i with
      | zero => simp [List.eraseIdx]
      | succ i =>
          simp only [List.eraseIdx, List.length_cons]
          rw [ih i (by simpa using h)]
          have : i < rest.length := by simpa using h
          omega

theorem head_q_set_of_pos {α : Type} (l : List α) (i : Nat) (a : α) (h : 0 < i) :
    (l.set i a).head? = l.head? := by
  cases l with
  | nil => rfl
  | cons x rest =>
      cases i with
      | zero => omega
      | succ i => rfl

theorem head_q_eraseIdx_of_pos {α : Type} (l : List α) (i : Nat) (h : 0 < i) :
    (l.eraseIdx i).head? = l.head? := by
  cases l with
  | nil => rfl
  | cons x rest =>
      cases i with
      | zero => omega
      | succ i => rfl

theorem merge_scan_ne_none (vocab : List String) (scores : List ℚ)
    (hsl : scores.length = vocab.length) :
    ∀ (l : List Nat) (i : Nat) (bs : ℚ) (best : Option (Nat × Nat)),
      (∀ t ∈ l, t < vocab.length) →
      ∃ b, merge_scan vocab scores l i bs best = some b := by
  intro l
  induction l with
  | nil => intro i bs best _; exact ⟨best, rfl⟩
  | cons a rest ih =>
      intro i bs best hrange
      cases rest with
      | nil => exact ⟨best, rfl⟩
      | cons b rest' =>
          have ha : a < vocab.length := hrange a (by simp)
          have hb : b < vocab.length := hrange b (by simp)
          have hrest : ∀ t ∈ b :: rest', t < vocab.length :=
            fun t ht => hrange t (List.mem_cons_of_mem _ ht)
          have hva := getElem_q_eq_some_getD vocab a "" ha
          have hvb := getElem_q_eq_some_getD vocab b "" hb
          simp only [merge_scan, hva, hvb]
          cases hms : str_lookup vocab (vocab.getD a "" ++ vocab.getD b "") with
          | none => exact ih (i + 1) bs best hrest
          | some id =>
              have hid : id < scores.length := hsl ▸ str_lookup_lt _ _ _ hms
              have hsc := getElem_q_eq_some_getD scores id 0 hid
              simp only [hsc]
              by_cases hbs : bs < scores.getD id 0
              · rw [if_pos hbs]
                exact ih (i + 1) _ _ hrest
              · rw [if_neg hbs]
                exact ih (i + 1) bs best hrest

theorem merge_scan_bounds (vocab : List String) (scores : List ℚ) :
    ∀ (l : List Nat) (i : Nat) (bs : ℚ) (best : Option (Nat × Nat)) (n : Nat),
      i + l.length = n →
      (∀ p q, best = some (p, q) → p + 1 < n ∧ q < vocab.length) →
      ∀ p q, merge_scan vocab scores l i bs best = some (some (p, q)) →
        p + 1 < n ∧ q < vocab.length := by
  intro l
  induction l with
  | nil =>
      intro i bs best n _ hbest p q h
      simp only [merge_scan, Option.some.injEq] at h
      exact hbest p q h
  | cons a rest ih =>
      intro i bs best n hn hbest p q h
      cases rest with
      | nil =>
          simp only [merge_scan, Option.some.injEq] at h
          exact hbest p q h
      | cons b rest' =>
          simp only [List.length_cons] at hn
          simp only [merge_scan] at h
          cases hva : vocab[a]? with
          | none => simp [hva] at h
          | some sa =>
              simp only [hva] at h
              cases hvb : vocab[b]? with
              | none => simp [hvb] at h
              | some sb =>
                  simp only [hvb] at h
                  cases hms : str_lookup vocab (sa ++ sb) with
                  | none =>
                      simp only [hms] at h
                      exact ih (i + 1) bs best n (by simp only [List.length_cons]; omega)
                        hbest p q h
                  | some id =>
                      simp only [hms] at h
                      cases hsc : scores[id]? with
                      | none => simp [hsc] at h
                      | some sc =>
                          simp only [hsc] at h
                          by_cases hbs : bs < sc
                          · rw [if_pos hbs] at h
                            refine ih (i + 1) sc (some (i, id)) n
                              (by simp only [List.length_cons]; omega) ?_ p q h
                            intro p' q' hpq
                            simp only [Option.some.injEq, Prod.mk.injEq] at hpq
                            exact ⟨by omega, hpq.2 ▸ str_lookup_lt _ _ _ hms⟩
                          · rw [if_neg hbs] at h
                            exact ih (i + 1) bs best n
                              (by simp only [List.length_cons]; omega) hbest p q h

theorem merge_scan_pos (vocab : List String) (scores : List ℚ) :
    ∀ (l : List Nat) (i : Nat) (bs : ℚ) (best : Option (Nat × Nat)),
      1 ≤ i →
      (∀ p q, best = some (p, q) → 1 ≤ p) →
      ∀ p q, merge_scan vocab scores l i bs best = some (some (p, q)) → 1 ≤ p := by
  intro l
  induction l with
  | nil =>
      intro i bs best _ hbest p q h
      simp only [merge_scan, Option.some.injEq] at h
      exact hbest p q h
  | cons a rest ih =>
      intro i bs best hi hbest p q h
      cases rest with
      | nil =>
          simp only [merge_scan, Option.some.injEq] at h
          exact hbest p q h
      | cons b rest' =>
          simp only [merge_scan] at h
          cases hva : vocab[a]? with
          | none => simp [hva] at h
          | some sa =>
              simp only [hva] at h
              cases hvb : vocab[b]? with
              | none => simp [hvb] at h
              | some sb =>
                  simp only [hvb] at h
                  cases hms : str_lookup vocab (sa ++ sb) with
                  | none =>
                      simp only [hms] at h
                      exact ih (i + 1) bs best (by omega) hbest p q h
                  | some id =>
                      simp only [hms] at h
                      cases hsc : scores[id]? with
                      | none => simp [hsc] at h
                      | some sc =>
                          simp only [hsc] at h
                          by_cases hbs : bs < sc
                          · rw [if_pos hbs] at h
                            refine ih (i + 1) sc (some (i, id)) (by omega) ?_ p q h
                            intro p' q' hpq
                            simp only [Option.some.injEq, Prod.mk.injEq] at hpq
                            omega
                          · rw [if_neg hbs] at h
                            exact ih (i + 1) bs best (by omega) hbest p q h

theorem find_best_spec (vocab : List String) (scores : List ℚ)
    (hv : 1 < vocab.length) (hsl : scores.length = vocab.length)
    (tokens : List Nat) (hrange : ∀ t ∈ tokens, t < vocab.length)
    (hhead : tokens.head? = some 1)
    (hnb : ∀ j, j < vocab.length →
      str_lookup vocab (vocab.getD 1 "" ++ vocab.getD j "") = Option.none) :
    find_best_merge vocab scores tokens = some Option.none ∨
    ∃ i id, find_best_merge vocab scores tokens = some (some (i, id)) ∧
      1 ≤ i ∧ i + 1 < tokens.length ∧ id < vocab.length := by
  cases tokens with
  | nil => simp at hhead
  | cons t0 rest =>
      have ht0 : t0 = 1 := by simpa using hhead
      subst ht0
      cases rest with
      | nil => exact Or.inl rfl
      | cons t1 rest' =>
          have ht1 : t1 < vocab.length := hrange t1 (by simp)
          have hva := getElem_q_eq_some_getD vocab 1 "" hv
          have hvb := getElem_q_eq_some_getD vocab t1 "" ht1
          have hfb : find_best_merge vocab scores (1 :: t1 :: rest') =
              merge_scan vocab scores (t1 :: rest') 1 (-(10 ^ 10 : ℚ)) Option.none := by
            simp only [find_best_merge, merge_scan, hva, hvb, hnb t1 ht1, Nat.zero_add]
          obtain ⟨b, hb⟩ := merge_scan_ne_none vocab scores hsl (t1 :: rest') 1
            (-(10 ^ 10 : ℚ)) Option.none (fun t ht => hrange t (List.mem_cons_of_mem _ ht))
          cases b with
          | none => exact Or.inl (by rw [hfb, hb])
          | some pq =>
              cases pq with
              | mk p q =>
                  have hbnd := merge_scan_bounds vocab scores (t1 :: rest') 1
                    (-(10 ^ 10 : ℚ)) Option.none ((1 :: t1 :: rest').length)
                    (by simp only [List.length_cons]; omega)
                    (by intro p' q' h'; simp at h') p q hb
                  have hpos := merge_scan_pos vocab scores (t1 :: rest') 1
                    (-(10 ^ 10 : ℚ)) Option.none (le_refl 1)
                    (by intro p' q' h'; simp at h') p q hb
                  exact Or.inr ⟨p, q, by rw [hfb, hb], hpos, hbnd.1, hbnd.2⟩

theorem merge_loop_go_spec (vocab : List String) (scores : List ℚ)
    (hv : 1 < vocab.length) (hsl : scores.length = vocab.length)
    (hnb : ∀ j, j < vocab.length →
      str_lookup vocab (vocab.getD 1 "" ++ vocab.getD j "") = Option.none) :
    ∀ (fuel : Nat) (tokens : List Nat), tokens.length ≤ fuel →
      (∀ t ∈ tokens, t < vocab.length) → tokens.head? = some 1 →
      ∃ out, merge_loop_go vocab scores fuel tokens = some out ∧
        (∀ t ∈ out, t < vocab.length) ∧ out.head? = some 1 := by
  intro fuel
  induction fuel with
  | zero =>
      intro tokens hlen _ hhead
      cases tokens with
      | nil => simp at hhead
      | cons a rest => simp at hlen
  | succ fuel ih =>
      intro tokens hlen hrange hhead
      rcases find_best_spec vocab scores hv hsl tokens hrange hhead hnb with
        hfb | ⟨i, id, hfb, hi1, hilen, hid⟩
      · exact ⟨tokens, by simp only [merge_loop_go, hfb], hrange, hhead⟩
      · have hset_len : (tokens.set i id).length = tokens.length := List.length_set ..
        have hlt : (apply_merge tokens i id).length = tokens.length - 1 := by
          simp only [apply_merge]
          rw [length_eraseIdx_of_lt _ _ (by rw [hset_len]; omega), hset_len]
        have happly_range : ∀ t ∈ apply_merge tokens i id, t < vocab.length := by
          intro t ht
          have ht2 : t ∈ tokens.set i id := (List.eraseIdx_sublist _ _).subset ht
          rcases List.mem_or_eq_of_mem_set ht2 with h | h
          · exact hrange t h
          · exact h ▸ hid
        have hhead2 : (apply_merge tokens i id).head? = some 1 := by
          simp only [apply_merge]
          rw [head_q_eraseIdx_of_pos _ _ (by omega), head_q_set_of_pos _ _ _ (by omega)]
          exact hhead
        obtain ⟨out, hout, hor, hoh⟩ := ih (apply_merge tokens i id) (by omega)
          happly_range hhead2
        exact ⟨out, by simp only [merge_loop_go, hfb]; exact hout, hor, hoh⟩

theorem encode_pre_merge_head (vocab : List String) (text : List Char) :
    (encode_pre_merge vocab text true).head? = some 1 := rfl

theorem encode_pre_merge_range (vocab : List String) (text : List Char) (bos : Bool)
    (hv : 1 < vocab.length) :
    ∀ t ∈ encode_pre_merge vocab text bos, t < vocab.length := by
  intro t ht
  simp only [encode_pre_merge, List.mem_append] at ht
  rcases ht with (ht | ht) | ht
  · cases bos with
    | true => simp at ht; omega
    | false => simp at ht
  · by_cases htext : text = []
    · rw [if_pos htext] at ht; simp at ht
    · rw [if_neg htext] at ht
      cases hd : str_lookup vocab " " with
      | none => rw [hd] at ht; simp at ht
      | some d =>
          rw [hd] at ht
          simp only [List.mem_singleton] at ht
          exact ht ▸ str_lookup_lt vocab " " d hd
  · obtain ⟨c, _, hc⟩ := List.mem_filterMap.mp ht
    exact str_lookup_lt _ _ _ hc

/-- **C10** (amended): `encode` is NOT total in general (the merge loop's
`size_t` bound `tokens.size() - 1` wraps for an empty pre-merge token list,
and `vocab[...]`/`vocab_scores[...]` are indexed unchecked — all modelled
as `Option.none`), and with `bos = true` the output need not begin with
BOS id 1, because the merge loop can merge the BOS token into a neighbour.
What does hold: with `bos = true`, a score table matching the vocab size,
and a vocab in which no merged string starting with the BOS piece
`vocab[1]` exists, `encode` succeeds, every output id is a valid vocab id
in `[0, vocab_size)` (dropped characters never produce ids, per the
`filterMap` of lookups), and the output begins with BOS id 1. -/
theorem C10_encode_bounds (vocab : List String) (scores : List ℚ)
    (text : List Char)
    (hv : 2 ≤ vocab.length) (hsl : scores.length = vocab.length)
    (hnb : ∀ j, j < vocab.length →
      str_lookup vocab (vocab.getD 1 "" ++ vocab.getD j "") = Option.none) :
    ∃ out, encode vocab scores text true false = some out ∧
      (∀ t ∈ out, t < vocab.length) ∧ out.head? = some 1 := by
  have hv1 : 1 < vocab.length := by omega
  obtain ⟨out, hout, hor, hoh⟩ := merge_loop_go_spec vocab scores hv1 hsl hnb
    (encode_pre_merge vocab text true).length (encode_pre_merge vocab text true)
    (le_refl _) (encode_pre_merge_range vocab text true hv1)
    (encode_pre_merge_head vocab text)
  refine ⟨out, ?_, hor, hoh⟩
  simp only [encode, merge_loop, hout]
  simp

/-- **C10** witness: vocab `[" ", "<s>", "a"]` (no merge begins with the
BOS piece), scores `[0, 0, 0]`, text `"a"`: encode succeeds with all ids
in range and BOS id 1 first. -/
theorem C10_encode_bounds_witness :
    2 ≤ ([" ", "<s>", "a"] : List String).length ∧
    ([0, 0, 0] : List ℚ).length = ([" ", "<s>", "a"] : List String).length ∧
    (∀ j, j < ([" ", "<s>", "a"] : List String).length →
      str_lookup [" ", "<s>", "a"]
        (([" ", "<s>", "a"] : List String).getD 1 "" ++
          ([" ", "<s>", "a"] : List String).getD j "") = Option.none) ∧
    ∃ out, encode [" ", "<s>", "a"] [0, 0, 0] ['a'] true false = some out ∧
      (∀ t ∈ out, t < ([" ", "<s>", "a"] : List String).length) ∧
      out.head? = some 1 :=
  ⟨by decide, by decide, by decide,
    C10_encode_bounds [" ", "<s>", "a"] [0, 0, 0] ['a'] (by decide) (by decide) (by decide)⟩

/-- **C10** counterexample: with vocab `["a", "b", "ba"]` (equal scores 0)
and text `"a"`, the pre-merge tokens are `[1, 0]` and the BPE loop merges
the BOS id 1 (piece `"b"`) with the text token `"a"` into id 2 (`"ba"`),
so `encode` with `bos = true` returns `[2]`, which does not begin with
BOS id 1; and with `bos = false`, an empty text and a vocab without the
`" "` piece, the pre-merge token list is empty and the merge loop's
wrapped `size_t` bound reads past the end — `encode` is not total. -/
theorem C10_counterexample :
    (encode ["a", "b", "ba"] [0, 0, 0] ['a'] true false = some [2] ∧
      ∀ out, encode ["a", "b", "ba"] [0, 0, 0] ['a'] true false = some out →
        out.head? ≠ some 1) ∧
    encode ["a"] [0] [] false false = Option.none := by
  refine ⟨⟨by decide, ?_⟩, by decide⟩
  intro out h
  rw [show encode ["a", "b", "ba"] [0, 0, 0] ['a'] true false = some [2] from by decide] at h
  cases h
  decide

/-! ### Paged-equivalence helpers (C1) -/

theorem store_vec_at (buf : Nat → ℚ) (off : Nat) (src : Nat → ℚ) (len j : Nat)
    (h : j < len) : store_vec buf off src len (off + j) = src j := by
  simp only [store_vec]
  rw [if_pos ⟨Nat.le_add_right _ _, by omega⟩]
  congr 1
  omega

theorem store_vec_out (buf : Nat → ℚ) (off : Nat) (src : Nat → ℚ) (len a : Nat)
    (h : a < off ∨ off + len ≤ a) : store_vec buf off src len a = buf a := by
  simp only [store_vec]
  rw [if_neg (by omega : ¬(off ≤ a ∧ a < off + len))]

theorem digit_inj (M x y x' y' : Nat) (hy : y < M) (hy' : y' < M)
    (h : x * M + y = x' * M + y') : x = x' ∧ y = y' := by
  have hM : 0 < M := by omega
  have h' : M * x + y = M * x' + y' := by
    rw [Nat.mul_comm M x, Nat.mul_comm M x']; exact h
  have h1 : (M * x + y) / M = x := by
    rw [Nat.mul_add_div hM, Nat.div_eq_of_lt hy, Nat.add_zero]
  have h2 : (M * x' + y') / M = x' := by
    rw [Nat.mul_add_div hM, Nat.div_eq_of_lt hy', Nat.add_zero]
  have hx : x = x' := by rw [← h1, ← h2, h']
  subst hx
  exact ⟨rfl, Nat.add_left_cancel h'⟩

theorem map_range_congr {α : Type} (L : Nat) (f g : Nat → α)
    (h : ∀ l, l < L → f l = g l) :
    (List.range L).map f = (List.range L).map g := by
  induction L with
  | zero => rfl
  | succ L ih =>
      rw [List.range_succ, List.map_append, List.map_append,
        ih (fun l hl => h l (by omega))]
      simp [h L (by omega)]

theorem nblocks_mono (B p q : Nat) (h : p ≤ q) : nblocks B p ≤ nblocks B q := by
  induction q with
  | zero =>
      have : p = 0 := by omega
      subst this
      exact le_refl _
  | succ q ih =>
      by_cases hpq : p = q + 1
      · subst hpq; exact le_refl _
      · have h1 := ih (by omega)
        simp only [nblocks]
        split <;> omega

theorem nblocks_eq (B : Nat) (hB : 0 < B) :
    ∀ p, nblocks B p = p / B + (if p % B = 0 then 0 else 1) := by
  intro p
  induction p with
  | zero => simp [nblocks]
  | succ p ih =>
      simp only [nblocks, ih]
      rw [Nat.succ_div]
      have hiff : B ∣ p + 1 ↔ (p + 1) % B = 0 := Nat.dvd_iff_mod_eq_zero
      rw [if_congr hiff rfl rfl]
      generalize p / B = pq
      split_ifs <;> omega

theorem div_lt_nblocks (B : Nat) (hB : 0 < B) (t p : Nat) (h : t < p) :
    t / B < nblocks B p := by
  rw [nblocks_eq B hB p]
  by_cases hp : p % B = 0
  · rw [if_pos hp, Nat.add_zero]
    by_contra hc
    push_neg at hc
    have hp' : p / B * B = p := Nat.div_mul_cancel (Nat.dvd_of_mod_eq_zero hp)
    have h1 : p / B * B ≤ t / B * B := Nat.mul_le_mul_right B hc
    have h2 : t / B * B ≤ t := Nat.div_mul_le_self t B
    rw [hp'] at h1
    exact absurd (Nat.le_trans h1 h2) (by omega)
  · rw [if_neg hp]
    exact Nat.lt_succ_of_le (Nat.div_le_div_right (by omega))

theorem nblocks_boundary (B : Nat) (hB : 0 < B) (p : Nat) (hp : p % B = 0) :
    nblocks B p = p / B := by
  rw [nblocks_eq B hB p, if_pos hp]
  exact Nat.add_zero _

theorem div_lt_nblocks_self (B : Nat) (hB : 0 < B) (p : Nat) (hp : p % B ≠ 0) :
    p / B < nblocks B p := by
  rw [nblocks_eq B hB p, if_neg hp]
  exact Nat.lt_succ_self _

theorem mod_ne_of_div_eq (B t p : Nat) (ht : t < p) (hdiv : t / B = p / B) :
    t % B ≠ p % B := by
  intro hmod
  have h1 := Nat.div_add_mod t B
  have h2 := Nat.div_add_mod p B
  rw [hdiv, hmod] at h1
  exact absurd (h1.symm.trans h2) (Nat.ne_of_lt ht)

theorem first_free_isSome_of_count (l : List Bool) (h : l.count true ≠ 0) :
    ∃ i, BlockManager.first_free l = some i := by
  induction l with
  | nil => simp at h
  | cons b rest ih =>
      cases b with
      | true => exact ⟨0, by simp [BlockManager.first_free]⟩
      | false =>
          have h' : rest.count true ≠ 0 := by simpa [List.count_cons] using h
          obtain ⟨i, hi⟩ := ih h'
          exact ⟨i + 1, by simp [BlockManager.first_free, hi]⟩

theorem count_true_set_false (l : List Bool) (i : Nat) (h : i < l.length)
    (hi : l.getD i true = true) :
    (l.set i false).count true + 1 = l.count true := by
  induction l generalizing i with
  | nil => simp at h
  | cons b rest ih =>
      cases i with
      | zero =>
          have hb : b = true := by simpa using hi
          subst hb
          simp [List.count_cons]
      | succ i =>
          simp only [List.set_cons_succ, List.count_cons]
          have := ih i (by simpa using h) (by simpa using hi)
          split <;> omega

theorem allocate_spec (s : BlockManager) (rid b : Nat) (s' : BlockManager)
    (h : s.allocate_block_for_request rid = (some b, s')) :
    b < s.free_blocks.length ∧ s.free_blocks.getD b true = true ∧
    s'.free_blocks = s.free_blocks.set b false ∧
    s'.num_free_blocks + 1 = s.num_free_blocks := by
  unfold BlockManager.allocate_block_for_request BlockManager.allocate_block_internal at h
  by_cases h0 : s.num_free_blocks = 0
  · rw [if_pos h0] at h
    simp at h
  · rw [if_neg h0] at h
    cases hff : BlockManager.first_free s.free_blocks with
    | none => simp only [hff] at h; simp at h
    | some i =>
        simp only [hff, Prod.mk.injEq, Option.some.injEq] at h
        obtain ⟨hib, hs'⟩ := h
        subst hib
        refine ⟨(first_free_spec _ _ hff).1, (first_free_spec _ _ hff).2, ?_, ?_⟩
        · rw [← hs']
        · rw [← hs']
          simp only []
          omega

theorem allocate_succeeds (s : BlockManager) (rid : Nat)
    (hnz : s.num_free_blocks ≠ 0)
    (hcnt : s.free_blocks.count true = s.num_free_blocks) :
    ∃ b s', s.allocate_block_for_request rid = (some b, s') := by
  unfold BlockManager.allocate_block_for_request BlockManager.allocate_block_internal
  rw [if_neg hnz]
  obtain ⟨i, hi⟩ := first_free_isSome_of_count s.free_blocks (by rw [hcnt]; exact hnz)
  rw [hi]
  exact ⟨i, _, rfl⟩

theorem sum_range_map_le (L a : Nat) (f : Nat → Nat) (h : ∀ l, l < L → f l ≤ a) :
    ((List.range L).map f).sum ≤ L * a := by
  induction L with
  | zero => simp
  | succ L ih =>
      rw [List.range_succ, List.map_append, List.sum_append]
      simp only [List.map_cons, List.map_nil, List.sum_cons, List.sum_nil]
      have h1 := ih (fun l hl => h l (by omega))
      have h2 := h L (by omega)
      have h3 : (L + 1) * a = L * a + a := by ring
      omega

theorem sum_range_map_update (L j : Nat) (f g : Nat → Nat) (hj : j < L)
    (hfg : ∀ l, l ≠ j → f l = g l) :
    ((List.range L).map f).sum + g j = ((List.range L).map g).sum + f j := by
  induction L with
  | zero => exact absurd hj (by omega)
  | succ L ih =>
      rw [List.range_succ, List.map_append, List.map_append, List.sum_append,
        List.sum_append]
      simp only [List.map_cons, List.map_nil, List.sum_cons, List.sum_nil]
      by_cases hjL : j = L
      · subst hjL
        rw [map_range_congr j f g (fun l hl => hfg l (by omega))]
        omega
      · have := ih (by omega)
        have hfL := hfg L (by omega)
        omega

/-- The attention-kernel equivalence: when every cache slot the kernels
read agrees between the paged buffer (addressed through the block table)
and the contiguous buffer, `paged_attention` with `num_tokens = pos + 1`
computes exactly `standard_attention` at `pos`. -/
theorem paged_attention_eq_standard (expf : ℚ → ℚ) (scale : ℚ)
    (q Kp Vp Ks Vs : Nat → ℚ) (bt : List Nat) (pos B hd Hq Hkv : Nat)
    (hd0 : 0 < hd) (hmul : 0 < Hq / Hkv) (hdvd : Hq = Hq / Hkv * Hkv)
    (hK : ∀ t, t ≤ pos → ∀ o, o < Hkv * hd →
      Kp (bt.getD (t / B) 0 * (B * (Hkv * hd)) + (t % B) * (Hkv * hd) + o) =
      Ks (t * (Hkv * hd) + o))
    (hV : ∀ t, t ≤ pos → ∀ o, o < Hkv * hd →
      Vp (bt.getD (t / B) 0 * (B * (Hkv * hd)) + (t % B) * (Hkv * hd) + o) =
      Vs (t * (Hkv * hd) + o)) :
    paged_attention expf scale q Kp Vp bt (pos + 1) B hd Hq Hkv =
    standard_attention expf scale q Ks Vs pos hd Hq Hkv := by
  unfold paged_attention standard_attention
  apply map_range_congr
  intro j hj
  simp only []
  have hh : j / hd < Hq := Nat.div_lt_of_lt_mul (by rw [Nat.mul_comm]; exact hj)
  have hkvh : j / hd / (Hq / Hkv) < Hkv :=
    Nat.div_lt_of_lt_mul (by rw [← hdvd]; exact hh)
  have haddr : ∀ i2, i2 < hd → j / hd / (Hq / Hkv) * hd + i2 < Hkv * hd := by
    intro i2 hi2
    have h1 : j / hd / (Hq / Hkv) * hd + i2 < (j / hd / (Hq / Hkv) + 1) * hd := by
      have : (j / hd / (Hq / Hkv) + 1) * hd = j / hd / (Hq / Hkv) * hd + hd := by ring
      omega
    have h2 : (j / hd / (Hq / Hkv) + 1) * hd ≤ Hkv * hd :=
      Nat.mul_le_mul_right hd (by omega)
    omega
  have hsc : (List.range (pos + 1)).map (fun t =>
      (((List.range hd).map (fun i2 =>
        q (j / hd * hd + i2) * Kp (bt.getD (t / B) 0 * (B * (Hkv * hd)) +
          (t % B) * (Hkv * hd) + j / hd / (Hq / Hkv) * hd + i2))).sum) * scale) =
      (List.range (pos + 1)).map (fun t =>
      (((List.range hd).map (fun i2 =>
        q (j / hd * hd + i2) * Ks (t * (Hkv * hd) +
          j / hd / (Hq / Hkv) * hd + i2))).sum) * scale) := by
    apply map_range_congr
    intro t ht
    congr 1
    apply congrArg List.sum
    apply map_range_congr
    intro i2 hi2
    have h1 := hK t (by omega) (j / hd / (Hq / Hkv) * hd + i2) (haddr i2 hi2)
    congr 1
    rw [show bt.getD (t / B) 0 * (B * (Hkv * hd)) + (t % B) * (Hkv * hd) +
        j / hd / (Hq / Hkv) * hd + i2 =
        bt.getD (t / B) 0 * (B * (Hkv * hd)) + (t % B) * (Hkv * hd) +
        (j / hd / (Hq / Hkv) * hd + i2) from by ring]
    rw [show t * (Hkv * hd) + j / hd / (Hq / Hkv) * hd + i2 =
        t * (Hkv * hd) + (j / hd / (Hq / Hkv) * hd + i2) from by ring]
    exact h1
  rw [hsc]
  apply congrArg List.sum
  apply map_range_congr
  intro t ht
  congr 1
  have h1 := hV t (by omega) (j / hd / (Hq / Hkv) * hd + j % hd)
    (haddr (j % hd) (Nat.mod_lt j hd0))
  rw [show bt.getD (t / B) 0 * (B * (Hkv * hd)) + (t % B) * (Hkv * hd) +
      j / hd / (Hq / Hkv) * hd + j % hd =
      bt.getD (t / B) 0 * (B * (Hkv * hd)) + (t % B) * (Hkv * hd) +
      (j / hd / (Hq / Hkv) * hd + j % hd) from by ring]
  rw [show t * (Hkv * hd) + j / hd / (Hq / Hkv) * hd + j % hd =
      t * (Hkv * hd) + (j / hd / (Hq / Hkv) * hd + j % hd) from by ring]
  exact h1

theorem store_vec_ne (buf : Nat → ℚ) (off : Nat) (src : Nat → ℚ) (len a : Nat)
    (h : ∀ j, j < len → a ≠ off + j) : store_vec buf off src len a = buf a := by
  simp only [store_vec]
  rw [if_neg]
  intro hc
  exact h (a - off) (by omega) (by omega)

theorem addr3_ne (N B kv : Nat) (l pb r o j pb' r' o' : Nat)
    (hpb : pb < N) (hpb' : pb' < N) (hr : r < B) (hr' : r' < B)
    (ho : o < kv) (ho' : o' < kv)
    (hne : ¬(l = j ∧ pb = pb' ∧ r = r')) :
    l * (N * (B * kv)) + (pb * (B * kv) + (r * kv + o)) ≠
    j * (N * (B * kv)) + pb' * (B * kv) + r' * kv + o' := by
  intro h
  rw [show l * (N * (B * kv)) + (pb * (B * kv) + (r * kv + o)) =
      ((l * N + pb) * B + r) * kv + o from by ring,
    show j * (N * (B * kv)) + pb' * (B * kv) + r' * kv + o' =
      ((j * N + pb') * B + r') * kv + o' from by ring] at h
  obtain ⟨h1, h3⟩ := digit_inj kv _ _ _ _ ho ho' h
  obtain ⟨h2, h4⟩ := digit_inj B _ _ _ _ hr hr' h1
  obtain ⟨h5, h6⟩ := digit_inj N _ _ _ _ hpb hpb' h2
  exact hne ⟨h5, h6, h4⟩

theorem std_addr_ne (S kv : Nat) (l t o j t' o' : Nat)
    (ht : t < S) (ht' : t' < S) (ho : o < kv) (ho' : o' < kv)
    (hne : ¬(l = j ∧ t = t')) :
    l * (S * kv) + (t * kv + o) ≠ j * (S * kv) + t' * kv + o' := by
  intro h
  rw [show l * (S * kv) + (t * kv + o) = (l * S + t) * kv + o from by ring,
    show j * (S * kv) + t' * kv + o' = (j * S + t') * kv + o' from by ring] at h
  obtain ⟨h1, _⟩ := digit_inj kv _ _ _ _ ho ho' h
  obtain ⟨h2, h3⟩ := digit_inj S _ _ _ _ ht ht' h1
  exact hne ⟨h2, h3⟩

theorem syncInv_mono (cfg : MCfg) (pst : PagedReqState) (Ks Vs : Nat → ℚ)
    (cnt cnt' : Nat → Nat) (h : ∀ l, l < cfg.n_layers → cnt l = cnt' l)
    (hinv : SyncInv cfg pst Ks Vs cnt) : SyncInv cfg pst Ks Vs cnt' := by
  refine ⟨hinv.tlen, ?_, hinv.entry_lt, hinv.entry_marked, hinv.entry_inj,
    hinv.pool_len, ?_, hinv.count_true, ?_, ?_⟩
  · intro l hl
    rw [← h l hl]
    exact hinv.rowlen l hl
  · rw [← map_range_congr cfg.n_layers
      (fun l => nblocks cfg.block_size (cnt l))
      (fun l => nblocks cfg.block_size (cnt' l))
      (fun l hl => by simp only []; rw [h l hl])]
    exact hinv.free_count
  · intro l hl t ht o ho
    exact hinv.corrK l hl t (by rw [h l hl]; exact ht) o ho
  · intro l hl t ht o ho
    exact hinv.corrV l hl t (by rw [h l hl]; exact ht) o ho

theorem norm_tables_eq_self (cfg : MCfg) (st : PagedReqState)
    (h : st.tables.length = cfg.n_layers) : norm_tables cfg st = st := by
  unfold norm_tables
  by_cases he : st.tables = []
  · rw [if_pos he]
    have hz : cfg.n_layers = 0 := by rw [← h, he]; rfl
    rw [hz]
    cases st with
    | mk pool tables Kp Vp =>
        simp only [List.replicate]
        simp only at he
        rw [he]
  · rw [if_neg he]

/-- Per-buffer correspondence upgrade for one `forward` layer: if the paged
and contiguous buffers agree on all written slots (layers `< j` through
position `p`, layers `≥ j` through `p−1`), then after both sides write the
same source vector — the paged side at
`(j, row'[p/B], p%B)`, the contiguous side at `(j, p)` — they agree on all
slots with layer `j` upgraded through position `p`. -/
theorem paged_buffer_corr (cfg : MCfg)
    (hB : 0 < cfg.block_size)
    (p j : Nat) (hp : p < cfg.max_seq_len) (hj : j < cfg.n_layers)
    (Bp Bs src : Nat → ℚ)
    (tablesOld tables' : List (List Nat)) (row' : List Nat)
    (hrowj : tables'.getD j [] = row')
    (htab_other : ∀ l, l ≠ j → tables'.getD l [] = tablesOld.getD l [])
    (hrow_new : row'.length = nblocks cfg.block_size (p + 1))
    (hrow_pref : ∀ m, m < nblocks cfg.block_size p →
      row'.getD m 0 = (tablesOld.getD j []).getD m 0)
    (hrowlen_all : ∀ l, l < cfg.n_layers →
      (tables'.getD l []).length =
        nblocks cfg.block_size (if l < j + 1 then p + 1 else p))
    (hlt_all : ∀ l, l < cfg.n_layers → ∀ m, m < (tables'.getD l []).length →
      (tables'.getD l []).getD m 0 < cfg.num_blocks)
    (hinj_all : ∀ l l', l < cfg.n_layers → l' < cfg.n_layers →
      ∀ m m', m < (tables'.getD l []).length → m' < (tables'.getD l' []).length →
      (tables'.getD l []).getD m 0 = (tables'.getD l' []).getD m' 0 → l = l' ∧ m = m')
    (hcorr_old : ∀ l, l < cfg.n_layers → ∀ t, t < (if l < j then p + 1 else p) →
      ∀ o, o < kvdim cfg →
      Bp (paged_slot cfg (tablesOld.getD l []) l t o) = Bs (std_slot cfg l t o)) :
    ∀ l, l < cfg.n_layers → ∀ t, t < (if l < j + 1 then p + 1 else p) →
      ∀ o, o < kvdim cfg →
      store_vec Bp
        (j * (cfg.num_blocks * (cfg.block_size * kvdim cfg)) +
          row'.getD (p / cfg.block_size) 0 * (cfg.block_size * kvdim cfg) +
          (p % cfg.block_size) * kvdim cfg)
        src (kvdim cfg)
        (paged_slot cfg (tables'.getD l []) l t o) =
      store_vec Bs
        (j * (cfg.max_seq_len * kvdim cfg) + p * kvdim cfg)
        src (kvdim cfg)
        (std_slot cfg l t o) := by
  have hpdiv_lt : p / cfg.block_size < nblocks cfg.block_size (p + 1) :=
    div_lt_nblocks _ hB _ _ (by omega)
  have hb_w : row'.getD (p / cfg.block_size) 0 < cfg.num_blocks := by
    have := hlt_all j hj (p / cfg.block_size)
      (by rw [hrowj, hrow_new]; exact hpdiv_lt)
    rw [hrowj] at this
    exact this
  intro l hl t ht o ho
  by_cases hlj : l = j
  · subst hlj
    by_cases htp : t = p
    · rw [htp, hrowj]
      rw [show paged_slot cfg row' l p o =
          l * (cfg.num_blocks * (cfg.block_size * kvdim cfg)) +
            row'.getD (p / cfg.block_size) 0 * (cfg.block_size * kvdim cfg) +
            (p % cfg.block_size) * kvdim cfg + o from by
        simp only [paged_slot]; ring]
      rw [store_vec_at _ _ _ _ _ ho]
      rw [show std_slot cfg l p o =
          l * (cfg.max_seq_len * kvdim cfg) + p * kvdim cfg + o from by
        simp only [std_slot]; ring]
      rw [store_vec_at _ _ _ _ _ ho]
    · have htp' : t < p := by
        rw [if_pos (by omega : l < l + 1)] at ht
        omega
      have hdiv_lt : t / cfg.block_size < nblocks cfg.block_size p :=
        div_lt_nblocks _ hB _ _ htp'
      have hdiv_lt' : t / cfg.block_size < (tables'.getD l []).length := by
        rw [hrowj, hrow_new]
        exact Nat.lt_of_lt_of_le hdiv_lt (nblocks_mono _ _ _ (by omega))
      have hb_read : (tables'.getD l []).getD (t / cfg.block_size) 0 < cfg.num_blocks :=
        hlt_all l hl _ hdiv_lt'
      have hne_rw : ¬(l = l ∧
          (tables'.getD l []).getD (t / cfg.block_size) 0 =
            row'.getD (p / cfg.block_size) 0 ∧
          t % cfg.block_size = p % cfg.block_size) := by
        by_cases hdd : t / cfg.block_size = p / cfg.block_size
        · intro hc
          exact mod_ne_of_div_eq cfg.block_size t p htp' hdd hc.2.2
        · intro hc
          have hpdiv_lt'' : p / cfg.block_size < (tables'.getD l []).length := by
            rw [hrowj, hrow_new]; exact hpdiv_lt
          have := hinj_all l l hl hl (t / cfg.block_size) (p / cfg.block_size)
            hdiv_lt' hpdiv_lt'' (by rw [hrowj] at hc ⊢; exact hc.2.1)
          exact hdd this.2
      rw [store_vec_ne _ _ _ _ _ (by
        intro o' ho' heq
        exact addr3_ne cfg.num_blocks cfg.block_size (kvdim cfg) l
          ((tables'.getD l []).getD (t / cfg.block_size) 0) (t % cfg.block_size) o
          l (row'.getD (p / cfg.block_size) 0) (p % cfg.block_size) o'
          hb_read hb_w (Nat.mod_lt t hB) (Nat.mod_lt p hB) ho ho' hne_rw
          (by simpa only [paged_slot] using heq))]
      rw [store_vec_ne _ _ _ _ _ (by
        intro o' ho' heq
        exact std_addr_ne cfg.max_seq_len (kvdim cfg) l t o l p o'
          (by omega) hp ho ho' (by intro hc; exact htp hc.2)
          (by simpa only [std_slot] using heq))]
      have hentry_eq : (tables'.getD l []).getD (t / cfg.block_size) 0 =
          (tablesOld.getD l []).getD (t / cfg.block_size) 0 := by
        rw [hrowj]
        exact hrow_pref _ hdiv_lt
      rw [show paged_slot cfg (tables'.getD l []) l t o =
          paged_slot cfg (tablesOld.getD l []) l t o from by
        simp only [paged_slot, hentry_eq]]
      exact hcorr_old l hl t (by rw [if_neg (lt_irrefl l)]; exact htp') o ho
  · have hcnt_eq : (if l < j + 1 then p + 1 else p) = (if l < j then p + 1 else p) := by
      by_cases h1 : l < j
      · rw [if_pos h1, if_pos (by omega)]
      · rw [if_neg h1, if_neg (by omega : ¬l < j + 1)]
    rw [hcnt_eq] at ht
    have htS : t < cfg.max_seq_len := by
      by_cases h1 : l < j
      · rw [if_pos h1] at ht; omega
      · rw [if_neg h1] at ht; omega
    have hcnt_lt : t < (if l < j then p + 1 else p) := ht
    have hdiv_lt' : t / cfg.block_size < (tables'.getD l []).length := by
      rw [hrowlen_all l hl, hcnt_eq]
      exact div_lt_nblocks _ hB _ _ ht
    have hb_read : (tables'.getD l []).getD (t / cfg.block_size) 0 < cfg.num_blocks :=
      hlt_all l hl _ hdiv_lt'
    rw [store_vec_ne _ _ _ _ _ (by
      intro o' ho' heq
      exact addr3_ne cfg.num_blocks cfg.block_size (kvdim cfg) l
        ((tables'.getD l []).getD (t / cfg.block_size) 0) (t % cfg.block_size) o
        j (row'.getD (p / cfg.block_size) 0) (p % cfg.block_size) o'
        hb_read hb_w (Nat.mod_lt t hB) (Nat.mod_lt p hB) ho ho'
        (by intro hc; exact hlj hc.1)
        (by simpa only [paged_slot] using heq))]
    rw [store_vec_ne _ _ _ _ _ (by
      intro o' ho' heq
      exact std_addr_ne cfg.max_seq_len (kvdim cfg) l t o j p o'
        htS hp ho ho' (by intro hc; exact hlj hc.1)
        (by simpa only [std_slot] using heq))]
    rw [show paged_slot cfg (tables'.getD l []) l t o =
        paged_slot cfg (tablesOld.getD l []) l t o from by
      rw [htab_other l hlj]]
    exact hcorr_old l hl t ht o ho

/-- Assembly of one synchronised layer step: given the post-allocation
pool and tables with their bookkeeping facts and the computed result of
`paged_layer`, the layer's output states match `std_layer` and the
invariant advances at layer `j`. -/
theorem paged_layer_sync_assemble (cfg : MCfg) (ops : ModelOps) (rid : Nat)
    (hhd : 0 < cfg.head_dim) (hB : 0 < cfg.block_size)
    (hmul : 0 < cfg.n_heads / cfg.n_kv_heads)
    (hdvd : cfg.n_heads = cfg.n_heads / cfg.n_kv_heads * cfg.n_kv_heads)
    (p j : Nat) (hp : p < cfg.max_seq_len) (hj : j < cfg.n_layers)
    (x : Nat → ℚ) (st : PagedReqState) (Ks Vs : Nat → ℚ)
    (hinv : SyncInv cfg st Ks Vs (fun l => if l < j then p + 1 else p))
    (pool' : BlockManager) (tables' : List (List Nat))
    (hpl : paged_layer cfg ops rid p j (some (x, st)) =
      some (ops.postAtt j x
        (paged_attention ops.expf ops.scale (ops.qkv j x p).1
          (fun a => store_vec st.Kp
            (j * (cfg.num_blocks * (cfg.block_size * kvdim cfg)) +
              (tables'.getD j []).getD (p / cfg.block_size) 0 *
                (cfg.block_size * kvdim cfg) +
              (p % cfg.block_size) * kvdim cfg)
            (ops.qkv j x p).2.1 (kvdim cfg)
            (j * (cfg.num_blocks * (cfg.block_size * kvdim cfg)) + a))
          (fun a => store_vec st.Vp
            (j * (cfg.num_blocks * (cfg.block_size * kvdim cfg)) +
              (tables'.getD j []).getD (p / cfg.block_size) 0 *
                (cfg.block_size * kvdim cfg) +
              (p % cfg.block_size) * kvdim cfg)
            (ops.qkv j x p).2.2 (kvdim cfg)
            (j * (cfg.num_blocks * (cfg.block_size * kvdim cfg)) + a))
          (tables'.getD j []) (p + 1) cfg.block_size cfg.head_dim
          cfg.n_heads cfg.n_kv_heads),
        ⟨pool', tables',
          store_vec st.Kp
            (j * (cfg.num_blocks * (cfg.block_size * kvdim cfg)) +
              (tables'.getD j []).getD (p / cfg.block_size) 0 *
                (cfg.block_size * kvdim cfg) +
              (p % cfg.block_size) * kvdim cfg)
            (ops.qkv j x p).2.1 (kvdim cfg),
          store_vec st.Vp
            (j * (cfg.num_blocks * (cfg.block_size * kvdim cfg)) +
              (tables'.getD j []).getD (p / cfg.block_size) 0 *
                (cfg.block_size * kvdim cfg) +
              (p % cfg.block_size) * kvdim cfg)
            (ops.qkv j x p).2.2 (kvdim cfg)⟩))
    (htab_len : tables'.length = cfg.n_layers)
    (htab_other : ∀ l, l ≠ j → tables'.getD l [] = st.tables.getD l [])
    (hrow_new : (tables'.getD j []).length = nblocks cfg.block_size (p + 1))
    (hrow_pref : ∀ m, m < nblocks cfg.block_size p →
      (tables'.getD j []).getD m 0 = (st.tables.getD j []).getD m 0)
    (hrowlen_all : ∀ l, l < cfg.n_layers →
      (tables'.getD l []).length =
        nblocks cfg.block_size (if l < j + 1 then p + 1 else p))
    (hlt_all : ∀ l, l < cfg.n_layers → ∀ m, m < (tables'.getD l []).length →
      (tables'.getD l []).getD m 0 < cfg.num_blocks)
    (hmark_all : ∀ l, l < cfg.n_layers → ∀ m, m < (tables'.getD l []).length →
      pool'.free_blocks.getD ((tables'.getD l []).getD m 0) true = false)
    (hinj_all : ∀ l l', l < cfg.n_layers → l' < cfg.n_layers →
      ∀ m m', m < (tables'.getD l []).length → m' < (tables'.getD l' []).length →
      (tables'.getD l []).getD m 0 = (tables'.getD l' []).getD m' 0 → l = l' ∧ m = m')
    (hpool_len' : pool'.free_blocks.length = cfg.num_blocks)
    (hfree' : pool'.num_free_blocks +
      ((List.range cfg.n_layers).map
        (fun l => nblocks cfg.block_size (if l < j + 1 then p + 1 else p))).sum =
      cfg.num_blocks)
    (hcnt' : pool'.free_blocks.count true = pool'.num_free_blocks) :
    ∃ st₁, paged_layer cfg ops rid p j (some (x, st)) =
        some ((std_layer cfg ops p j (x, Ks, Vs)).1, st₁) ∧
      SyncInv cfg st₁ (std_layer cfg ops p j (x, Ks, Vs)).2.1
        (std_layer cfg ops p j (x, Ks, Vs)).2.2
        (fun l => if l < j + 1 then p + 1 else p) := by
  have hcorrK := paged_buffer_corr cfg hB p j hp hj st.Kp Ks (ops.qkv j x p).2.1
    st.tables tables' (tables'.getD j []) rfl htab_other hrow_new hrow_pref
    hrowlen_all hlt_all hinj_all hinv.corrK
  have hcorrV := paged_buffer_corr cfg hB p j hp hj st.Vp Vs (ops.qkv j x p).2.2
    st.tables tables' (tables'.getD j []) rfl htab_other hrow_new hrow_pref
    hrowlen_all hlt_all hinj_all hinv.corrV
  have hatt := paged_attention_eq_standard ops.expf ops.scale (ops.qkv j x p).1
    (fun a => store_vec st.Kp
      (j * (cfg.num_blocks * (cfg.block_size * kvdim cfg)) +
        (tables'.getD j []).getD (p / cfg.block_size) 0 * (cfg.block_size * kvdim cfg) +
        (p % cfg.block_size) * kvdim cfg)
      (ops.qkv j x p).2.1 (kvdim cfg)
      (j * (cfg.num_blocks * (cfg.block_size * kvdim cfg)) + a))
    (fun a => store_vec st.Vp
      (j * (cfg.num_blocks * (cfg.block_size * kvdim cfg)) +
        (tables'.getD j []).getD (p / cfg.block_size) 0 * (cfg.block_size * kvdim cfg) +
        (p % cfg.block_size) * kvdim cfg)
      (ops.qkv j x p).2.2 (kvdim cfg)
      (j * (cfg.num_blocks * (cfg.block_size * kvdim cfg)) + a))
    (fun a => store_vec Ks
      (j * (cfg.max_seq_len * kvdim cfg) + p * kvdim cfg)
      (ops.qkv j x p).2.1 (kvdim cfg)
      (j * (cfg.max_seq_len * kvdim cfg) + a))
    (fun a => store_vec Vs
      (j * (cfg.max_seq_len * kvdim cfg) + p * kvdim cfg)
      (ops.qkv j x p).2.2 (kvdim cfg)
      (j * (cfg.max_seq_len * kvdim cfg) + a))
    (tables'.getD j []) p cfg.block_size cfg.head_dim cfg.n_heads cfg.n_kv_heads
    hhd hmul hdvd
    (by
      intro t ht o ho
      have h1 := hcorrK j hj t (by rw [if_pos (Nat.lt_succ_self j)]; omega) o ho
      rw [show paged_slot cfg (tables'.getD j []) j t o =
          j * (cfg.num_blocks * (cfg.block_size * kvdim cfg)) +
            ((tables'.getD j []).getD (t / cfg.block_size) 0 *
              (cfg.block_size * (cfg.n_kv_heads * cfg.head_dim)) +
              (t % cfg.block_size) * (cfg.n_kv_heads * cfg.head_dim) + o) from by
        simp only [paged_slot, kvdim]; try ring] at h1
      rw [show std_slot cfg j t o =
          j * (cfg.max_seq_len * kvdim cfg) +
            (t * (cfg.n_kv_heads * cfg.head_dim) + o) from by
        simp only [std_slot, kvdim]; try ring] at h1
      exact h1)
    (by
      intro t ht o ho
      have h1 := hcorrV j hj t (by rw [if_pos (Nat.lt_succ_self j)]; omega) o ho
      rw [show paged_slot cfg (tables'.getD j []) j t o =
          j * (cfg.num_blocks * (cfg.block_size * kvdim cfg)) +
            ((tables'.getD j []).getD (t / cfg.block_size) 0 *
              (cfg.block_size * (cfg.n_kv_heads * cfg.head_dim)) +
              (t % cfg.block_size) * (cfg.n_kv_heads * cfg.head_dim) + o) from by
        simp only [paged_slot, kvdim]; try ring] at h1
      rw [show std_slot cfg j t o =
          j * (cfg.max_seq_len * kvdim cfg) +
            (t * (cfg.n_kv_heads * cfg.head_dim) + o) from by
        simp only [std_slot, kvdim]; try ring] at h1
      exact h1)
  refine ⟨⟨pool', tables',
    store_vec st.Kp
      (j * (cfg.num_blocks * (cfg.block_size * kvdim cfg)) +
        (tables'.getD j []).getD (p / cfg.block_size) 0 * (cfg.block_size * kvdim cfg) +
        (p % cfg.block_size) * kvdim cfg)
      (ops.qkv j x p).2.1 (kvdim cfg),
    store_vec st.Vp
      (j * (cfg.num_blocks * (cfg.block_size * kvdim cfg)) +
        (tables'.getD j []).getD (p / cfg.block_size) 0 * (cfg.block_size * kvdim cfg) +
        (p % cfg.block_size) * kvdim cfg)
      (ops.qkv j x p).2.2 (kvdim cfg)⟩, ?_, ?_⟩
  · rw [hpl]
    simp only [std_layer]
    rw [hatt]
  · refine ⟨htab_len, ?_, hlt_all, hmark_all, hinj_all, hpool_len', hfree', hcnt',
      ?_, ?_⟩
    · intro l hl
      by_cases hlj : l = j
      · subst hlj
        rw [hrow_new, if_pos (Nat.lt_succ_self l)]
      · exact hrowlen_all l hl
    · intro l hl t ht o ho
      have h1 := hcorrK l hl t ht o ho
      simp only [std_layer]
      exact h1
    · intro l hl t ht o ho
      have h1 := hcorrV l hl t ht o ho
      simp only [std_layer]
      exact h1

/-- One layer of the synchronised step: under the invariant and the
capacity bound, `paged_layer` succeeds (the allocation, when due, finds a
free block) and matches `std_layer`, advancing the invariant at layer
`j`. -/
theorem paged_layer_sync (cfg : MCfg) (ops : ModelOps) (rid : Nat)
    (hhd : 0 < cfg.head_dim) (hB : 0 < cfg.block_size)
    (hmul : 0 < cfg.n_heads / cfg.n_kv_heads)
    (hdvd : cfg.n_heads = cfg.n_heads / cfg.n_kv_heads * cfg.n_kv_heads)
    (p j : Nat) (hp : p < cfg.max_seq_len) (hj : j < cfg.n_layers)
    (hcap : cfg.n_layers * nblocks cfg.block_size (p + 1) ≤ cfg.num_blocks)
    (x : Nat → ℚ) (st : PagedReqState) (Ks Vs : Nat → ℚ)
    (hinv : SyncInv cfg st Ks Vs (fun l => if l < j then p + 1 else p)) :
    ∃ st₁, paged_layer cfg ops rid p j (some (x, st)) =
        some ((std_layer cfg ops p j (x, Ks, Vs)).1, st₁) ∧
      SyncInv cfg st₁ (std_layer cfg ops p j (x, Ks, Vs)).2.1
        (std_layer cfg ops p j (x, Ks, Vs)).2.2
        (fun l => if l < j + 1 then p + 1 else p) := by
  have hifs : ∀ l, l ≠ j → (if l < j + 1 then p + 1 else p) = (if l < j then p + 1 else p) := by
    intro l hlj
    by_cases h1 : l < j
    · rw [if_pos h1, if_pos (by omega)]
    · rw [if_neg h1, if_neg (by omega)]
  by_cases hpb : p % cfg.block_size = 0
  · -- block boundary: allocation happens
    have hnb_succ : nblocks cfg.block_size (p + 1) = nblocks cfg.block_size p + 1 := by
      simp [nblocks, hpb]
    have hsum_all : ((List.range cfg.n_layers).map
        (fun l => nblocks cfg.block_size (if l < j + 1 then p + 1 else p))).sum ≤
        cfg.n_layers * nblocks cfg.block_size (p + 1) :=
      sum_range_map_le _ _ _ (fun l hl => by
        show nblocks cfg.block_size (if l < j + 1 then p + 1 else p) ≤
          nblocks cfg.block_size (p + 1)
        split
        · exact le_refl _
        · exact nblocks_mono _ _ _ (by omega))
    have hupd := sum_range_map_update cfg.n_layers j
      (fun l => nblocks cfg.block_size (if l < j + 1 then p + 1 else p))
      (fun l => nblocks cfg.block_size (if l < j then p + 1 else p))
      hj (fun l hlj => by
        show nblocks cfg.block_size (if l < j + 1 then p + 1 else p) =
          nblocks cfg.block_size (if l < j then p + 1 else p)
        rw [hifs l hlj])
    have hupd2 : ((List.range cfg.n_layers).map
        (fun l => nblocks cfg.block_size (if l < j + 1 then p + 1 else p))).sum +
        nblocks cfg.block_size p =
        ((List.range cfg.n_layers).map
          (fun l => nblocks cfg.block_size (if l < j then p + 1 else p))).sum +
        nblocks cfg.block_size (p + 1) := by
      have h1 : (fun l => nblocks cfg.block_size (if l < j then p + 1 else p)) j =
          nblocks cfg.block_size p := by
        show nblocks cfg.block_size (if j < j then p + 1 else p) =
          nblocks cfg.block_size p
        rw [if_neg (lt_irrefl j)]
      have h2 : (fun l => nblocks cfg.block_size (if l < j + 1 then p + 1 else p)) j =
          nblocks cfg.block_size (p + 1) := by
        show nblocks cfg.block_size (if j < j + 1 then p + 1 else p) =
          nblocks cfg.block_size (p + 1)
        rw [if_pos (Nat.lt_succ_self j)]
      rw [h1, h2] at hupd
      exact hupd
    clear hupd
    have hSN : ((List.range cfg.n_layers).map
        (fun l => nblocks cfg.block_size (if l < j + 1 then p + 1 else p))).sum ≤
        cfg.num_blocks := le_trans hsum_all hcap
    have hfree := hinv.free_count
    have hfree_pos : st.pool.num_free_blocks ≠ 0 := by omega
    obtain ⟨b, pool₁, halloc⟩ := allocate_succeeds st.pool rid hfree_pos hinv.count_true
    obtain ⟨hb_lt, hb_free, hpool₁_fb, hpool₁_nf⟩ := allocate_spec _ _ _ _ halloc
    have hb_ltN : b < cfg.num_blocks := by rw [← hinv.pool_len]; exact hb_lt
    have hrow_len_old : (st.tables.getD j []).length = nblocks cfg.block_size p := by
      have := hinv.rowlen j hj
      rwa [if_neg (lt_irrefl j)] at this
    have hjtab : j < st.tables.length := by rw [hinv.tlen]; exact hj
    have hset_getj : (st.tables.set j (st.tables.getD j [] ++ [b])).getD j [] =
        st.tables.getD j [] ++ [b] := getD_set_self _ _ _ _ hjtab
    have hset_getne : ∀ l, l ≠ j →
        (st.tables.set j (st.tables.getD j [] ++ [b])).getD l [] =
        st.tables.getD l [] :=
      fun l hl => getD_set_ne _ _ _ _ _ (Ne.symm hl)
    have hrow'_at : ∀ m, m < (st.tables.getD j []).length →
        (st.tables.getD j [] ++ [b]).getD m 0 = (st.tables.getD j []).getD m 0 :=
      fun m hm => getD_append_left _ _ _ _ hm
    have hrow'_last :
        (st.tables.getD j [] ++ [b]).getD (st.tables.getD j []).length 0 = b := by
      rw [getD_append_right _ _ _ _ (le_refl _)]
      simp
    have hrow'_len : (st.tables.getD j [] ++ [b]).length =
        nblocks cfg.block_size (p + 1) := by
      rw [List.length_append, hrow_len_old, hnb_succ]
      rfl
    have hold_ne_b : ∀ l, l < cfg.n_layers → ∀ m, m < (st.tables.getD l []).length →
        (st.tables.getD l []).getD m 0 ≠ b := by
      intro l hl m hm heq
      have hmk := hinv.entry_marked l hl m hm
      rw [heq, hb_free] at hmk
      exact Bool.noConfusion hmk
    refine paged_layer_sync_assemble cfg ops rid hhd hB hmul hdvd p j hp hj x st Ks Vs
      hinv pool₁ (st.tables.set j (st.tables.getD j [] ++ [b])) ?_ ?_ hset_getne ?_ ?_
      ?_ ?_ ?_ ?_ ?_ ?_ ?_
    · -- the computation of paged_layer
      simp only [paged_layer]
      rw [if_pos hpb, halloc]
    · rw [List.length_set]; exact hinv.tlen
    · rw [hset_getj]; exact hrow'_len
    · intro m hm
      rw [hset_getj]
      exact hrow'_at m (by rw [hrow_len_old]; exact hm)
    · intro l hl
      by_cases hlj : l = j
      · subst hlj
        rw [hset_getj, hrow'_len, if_pos (Nat.lt_succ_self l)]
      · rw [hset_getne l hlj, hifs l hlj]
        exact hinv.rowlen l hl
    · intro l hl m hm
      by_cases hlj : l = j
      · subst hlj
        rw [hset_getj] at hm ⊢
        by_cases hmo : m < (st.tables.getD l []).length
        · rw [hrow'_at m hmo]
          exact hinv.entry_lt l hl m hmo
        · have hm_eq : m = (st.tables.getD l []).length := by
            rw [List.length_append] at hm
            simp only [List.length_cons, List.length_nil] at hm
            omega
          rw [hm_eq, hrow'_last]
          exact hb_ltN
      · rw [hset_getne l hlj] at hm ⊢
        exact hinv.entry_lt l hl m hm
    · intro l hl m hm
      rw [hpool₁_fb]
      by_cases hlj : l = j
      · subst hlj
        rw [hset_getj] at hm ⊢
        by_cases hmo : m < (st.tables.getD l []).length
        · rw [hrow'_at m hmo]
          rw [getD_set_ne _ _ _ _ _ (Ne.symm (hold_ne_b l hl m hmo))]
          exact hinv.entry_marked l hl m hmo
        · have hm_eq : m = (st.tables.getD l []).length := by
            rw [List.length_append] at hm
            simp only [List.length_cons, List.length_nil] at hm
            omega
          rw [hm_eq, hrow'_last]
          exact getD_set_self _ _ _ _ hb_lt
      · rw [hset_getne l hlj] at hm ⊢
        rw [getD_set_ne _ _ _ _ _ (Ne.symm (hold_ne_b l hl m hm))]
        exact hinv.entry_marked l hl m hm
    · intro l l' hl hl' m m' hm hm' heq
      by_cases hlj : l = j <;> by_cases hlj' : l' = j
      · subst hlj; subst hlj'
        rw [hset_getj] at hm hm' heq
        by_cases hmo : m < (st.tables.getD l' []).length <;>
          by_cases hmo' : m' < (st.tables.getD l' []).length
        · rw [hrow'_at m hmo, hrow'_at m' hmo'] at heq
          exact hinv.entry_inj l' l' hl' hl' m m' hmo hmo' heq
        · have hm_eq' : m' = (st.tables.getD l' []).length := by
            rw [List.length_append] at hm'
            simp only [List.length_cons, List.length_nil] at hm'
            omega
          rw [hrow'_at m hmo, hm_eq', hrow'_last] at heq
          exact absurd heq (hold_ne_b l' hl' m hmo)
        · have hm_eq : m = (st.tables.getD l' []).length := by
            rw [List.length_append] at hm
            simp only [List.length_cons, List.length_nil] at hm
            omega
          rw [hm_eq, hrow'_last, hrow'_at m' hmo'] at heq
          exact absurd heq.symm (hold_ne_b l' hl' m' hmo')
        · have hm_eq : m = (st.tables.getD l' []).length := by
            rw [List.length_append] at hm
            simp only [List.length_cons, List.length_nil] at hm
            omega
          have hm_eq' : m' = (st.tables.getD l' []).length := by
            rw [List.length_append] at hm'
            simp only [List.length_cons, List.length_nil] at hm'
            omega
          exact ⟨rfl, by omega⟩
      · subst hlj
        rw [hset_getj] at hm heq
        rw [hset_getne l' hlj'] at hm' heq
        by_cases hmo : m < (st.tables.getD l []).length
        · rw [hrow'_at m hmo] at heq
          exact hinv.entry_inj l l' hl hl' m m' hmo hm' heq
        · have hm_eq : m = (st.tables.getD l []).length := by
            rw [List.length_append] at hm
            simp only [List.length_cons, List.length_nil] at hm
            omega
          rw [hm_eq, hrow'_last] at heq
          exact absurd heq.symm (hold_ne_b l' hl' m' hm')
      · subst hlj'
        rw [hset_getj] at hm' heq
        rw [hset_getne l hlj] at hm heq
        by_cases hmo' : m' < (st.tables.getD l' []).length
        · rw [hrow'_at m' hmo'] at heq
          exact hinv.entry_inj l l' hl hl' m m' hm hmo' heq
        · have hm_eq' : m' = (st.tables.getD l' []).length := by
            rw [List.length_append] at hm'
            simp only [List.length_cons, List.length_nil] at hm'
            omega
          rw [hm_eq', hrow'_last] at heq
          exact absurd heq (hold_ne_b l hl m hm)
      · rw [hset_getne l hlj] at hm heq
        rw [hset_getne l' hlj'] at hm' heq
        exact hinv.entry_inj l l' hl hl' m m' hm hm' heq
    · rw [hpool₁_fb, List.length_set]
      exact hinv.pool_len
    · omega
    · rw [hpool₁_fb]
      have hcount := count_true_set_false st.pool.free_blocks b hb_lt hb_free
      have := hinv.count_true
      omega
  · -- not a block boundary: no allocation
    have hnb_same : nblocks cfg.block_size (p + 1) = nblocks cfg.block_size p := by
      simp [nblocks, hpb]
    have hifs_all : ∀ l, l < cfg.n_layers →
        nblocks cfg.block_size (if l < j + 1 then p + 1 else p) =
        nblocks cfg.block_size (if l < j then p + 1 else p) := by
      intro l hl
      by_cases hlj : l = j
      · subst hlj
        rw [if_pos (Nat.lt_succ_self l), if_neg (lt_irrefl l), hnb_same]
      · rw [hifs l hlj]
    refine paged_layer_sync_assemble cfg ops rid hhd hB hmul hdvd p j hp hj x st Ks Vs
      hinv st.pool st.tables ?_ hinv.tlen (fun l _ => rfl) ?_ (fun m _ => rfl)
      ?_ hinv.entry_lt hinv.entry_marked hinv.entry_inj hinv.pool_len ?_ hinv.count_true
    · simp only [paged_layer]
      rw [if_neg hpb]
    · rw [hnb_same]
      have := hinv.rowlen j hj
      rwa [if_neg (lt_irrefl j)] at this
    · intro l hl
      rw [hifs_all l hl]
      exact hinv.rowlen l hl
    · rw [map_range_congr cfg.n_layers
        (fun l => nblocks cfg.block_size (if l < j + 1 then p + 1 else p))
        (fun l => nblocks cfg.block_size (if l < j then p + 1 else p))
        (fun l hl => by
          show nblocks cfg.block_size (if l < j + 1 then p + 1 else p) =
            nblocks cfg.block_size (if l < j then p + 1 else p)
          rw [hifs_all l hl])]
      exact hinv.free_count

/-- The synchronised layer loop over layers `j, …, j+n-1`. -/
theorem layers_sync (cfg : MCfg) (ops : ModelOps) (rid : Nat)
    (hhd : 0 < cfg.head_dim) (hB : 0 < cfg.block_size)
    (hmul : 0 < cfg.n_heads / cfg.n_kv_heads)
    (hdvd : cfg.n_heads = cfg.n_heads / cfg.n_kv_heads * cfg.n_kv_heads)
    (p : Nat) (hp : p < cfg.max_seq_len)
    (hcap : cfg.n_layers * nblocks cfg.block_size (p + 1) ≤ cfg.num_blocks) :
    ∀ (n j : Nat), j + n = cfg.n_layers →
      ∀ (x : Nat → ℚ) (st : PagedReqState) (Ks Vs : Nat → ℚ),
      SyncInv cfg st Ks Vs (fun l => if l < j then p + 1 else p) →
      ∃ x₁ st₁,
        (List.range' j n).foldl (fun acc i => paged_layer cfg ops rid p i acc)
          (some (x, st)) = some (x₁, st₁) ∧
        x₁ = ((List.range' j n).foldl (fun acc i => std_layer cfg ops p i acc)
          (x, Ks, Vs)).1 ∧
        SyncInv cfg st₁
          ((List.range' j n).foldl (fun acc i => std_layer cfg ops p i acc)
            (x, Ks, Vs)).2.1
          ((List.range' j n).foldl (fun acc i => std_layer cfg ops p i acc)
            (x, Ks, Vs)).2.2
          (fun l => if l < j + n then p + 1 else p) := by
  intro n
  induction n with
  | zero =>
      intro j hjn x st Ks Vs hinv
      exact ⟨x, st, rfl, rfl, hinv⟩
  | succ n ih =>
      intro j hjn x st Ks Vs hinv
      have hj : j < cfg.n_layers := by omega
      obtain ⟨st₁, hpl, hinv₁⟩ := paged_layer_sync cfg ops rid hhd hB hmul hdvd p j hp hj
        hcap x st Ks Vs hinv
      rw [List.range'_succ]
      simp only [List.foldl_cons]
      rw [hpl]
      obtain ⟨x₂, st₂, hfold, hx, hinv₂⟩ := ih (j + 1) (by omega)
        (std_layer cfg ops p j (x, Ks, Vs)).1 st₁
        (std_layer cfg ops p j (x, Ks, Vs)).2.1
        (std_layer cfg ops p j (x, Ks, Vs)).2.2 hinv₁
      refine ⟨x₂, st₂, hfold, hx, ?_⟩
      exact syncInv_mono cfg st₂ _ _ _ _
        (fun l hl => by rw [show j + 1 + n = j + (n + 1) from by omega]) hinv₂

/-- The synchronised full forward step: under the invariant and the
capacity bound, `forward_with_request` succeeds and produces the same
logits as the contiguous `forward`, advancing the invariant to `p + 1`. -/
theorem forward_sync (cfg : MCfg) (ops : ModelOps) (rid : Nat)
    (hhd : 0 < cfg.head_dim) (hB : 0 < cfg.block_size)
    (hmul : 0 < cfg.n_heads / cfg.n_kv_heads)
    (hdvd : cfg.n_heads = cfg.n_heads / cfg.n_kv_heads * cfg.n_kv_heads)
    (p token : Nat) (hp : p < cfg.max_seq_len)
    (hcap : cfg.n_layers * nblocks cfg.block_size (p + 1) ≤ cfg.num_blocks)
    (st : PagedReqState) (Ks Vs : Nat → ℚ)
    (hinv : SyncInv cfg (norm_tables cfg st) Ks Vs (fun _ => p)) :
    ∃ st', paged_forward cfg ops rid token p st =
        some ((std_forward cfg ops token p Ks Vs).1, st') ∧
      SyncInv cfg st' (std_forward cfg ops token p Ks Vs).2.1
        (std_forward cfg ops token p Ks Vs).2.2 (fun _ => p + 1) := by
  have hinv0 : SyncInv cfg (norm_tables cfg st) Ks Vs
      (fun l => if l < 0 then p + 1 else p) :=
    syncInv_mono _ _ _ _ _ _ (fun l hl => (if_neg (Nat.not_lt_zero l)).symm) hinv
  obtain ⟨x₁, st₁, hfold, hx, hinv₁⟩ := layers_sync cfg ops rid hhd hB hmul hdvd p hp hcap
    cfg.n_layers 0 (by omega) (ops.embed token) (norm_tables cfg st) Ks Vs hinv0
  refine ⟨st₁, ?_, ?_⟩
  · unfold paged_forward std_forward
    simp only [List.range_eq_range']
    rw [hfold, hx]
  · have hinv₂ := syncInv_mono cfg st₁ _ _ _
      (fun _ => p + 1)
      (fun l hl => by rw [if_pos (show l < 0 + cfg.n_layers from by omega)]) hinv₁
    unfold std_forward
    simp only [List.range_eq_range']
    exact hinv₂

/-- The synchronised generation loop. -/
theorem gen_sync (cfg : MCfg) (ops : ModelOps) (samp : Nat → (Nat → ℚ) → Nat)
    (rid : Nat)
    (hhd : 0 < cfg.head_dim) (hB : 0 < cfg.block_size)
    (hmul : 0 < cfg.n_heads / cfg.n_kv_heads)
    (hdvd : cfg.n_heads = cfg.n_heads / cfg.n_kv_heads * cfg.n_kv_heads) :
    ∀ (steps p token : Nat) (st : PagedReqState) (Ks Vs : Nat → ℚ),
      p + steps ≤ cfg.max_seq_len →
      cfg.n_layers * nblocks cfg.block_size (p + steps) ≤ cfg.num_blocks →
      SyncInv cfg (norm_tables cfg st) Ks Vs (fun _ => p) →
      paged_gen cfg ops samp rid steps token p st =
        some (std_gen cfg ops samp steps token p Ks Vs) := by
  intro steps
  induction steps with
  | zero => intro p token st Ks Vs _ _ _; rfl
  | succ steps ih =>
      intro p token st Ks Vs hS hcap hinv
      have hp : p < cfg.max_seq_len := by omega
      have hcap1 : cfg.n_layers * nblocks cfg.block_size (p + 1) ≤ cfg.num_blocks := by
        have h1 := nblocks_mono cfg.block_size (p + 1) (p + steps + 1) (by omega)
        have h2 := Nat.mul_le_mul_left cfg.n_layers h1
        exact le_trans h2 hcap
      obtain ⟨st', hfw, hinv'⟩ := forward_sync cfg ops rid hhd hB hmul hdvd p token hp
        hcap1 st Ks Vs hinv
      have hnorm' : norm_tables cfg st' = st' := norm_tables_eq_self cfg st' hinv'.tlen
      simp only [paged_gen, std_gen]
      rw [hfw]
      show Option.map (fun rest => ((std_forward cfg ops token p Ks Vs).1,
          samp p (std_forward cfg ops token p Ks Vs).1) :: rest)
        (paged_gen cfg ops samp rid steps
          (samp p (std_forward cfg ops token p Ks Vs).1) (p + 1) st') = _
      rw [ih (p + 1) (samp p (std_forward cfg ops token p Ks Vs).1) st'
        (std_forward cfg ops token p Ks Vs).2.1 (std_forward cfg ops token p Ks Vs).2.2
        (by omega)
        (by rw [show p + 1 + steps = p + (steps + 1) from by omega]; exact hcap)
        (by rw [hnorm']; exact hinv')]
      rfl

/-- **C1**: starting from a fresh block pool and a fresh request, with the
positions staying below `max_seq_len` and the pool holding enough blocks
for the run (`n_layers · ⌈steps/B⌉ ≤ num_blocks` — in particular no block
allocation fails), generation through `forward_with_request` with paged
attention produces, step by step, exactly the same logits vector and the
same emitted token sequence as generation through `forward` with paging
disabled — for every model (`ModelOps` carries the shared weights'
operators), every sampler-as-function-of-the-logits (a fixed RNG seed
yields the same function on both runs), and regardless of the initial
contents of either KV cache (only written slots are ever read). -/
theorem C1_paged_standard_equiv (cfg : MCfg) (ops : ModelOps)
    (samp : Nat → (Nat → ℚ) → Nat) (rid steps token0 : Nat)
    (Ks Vs Kp Vp : Nat → ℚ)
    (hhd : 0 < cfg.head_dim) (hB : 0 < cfg.block_size)
    (hmul : 0 < cfg.n_heads / cfg.n_kv_heads)
    (hdvd : cfg.n_heads = cfg.n_heads / cfg.n_kv_heads * cfg.n_kv_heads)
    (hS : steps ≤ cfg.max_seq_len)
    (hcap : cfg.n_layers * nblocks cfg.block_size steps ≤ cfg.num_blocks) :
    paged_gen cfg ops samp rid steps token0 0
      ⟨BlockManager.init cfg.num_blocks cfg.block_size, [], Kp, Vp⟩ =
    some (std_gen cfg ops samp steps token0 0 Ks Vs) := by
  apply gen_sync cfg ops samp rid hhd hB hmul hdvd steps 0 token0 _ Ks Vs
    (by omega) (by rw [Nat.zero_add]; exact hcap)
  -- the freshly initialised state satisfies the invariant at `p = 0`
  have hnorm : norm_tables cfg
      ⟨BlockManager.init cfg.num_blocks cfg.block_size, [], Kp, Vp⟩ =
      ⟨BlockManager.init cfg.num_blocks cfg.block_size,
        List.replicate cfg.n_layers [], Kp, Vp⟩ := by
    unfold norm_tables
    rw [if_pos rfl]
  rw [hnorm]
  refine ⟨?_, ?_, ?_, ?_, ?_, ?_, ?_, ?_, ?_, ?_⟩
  · exact List.length_replicate _ _
  · intro l hl
    rw [getD_replicate_nil]
    rfl
  · intro l hl m hm
    rw [getD_replicate_nil] at hm
    simp at hm
  · intro l hl m hm
    rw [getD_replicate_nil] at hm
    simp at hm
  · intro l l' hl hl' m m' hm hm' heq
    rw [getD_replicate_nil] at hm
    simp at hm
  · exact List.length_replicate _ _
  · show cfg.num_blocks + _ = cfg.num_blocks
    rw [map_range_congr cfg.n_layers _ (fun _ => 0)
      (fun l hl => by show nblocks cfg.block_size 0 = 0; rfl)]
    rw [map_range_congr cfg.n_layers (fun _ => (0 : Nat)) (fun _ => 0) (fun l hl => rfl)]
    have hz : ((List.range cfg.n_layers).map (fun _ => (0 : Nat))).sum = 0 := by
      induction cfg.n_layers with
      | zero => rfl
      | succ L ihL =>
          rw [List.range_succ, List.map_append, List.sum_append, ihL]
          rfl
    rw [hz]
    rfl
  · show (List.replicate cfg.num_blocks true).count true = cfg.num_blocks
    induction cfg.num_blocks with
    | zero => rfl
    | succ N ihN =>
        rw [List.replicate_succ, List.count_cons, ihN]
        simp
  · intro l hl t ht o ho
    simp at ht
  · intro l hl t ht o ho
    simp at ht

/-- **C1** witness: the equivalence instantiated at the one-layer,
one-head, `head_dim = 1` model `c1_cfg` (`S = 4`, `B = 2`, `N = 4`) with
transparent operators, two generation steps, and different garbage in the
two initial KV caches. -/
theorem C1_paged_standard_equiv_witness :
    0 < c1_cfg.head_dim ∧ 0 < c1_cfg.block_size ∧
    0 < c1_cfg.n_heads / c1_cfg.n_kv_heads ∧
    c1_cfg.n_heads = c1_cfg.n_heads / c1_cfg.n_kv_heads * c1_cfg.n_kv_heads ∧
    2 ≤ c1_cfg.max_seq_len ∧
    c1_cfg.n_layers * nblocks c1_cfg.block_size 2 ≤ c1_cfg.num_blocks ∧
    paged_gen c1_cfg c1_ops c1_samp 0 2 0 0
      ⟨BlockManager.init c1_cfg.num_blocks c1_cfg.block_size, [],
        (fun _ => 0), (fun _ => 0)⟩ =
    some (std_gen c1_cfg c1_ops c1_samp 2 0 0 (fun _ => 37) (fun _ => 37)) :=
  ⟨by decide, by decide, by decide, by decide, by decide, by decide,
    C1_paged_standard_equiv c1_cfg c1_ops c1_samp 0 2 0
      (fun _ => 37) (fun _ => 37) (fun _ => 0) (fun _ => 0)
      (by decide) (by decide) (by decide) (by decide) (by decide) (by decide)⟩

end NanoVllm
